import Mathlib

/-!
# AIMD token bucket (`aimdtokenbucket.go`)

A shallow embedding of `NewAIMDTokenBucket` and of the event loop its goroutine runs.

* A `float64` is an `F64`: a NaN, an infinity, or a finite value given as a rational.  The
  operations `+`, `-`, `*`, `/` compute the exact result and round it to the nearest binary64
  value, ties to even, with gradual underflow and with overflow to an infinity, as IEEE 754 and
  Go prescribe.  The two zeros are one value: no operation of the program tells them apart.
  A `time.Duration` is an integer number of nanoseconds.
* The variables captured by the goroutine (`maxFlowPerD`, `recoveryPerD`, `flowPerD`,
  `fill`) and the buffered channel `bucket` form the state `TokenBucket`.  The channel is a
  `Channel`: the list of the values it buffers, oldest first, its capacity, and the number of
  receivers blocked on it.
* One iteration of the `select` loop is one `Event`: a tick of the ticker or a signal on
  the backoff channel.  A consumer's receive from `Bucket` is a third event.  Events are
  processed one at a time, in the order of the list given to `run`.
* The loop `for fill >= 1` of a tick need not end in binary64.  It is run with a bound on the
  number of its iterations, and a tick, a step or a run has a result only when the loop leaves
  through its guard within the bound.
* The struct the constructor returns is a `Handle`: the goroutine's state and whether the
  ticker has been stopped.  A stopped `time.Ticker` sends no tick.
-/

namespace AIMDTokenBucket

/-! ## binary64 -/

/-- A `float64`: NaN, the two infinities, or a finite value. -/
inductive F64 where
  | nan
  | posInf
  | negInf
  | fin (q : ℚ)
deriving DecidableEq

/-- The power `2 ^ z` for an integer `z`. -/
def pow2 (z : Int) : ℚ :=
  if 0 ≤ z then ((2 ^ z.toNat : Nat) : ℚ) else 1 / ((2 ^ (-z).toNat : Nat) : ℚ)

/-- The least `k' ≥ k` with `n < 2 ^ 2 ^ k'`; the first argument bounds the search. -/
def findK : Nat → Nat → Nat → Nat
  | 0, k, _ => k
  | f + 1, k, n => if n < 2 ^ 2 ^ k then k else findK f (k + 1) n

/-- Bisection for the binary logarithm: from `2 ^ lo ≤ n < 2 ^ (lo + 2 ^ j)` to the `r` with
`2 ^ r ≤ n < 2 ^ (r + 1)`, in `j` steps. -/
def bisect : Nat → Nat → Nat → Nat
  | 0, lo, _ => lo
  | j + 1, lo, n => if 2 ^ (lo + 2 ^ j) ≤ n then bisect j (lo + 2 ^ j) n else bisect j lo n

/-- The binary logarithm of a natural number, rounded down: `2 ^ ilog2 n ≤ n < 2 ^ (ilog2 n + 1)`
for a positive `n`. -/
def ilog2 (n : Nat) : Nat := bisect (findK n 0 n) 0 n

/-- The binary exponent of a positive rational: `2 ^ expo x ≤ x < 2 ^ (expo x + 1)`. -/
def expo (x : ℚ) : Int :=
  if pow2 ((ilog2 x.num.natAbs : Int) - (ilog2 x.den : Int)) ≤ x then
    (ilog2 x.num.natAbs : Int) - (ilog2 x.den : Int)
  else (ilog2 x.num.natAbs : Int) - (ilog2 x.den : Int) - 1

/-- Rounding to the nearest integer, ties to the even one. -/
def rne (r : ℚ) : Int :=
  if r - (Rat.floor r : ℚ) < 1 / 2 then Rat.floor r
  else if 1 / 2 < r - (Rat.floor r : ℚ) then Rat.floor r + 1
  else if Rat.floor r % 2 = 0 then Rat.floor r
  else Rat.floor r + 1

/-- The spacing of the binary64 values around a positive rational: `2 ^ (e - 52)` with `e` the
binary exponent, which is not taken below that of the least normal number. -/
def ulp (a : ℚ) : ℚ :=
  pow2 (max (expo a) (-1022) - 52)

/-- A non-negative rational rounded to 53 significant bits, ties to even, with gradual underflow
and an exponent that is not bounded above. -/
def roundPos (a : ℚ) : ℚ :=
  (rne (a / ulp a) : ℚ) * ulp a

/-- A rational rounded to 53 significant bits. -/
def roundQ (x : ℚ) : ℚ :=
  if x = 0 then 0 else if 0 < x then roundPos x else -roundPos (-x)

/-- The binary64 value of an exact result: rounded to nearest, ties to even, and an infinity
when the rounded magnitude reaches `2 ^ 1024`. -/
def round64 (x : ℚ) : F64 :=
  if pow2 1024 ≤ roundQ x then F64.posInf
  else if roundQ x ≤ -pow2 1024 then F64.negInf
  else F64.fin (roundQ x)

/-- The conversion `float64(n)` of an integer. -/
def F64.ofInt (n : Int) : F64 := round64 (n : ℚ)

/-- The constant a decimal literal denotes: the binary64 value nearest to it. -/
def F64.lit (q : ℚ) : F64 := round64 q

/-- A rational is a binary64 value when rounding leaves it as it is. -/
def IsF64 (q : ℚ) : Prop := roundQ q = q

instance (q : ℚ) : Decidable (IsF64 q) := by
  unfold IsF64
  infer_instance

/-- The sum `x + y` of two `float64`. -/
def F64.add : F64 → F64 → F64
  | F64.nan, _ => F64.nan
  | _, F64.nan => F64.nan
  | F64.posInf, F64.negInf => F64.nan
  | F64.negInf, F64.posInf => F64.nan
  | F64.posInf, _ => F64.posInf
  | _, F64.posInf => F64.posInf
  | F64.negInf, _ => F64.negInf
  | _, F64.negInf => F64.negInf
  | F64.fin p, F64.fin q => round64 (p + q)

/-- The difference `x - y` of two `float64`. -/
def F64.sub : F64 → F64 → F64
  | F64.nan, _ => F64.nan
  | _, F64.nan => F64.nan
  | F64.posInf, F64.posInf => F64.nan
  | F64.negInf, F64.negInf => F64.nan
  | F64.posInf, _ => F64.posInf
  | _, F64.negInf => F64.posInf
  | F64.negInf, _ => F64.negInf
  | _, F64.posInf => F64.negInf
  | F64.fin p, F64.fin q => round64 (p - q)

/-- The product `x * y` of two `float64`. -/
def F64.mul : F64 → F64 → F64
  | F64.nan, _ => F64.nan
  | _, F64.nan => F64.nan
  | F64.posInf, F64.posInf => F64.posInf
  | F64.posInf, F64.negInf => F64.negInf
  | F64.negInf, F64.posInf => F64.negInf
  | F64.negInf, F64.negInf => F64.posInf
  | F64.posInf, F64.fin q =>
    if q = 0 then F64.nan else if 0 < q then F64.posInf else F64.negInf
  | F64.negInf, F64.fin q =>
    if q = 0 then F64.nan else if 0 < q then F64.negInf else F64.posInf
  | F64.fin p, F64.posInf =>
    if p = 0 then F64.nan else if 0 < p then F64.posInf else F64.negInf
  | F64.fin p, F64.negInf =>
    if p = 0 then F64.nan else if 0 < p then F64.negInf else F64.posInf
  | F64.fin p, F64.fin q => round64 (p * q)

/-- The quotient `x / y` of two `float64`.  A zero divisor is the positive zero, which is what
the conversion of the integer zero gives. -/
def F64.div : F64 → F64 → F64
  | F64.nan, _ => F64.nan
  | _, F64.nan => F64.nan
  | F64.posInf, F64.posInf => F64.nan
  | F64.posInf, F64.negInf => F64.nan
  | F64.negInf, F64.posInf => F64.nan
  | F64.negInf, F64.negInf => F64.nan
  | F64.posInf, F64.fin q => if 0 ≤ q then F64.posInf else F64.negInf
  | F64.negInf, F64.fin q => if 0 ≤ q then F64.negInf else F64.posInf
  | F64.fin _, F64.posInf => F64.fin 0
  | F64.fin _, F64.negInf => F64.fin 0
  | F64.fin p, F64.fin q =>
    if q = 0 then (if p = 0 then F64.nan else if 0 < p then F64.posInf else F64.negInf)
    else round64 (p / q)

/-- The function `math.Min`: negative infinity if either argument is, else NaN if either
argument is, else the smaller argument. -/
def F64.min : F64 → F64 → F64
  | F64.negInf, _ => F64.negInf
  | _, F64.negInf => F64.negInf
  | F64.nan, _ => F64.nan
  | _, F64.nan => F64.nan
  | F64.posInf, y => y
  | x, F64.posInf => x
  | F64.fin p, F64.fin q => F64.fin (if p ≤ q then p else q)

/-- The comparison `x <= y` of two `float64`, false when either is NaN. -/
def F64.le : F64 → F64 → Bool
  | F64.nan, _ => false
  | _, F64.nan => false
  | F64.negInf, _ => true
  | _, F64.posInf => true
  | F64.posInf, _ => false
  | _, F64.negInf => false
  | F64.fin p, F64.fin q => decide (p ≤ q)

/-- The comparison `x < y` of two `float64`, false when either is NaN. -/
def F64.lt : F64 → F64 → Bool
  | F64.nan, _ => false
  | _, F64.nan => false
  | F64.posInf, _ => false
  | _, F64.negInf => false
  | F64.negInf, _ => true
  | _, F64.posInf => true
  | F64.fin p, F64.fin q => decide (p < q)

/-- The refill period `d := 10 * time.Millisecond`, in nanoseconds. -/
def d : Int := 10 * 1000000

/-- The constant `time.Second`, in nanoseconds. -/
def second : Int := 1000000000

/-! ## The token bucket -/

/-- The channel `Bucket`, a `chan float64`.  The field `received` is a history variable that is
not in the source: it lists the values receivers have taken from the channel so far. -/
structure Channel where
  /-- the values the channel buffers, oldest first -/
  buffer : List F64
  /-- the capacity the channel was made with -/
  capacity : Nat
  /-- the number of receivers blocked on the channel -/
  waiting : Nat
  /-- history variable: the values received so far, in the order they were received -/
  received : List F64
deriving DecidableEq

/-- The goroutine's captured variables and the `Bucket` channel.  The field `sent` is a history
variable that is not in the source: it counts the calls of `sendToken` made so far. -/
structure TokenBucket where
  /-- the cap on the refill rate, in tokens per `d` -/
  maxFlowPerD : F64
  /-- what a tick adds to the refill rate -/
  recoveryPerD : F64
  /-- the current refill rate, in tokens per `d` -/
  flowPerD : F64
  /-- the fill that has not yet become a token -/
  fill : F64
  /-- the channel `Bucket` -/
  bucket : Channel
  /-- history variable: the number of `sendToken` calls so far -/
  sent : Nat
deriving DecidableEq

/-- The inputs of the goroutine's `select`, and a consumer's receive from `Bucket`. -/
inductive Event where
  | tick
  | backoff
  | consume
deriving DecidableEq, Repr

/-- The non-blocking send `select { case bucket <- ratePerSecond: default: }`.  A receiver blocked
on the channel is handed the value; otherwise the value is buffered when there is room, and the
`default` case is taken, which drops the value, when there is none. -/
def sendToken (bucket : Channel) (ratePerSecond : F64) : Channel :=
  if 0 < bucket.waiting then
    { bucket with waiting := bucket.waiting - 1, received := bucket.received ++ [ratePerSecond] }
  else if bucket.buffer.length < bucket.capacity then
    { bucket with buffer := bucket.buffer ++ [ratePerSecond] }
  else bucket

/-- The receive `<-tb.Bucket`: the oldest buffered value leaves the channel, and on an empty
channel the receiver blocks until a send hands it a value. -/
def receive (bucket : Channel) : Channel :=
  match bucket.buffer with
  | [] => { bucket with waiting := bucket.waiting + 1 }
  | v :: rest => { bucket with buffer := rest, received := bucket.received ++ [v] }

/-- The loop `for fill >= 1 { sendToken(bucket, flowPerSecond); fill = fill - 1 }`, with the number
of iterations bounded by the first argument.  It returns the fill, the channel and the number of
`sendToken` calls when the loop leaves through its guard, and nothing when the bound is used up
first. -/
def mintLoop (flowPerSecond : F64) : Nat → F64 → Channel → Nat → Option (F64 × Channel × Nat)
  | 0, fill, bucket, sent =>
    if F64.le (F64.fin 1) fill then none else some (fill, bucket, sent)
  | k + 1, fill, bucket, sent =>
    if F64.le (F64.fin 1) fill then
      mintLoop flowPerSecond k (F64.sub fill (F64.fin 1)) (sendToken bucket flowPerSecond)
        (sent + 1)
    else some (fill, bucket, sent)

/-- The case `<-tb.ticker.C` of the event loop, with a bound on the iterations of its loop. -/
def tick (bound : Nat) (s : TokenBucket) : Option TokenBucket :=
  let flowPerD := F64.min (F64.add s.flowPerD s.recoveryPerD) s.maxFlowPerD
  let flowPerSecond := F64.div (F64.mul flowPerD (F64.ofInt second)) (F64.ofInt d)
  let fill := F64.add s.fill flowPerD
  (mintLoop flowPerSecond bound fill s.bucket s.sent).map
    fun r => { s with flowPerD := flowPerD, fill := r.1, bucket := r.2.1, sent := r.2.2 }

/-- The case `<-backoffChannel` of the event loop. -/
def backoff (s : TokenBucket) : TokenBucket :=
  { s with flowPerD := F64.div s.flowPerD (F64.fin 2) }

/-- A consumer's receive `<-tb.Bucket`. -/
def consume (s : TokenBucket) : TokenBucket :=
  { s with bucket := receive s.bucket }

/-- One event. -/
def step (bound : Nat) (s : TokenBucket) : Event → Option TokenBucket
  | Event.tick => tick bound s
  | Event.backoff => some (backoff s)
  | Event.consume => some (consume s)

/-- A finite sequence of events, processed in order; there is no result when a tick of the
sequence has none. -/
def run (bound : Nat) (s : TokenBucket) : List Event → Option TokenBucket
  | [] => some s
  | e :: es => (step bound s e).bind fun s1 => run bound s1 es

/-- The state `NewAIMDTokenBucket` hands to its goroutine, for a channel capacity that
`make` accepts. -/
def initial (maxFlowPerSecond : F64) (bucketSize : Nat) (recoveryDuration : Int) : TokenBucket :=
  let maxFlowPerD := F64.div (F64.mul maxFlowPerSecond (F64.ofInt d)) (F64.ofInt second)
  let recoveryPerD := F64.div (F64.mul maxFlowPerD (F64.ofInt d)) (F64.ofInt recoveryDuration)
  { maxFlowPerD := maxFlowPerD
    recoveryPerD := recoveryPerD
    flowPerD := maxFlowPerD
    fill := F64.fin 0
    bucket := { buffer := [], capacity := bucketSize, waiting := 0, received := [] }
    sent := 0 }

/-- The constructor `NewAIMDTokenBucket`.  `make(chan float64, bucketSize)` panics on a negative
size, which is the result `none`.  Sizes that the allocator of the machine at hand refuses are
not modelled. -/
def NewAIMDTokenBucket (maxFlowPerSecond : F64) (bucketSize : Int) (recoveryDuration : Int) :
    Option TokenBucket :=
  if bucketSize < 0 then none
  else some (initial maxFlowPerSecond bucketSize.toNat recoveryDuration)

/-- The receive `<-tb.Bucket` made `n` times in a row. -/
def consumeN : Nat → TokenBucket → TokenBucket
  | 0, s => s
  | n + 1, s => consumeN n (consume s)

/-- The test's loop `for len(tb.Bucket) > 0 { <-tb.Bucket }`: one receive per buffered token. -/
def drain (s : TokenBucket) : TokenBucket :=
  consumeN s.bucket.buffer.length s

/-- The variable `flowPerD` after the first statement of the tick case, the recovery step
`flowPerD = math.Min(flowPerD+recoveryPerD, maxFlowPerD)`. -/
def tickRate (s : TokenBucket) : F64 :=
  F64.min (F64.add s.flowPerD s.recoveryPerD) s.maxFlowPerD

/-- The conversion `flowPerD * float64(time.Second) / float64(d)` of a rate per `d` to a rate
per second. -/
def perSecond (flowPerD : F64) : F64 :=
  F64.div (F64.mul flowPerD (F64.ofInt second)) (F64.ofInt d)

/-- The variable `flowPerSecond` of the tick case, the value its tokens carry. -/
def tickValue (s : TokenBucket) : F64 :=
  perSecond (tickRate s)

/-- The variable `fill` of the tick case when the loop `for fill >= 1` is entered. -/
def tickFill (s : TokenBucket) : F64 :=
  F64.add s.fill (tickRate s)

/-- The call `sendToken(bucket, ratePerSecond)` made `n` times in a row. -/
def sendTokens (ratePerSecond : F64) : Nat → Channel → Channel
  | 0, bucket => bucket
  | n + 1, bucket => sendTokens ratePerSecond n (sendToken bucket ratePerSecond)

/-- The sequence of `n` ticks. -/
def ticks (n : Nat) : List Event := List.replicate n Event.tick

/-- The sequence of `n` backoff signals. -/
def backoffs (n : Nat) : List Event := List.replicate n Event.backoff

/-- The struct `AIMDTokenBucket` as its methods use it: the state it shares with the goroutine
(the channels `Bucket` and `backoff` lead there) and whether `tb.ticker` has been stopped. -/
structure Handle where
  /-- the goroutine's variables and the channel `Bucket` -/
  state : TokenBucket
  /-- whether `tb.ticker.Stop()` has been called -/
  stopped : Bool
deriving DecidableEq

/-- The method `Stop`: `tb.ticker.Stop()`.  It touches the ticker and nothing else: neither
channel is closed and the goroutine keeps running. -/
def Stop (tb : Handle) : Handle :=
  { tb with stopped := true }

/-- The method `Backoff`: the send `tb.backoff <- void`, which returns once the goroutine has
received the signal in its `case <-backoffChannel`. -/
def Backoff (tb : Handle) : Handle :=
  { tb with state := backoff tb.state }

/-- One event at the struct.  A stopped `time.Ticker` sends no tick, so the case `<-tb.ticker.C`
is taken only while the ticker runs; the backoff channel and `Bucket` are served as before. -/
def deliver (bound : Nat) (tb : Handle) : Event → Option Handle
  | Event.tick =>
    if tb.stopped then some tb
    else (tick bound tb.state).map fun s => { tb with state := s }
  | Event.backoff => some (Backoff tb)
  | Event.consume => some { tb with state := consume tb.state }

/-- A finite sequence of events at the struct, processed in order. -/
def runHandle (bound : Nat) (tb : Handle) : List Event → Option Handle
  | [] => some tb
  | e :: es => (deliver bound tb e).bind fun tb1 => runHandle bound tb1 es

/-! ## Predicates on states -/

/-- A `float64` that is a binary64 value with `0 ≤ x`: a non-negative finite value below
`2 ^ 1024` that rounding leaves as it is, or the positive infinity. -/
def F64.NonNeg : F64 → Prop
  | F64.fin q => 0 ≤ q ∧ IsF64 q ∧ q < pow2 1024
  | F64.posInf => True
  | F64.negInf => False
  | F64.nan => False

instance (x : F64) : Decidable (F64.NonNeg x) := by
  cases x <;> unfold F64.NonNeg <;> infer_instance

/-- The invariant of the event loop: the cap, the recovery step and the rate are non-negative
binary64 values, the rate is at most the cap, and the fill is a binary64 value with
`0 ≤ fill < 1`. -/
def Inv (s : TokenBucket) : Prop :=
  s.maxFlowPerD.NonNeg ∧ s.recoveryPerD.NonNeg ∧ s.flowPerD.NonNeg ∧
    F64.le s.flowPerD s.maxFlowPerD = true ∧ s.fill.NonNeg ∧ F64.lt s.fill (F64.fin 1) = true

instance (s : TokenBucket) : Decidable (Inv s) := by
  unfold Inv
  infer_instance

/-- The largest `time.Duration`, `math.MaxInt64` nanoseconds. -/
def maxDuration : Int := 2 ^ 63 - 1

/-! ## Powers of two and the binary exponent -/

theorem pow2_eq (z : Int) : pow2 z = (2 : ℚ) ^ z := by
  unfold pow2
  by_cases h : 0 ≤ z
  · rw [if_pos h]
    obtain ⟨n, rfl⟩ := Int.eq_ofNat_of_zero_le h
    simp
  · rw [if_neg h]
    have h1 : 0 ≤ -z := by omega
    obtain ⟨n, hn⟩ := Int.eq_ofNat_of_zero_le h1
    have hz : z = -(n : Int) := by omega
    rw [hn, hz]
    simp

theorem pow2_pos (z : Int) : 0 < pow2 z := by
  rw [pow2_eq]
  positivity

theorem pow2_add (a b : Int) : pow2 (a + b) = pow2 a * pow2 b := by
  rw [pow2_eq, pow2_eq, pow2_eq, zpow_add₀ (by norm_num : (2 : ℚ) ≠ 0)]

theorem pow2_sub (a b : Int) : pow2 (a - b) = pow2 a / pow2 b := by
  rw [pow2_eq, pow2_eq, pow2_eq, zpow_sub₀ (by norm_num : (2 : ℚ) ≠ 0)]

theorem pow2_zero : pow2 0 = 1 := by
  rw [pow2_eq]; simp

theorem pow2_one : pow2 1 = 2 := by
  rw [pow2_eq]; simp

theorem pow2_le {a b : Int} (h : a ≤ b) : pow2 a ≤ pow2 b := by
  rw [pow2_eq, pow2_eq]
  exact zpow_le_zpow_right₀ (by norm_num) h

theorem pow2_lt {a b : Int} (h : a < b) : pow2 a < pow2 b := by
  rw [pow2_eq, pow2_eq]
  exact zpow_lt_zpow_right₀ (by norm_num) h

theorem lt_of_pow2_lt {a b : Int} (h : pow2 a < pow2 b) : a < b := by
  by_contra hn
  exact absurd (pow2_le (not_lt.mp hn)) (not_le.mpr h)

theorem pow2_natCast (n : Nat) : pow2 (n : Int) = ((2 ^ n : Nat) : ℚ) := by
  rw [pow2_eq]; simp

theorem pow2_succ (a : Int) : pow2 (a + 1) = 2 * pow2 a := by
  rw [pow2_add, pow2_one, mul_comm]

theorem findK_spec : ∀ (f k n : Nat), n < 2 ^ 2 ^ (k + f) → n < 2 ^ 2 ^ findK f k n := by
  intro f
  induction f with
  | zero => intro k n h; simpa [findK] using h
  | succ f ih =>
    intro k n h
    unfold findK
    by_cases hk : n < 2 ^ 2 ^ k
    · rw [if_pos hk]; exact hk
    · rw [if_neg hk]
      apply ih
      have e : k + 1 + f = k + (f + 1) := by omega
      rw [e]; exact h

theorem bisect_spec : ∀ (j lo n : Nat), 2 ^ lo ≤ n → n < 2 ^ (lo + 2 ^ j) →
    2 ^ bisect j lo n ≤ n ∧ n < 2 ^ (bisect j lo n + 1) := by
  intro j
  induction j with
  | zero => intro lo n h1 h2; exact ⟨h1, by simpa [bisect] using h2⟩
  | succ j ih =>
    intro lo n h1 h2
    unfold bisect
    by_cases hm : 2 ^ (lo + 2 ^ j) ≤ n
    · rw [if_pos hm]
      apply ih _ _ hm
      have e : lo + 2 ^ j + 2 ^ j = lo + 2 ^ (j + 1) := by rw [pow_succ]; omega
      rw [e]; exact h2
    · rw [if_neg hm]
      exact ih _ _ h1 (not_le.mp hm)

theorem ilog2_spec (n : Nat) (h : 0 < n) : 2 ^ ilog2 n ≤ n ∧ n < 2 ^ (ilog2 n + 1) := by
  unfold ilog2
  apply bisect_spec
  · simpa using h
  · rw [Nat.zero_add]
    apply findK_spec
    rw [Nat.zero_add]
    calc n < 2 ^ n := Nat.lt_two_pow n
      _ ≤ 2 ^ 2 ^ n := Nat.pow_le_pow_right (by norm_num) (Nat.lt_two_pow n).le

/-- The binary exponent brackets a positive rational between two powers of two. -/
theorem expo_spec (x : ℚ) (hx : 0 < x) : pow2 (expo x) ≤ x ∧ x < pow2 (expo x + 1) := by
  have hnum : 0 < x.num := Rat.num_pos.mpr hx
  have hn0 : 0 < x.num.natAbs := Int.natAbs_pos.mpr hnum.ne'
  have hd0 : 0 < x.den := x.den_pos
  obtain ⟨ha1, ha2⟩ := ilog2_spec _ hn0
  obtain ⟨hb1, hb2⟩ := ilog2_spec _ hd0
  have h3 : x * (x.den : ℚ) = (x.num.natAbs : ℚ) := by
    have h1 : ((x.num.natAbs : Int) : ℚ) = (x.num : ℚ) := by
      rw [Int.natAbs_of_nonneg hnum.le]
    have h2 : ((x.num.natAbs : Nat) : ℚ) = ((x.num.natAbs : Int) : ℚ) :=
      (Int.cast_natCast _).symm
    rw [h2, h1]
    exact Rat.mul_den_eq_num x
  have hdq : (0 : ℚ) < (x.den : ℚ) := by exact_mod_cast hd0
  have a1 : pow2 (ilog2 x.num.natAbs : Int) ≤ (x.num.natAbs : ℚ) := by
    rw [pow2_natCast]; exact_mod_cast ha1
  have a2 : (x.num.natAbs : ℚ) < pow2 ((ilog2 x.num.natAbs : Int) + 1) := by
    have : ((ilog2 x.num.natAbs : Int) + 1) = ((ilog2 x.num.natAbs + 1 : Nat) : Int) := by
      push_cast; rfl
    rw [this, pow2_natCast]; exact_mod_cast ha2
  have b1 : pow2 (ilog2 x.den : Int) ≤ (x.den : ℚ) := by
    rw [pow2_natCast]; exact_mod_cast hb1
  have b2 : (x.den : ℚ) < pow2 ((ilog2 x.den : Int) + 1) := by
    have : ((ilog2 x.den : Int) + 1) = ((ilog2 x.den + 1 : Nat) : Int) := by
      push_cast; rfl
    rw [this, pow2_natCast]; exact_mod_cast hb2
  -- x < 2 ^ (k + 1) and 2 ^ (k - 1) < x
  have up : x < pow2 ((ilog2 x.num.natAbs : Int) - (ilog2 x.den : Int) + 1) := by
    have e : (ilog2 x.num.natAbs : Int) - (ilog2 x.den : Int) + 1 =
        ((ilog2 x.num.natAbs : Int) + 1) - (ilog2 x.den : Int) := by ring
    rw [e, pow2_sub, lt_div_iff₀ (pow2_pos _)]
    calc x * pow2 (ilog2 x.den : Int) ≤ x * (x.den : ℚ) :=
          mul_le_mul_of_nonneg_left b1 hx.le
      _ = (x.num.natAbs : ℚ) := h3
      _ < _ := a2
  have lo : pow2 ((ilog2 x.num.natAbs : Int) - (ilog2 x.den : Int) - 1) < x := by
    have e : (ilog2 x.num.natAbs : Int) - (ilog2 x.den : Int) - 1 =
        (ilog2 x.num.natAbs : Int) - ((ilog2 x.den : Int) + 1) := by ring
    rw [e, pow2_sub, div_lt_iff₀ (pow2_pos _)]
    calc pow2 (ilog2 x.num.natAbs : Int) ≤ (x.num.natAbs : ℚ) := a1
      _ = x * (x.den : ℚ) := h3.symm
      _ < x * pow2 ((ilog2 x.den : Int) + 1) := mul_lt_mul_of_pos_left b2 hx
  unfold expo
  by_cases hk : pow2 ((ilog2 x.num.natAbs : Int) - (ilog2 x.den : Int)) ≤ x
  · rw [if_pos hk]
    exact ⟨hk, up⟩
  · rw [if_neg hk]
    refine ⟨lo.le, ?_⟩
    have e : (ilog2 x.num.natAbs : Int) - (ilog2 x.den : Int) - 1 + 1 =
        (ilog2 x.num.natAbs : Int) - (ilog2 x.den : Int) := by ring
    rw [e]
    exact not_le.mp hk

theorem expo_lt_of_lt (x : ℚ) (hx : 0 < x) (e : Int) (h : x < pow2 e) : expo x < e :=
  lt_of_pow2_lt (lt_of_le_of_lt (expo_spec x hx).1 h)

theorem le_expo_of_le (x : ℚ) (hx : 0 < x) (e : Int) (h : pow2 e ≤ x) : e ≤ expo x := by
  have := lt_of_pow2_lt (lt_of_le_of_lt h (expo_spec x hx).2)
  omega

/-! ## Rounding to the nearest integer -/

theorem floor_eq_ratFloor (q : ℚ) : Rat.floor q = ⌊q⌋ := rfl

theorem floor_le_rne (r : ℚ) : ⌊r⌋ ≤ rne r := by
  unfold rne
  simp only [floor_eq_ratFloor]
  split_ifs <;> omega

theorem rne_le_floor_add_one (r : ℚ) : rne r ≤ ⌊r⌋ + 1 := by
  unfold rne
  simp only [floor_eq_ratFloor]
  split_ifs <;> omega

theorem rne_eq_floor_of_lt (r : ℚ) (h : r - (⌊r⌋ : ℚ) < 1 / 2) : rne r = ⌊r⌋ := by
  unfold rne
  simp only [floor_eq_ratFloor]
  rw [if_pos h]

theorem int_le_rne (r : ℚ) (k : Int) (h : (k : ℚ) ≤ r) : k ≤ rne r :=
  le_trans (Int.le_floor.mpr h) (floor_le_rne r)

theorem rne_le_int (r : ℚ) (k : Int) (h : r ≤ (k : ℚ)) : rne r ≤ k := by
  by_cases hf : r - (⌊r⌋ : ℚ) < 1 / 2
  · rw [rne_eq_floor_of_lt r hf]
    exact Int.cast_le.mp (le_trans (Int.floor_le r) h)
  · have h1 : (⌊r⌋ : ℚ) < r := by
      have := not_lt.mp hf
      linarith
    have h2 : (⌊r⌋ : ℚ) < (k : ℚ) := lt_of_lt_of_le h1 h
    have h3 : ⌊r⌋ < k := Int.cast_lt.mp h2
    have := rne_le_floor_add_one r
    omega

theorem rne_intCast (k : Int) : rne (k : ℚ) = k := by
  apply le_antisymm
  · exact rne_le_int _ k (le_refl _)
  · exact int_le_rne _ k (le_refl _)

theorem rne_sub_le (r : ℚ) : (rne r : ℚ) - r ≤ 1 / 2 := by
  unfold rne
  simp only [floor_eq_ratFloor]
  have h1 := Int.floor_le r
  split_ifs with a b c
  · linarith
  · push_cast; linarith
  · linarith
  · push_cast
    have := not_lt.mp a
    linarith

theorem sub_rne_le (r : ℚ) : r - (rne r : ℚ) ≤ 1 / 2 := by
  unfold rne
  simp only [floor_eq_ratFloor]
  have h1 := Int.lt_floor_add_one r
  split_ifs with a b c
  · linarith
  · push_cast; linarith
  · have := not_lt.mp b
    linarith
  · push_cast; linarith

theorem rne_nonneg (r : ℚ) (h : 0 ≤ r) : 0 ≤ rne r :=
  int_le_rne r 0 (by simpa using h)

/-! ## Rounding a positive rational to 53 bits -/

theorem ulp_pos (a : ℚ) : 0 < ulp a := pow2_pos _

theorem roundPos_nonneg (a : ℚ) (h : 0 ≤ a) : 0 ≤ roundPos a := by
  unfold roundPos
  have h1 : (0 : ℚ) ≤ a / ulp a := div_nonneg h (ulp_pos a).le
  have h2 : (0 : ℚ) ≤ (rne (a / ulp a) : ℚ) := by exact_mod_cast rne_nonneg _ h1
  exact mul_nonneg h2 (ulp_pos a).le

/-- The exponent of the spacing is not above that of a grid the value lies on. -/
theorem ulp_exp_le (x : ℚ) (hx : 0 < x) (j : Int) (hj : -1074 ≤ j) (h : x < pow2 (53 + j)) :
    max (expo x) (-1022) - 52 ≤ j := by
  have := expo_lt_of_lt x hx _ h
  omega

/-- A multiple `k * 2 ^ j` of a power of two is a multiple of the spacing at `x`, when `x` is
below `2 ^ (53 + j)`. -/
theorem grid_div_ulp (x : ℚ) (hx : 0 < x) (k : Nat) (j : Int) (hj : -1074 ≤ j)
    (h : x < pow2 (53 + j)) :
    (k : ℚ) * pow2 j / ulp x =
      ((((k * 2 ^ (j - (max (expo x) (-1022) - 52)).toNat : Nat) : Int)) : ℚ) := by
  have hle := ulp_exp_le x hx j hj h
  have ht : 0 ≤ j - (max (expo x) (-1022) - 52) := by omega
  unfold ulp
  have e1 : pow2 j = pow2 (j - (max (expo x) (-1022) - 52)) * pow2 (max (expo x) (-1022) - 52) := by
    rw [← pow2_add]; congr 1; ring
  have e2 : pow2 (j - (max (expo x) (-1022) - 52)) =
      ((2 ^ (j - (max (expo x) (-1022) - 52)).toNat : Nat) : ℚ) := by
    rw [← pow2_natCast, Int.toNat_of_nonneg ht]
  rw [e1, e2, ← mul_assoc, mul_div_assoc, div_self (pow2_pos _).ne', mul_one]
  push_cast
  ring

/-- The values `k * 2 ^ j` with `k < 2 ^ 53` and `j ≥ -1074` are left as they are. -/
theorem roundPos_grid (k : Nat) (j : Int) (hk : k < 2 ^ 53) (hj : -1074 ≤ j) (hpos : 0 < k) :
    roundPos ((k : ℚ) * pow2 j) = (k : ℚ) * pow2 j := by
  have hx : (0 : ℚ) < (k : ℚ) * pow2 j :=
    mul_pos (by exact_mod_cast hpos) (pow2_pos j)
  have hlt : (k : ℚ) * pow2 j < pow2 (53 + j) := by
    rw [pow2_add]
    have h53 : pow2 53 = ((2 ^ 53 : Nat) : ℚ) := pow2_natCast 53
    rw [h53]
    exact mul_lt_mul_of_pos_right (by exact_mod_cast hk) (pow2_pos j)
  unfold roundPos
  rw [grid_div_ulp _ hx k j hj hlt, rne_intCast, ← grid_div_ulp _ hx k j hj hlt,
    div_mul_cancel₀ _ (ulp_pos _).ne']

/-- Rounding does not cross a grid value above. -/
theorem roundPos_le_of_le (x : ℚ) (hx : 0 < x) (k : Nat) (j : Int) (hk : k < 2 ^ 53)
    (hj : -1074 ≤ j) (h : x ≤ (k : ℚ) * pow2 j) : roundPos x ≤ (k : ℚ) * pow2 j := by
  have hlt : x < pow2 (53 + j) := by
    rw [pow2_add]
    have h53 : pow2 53 = ((2 ^ 53 : Nat) : ℚ) := pow2_natCast 53
    rw [h53]
    exact lt_of_le_of_lt h (mul_lt_mul_of_pos_right (by exact_mod_cast hk) (pow2_pos j))
  have hdiv := grid_div_ulp x hx k j hj hlt
  unfold roundPos
  have h1 : x / ulp x ≤ (k : ℚ) * pow2 j / ulp x :=
    div_le_div_of_nonneg_right h (ulp_pos x).le
  rw [hdiv] at h1
  have h2 := rne_le_int _ _ h1
  have h3 : (rne (x / ulp x) : ℚ) ≤ (k : ℚ) * pow2 j / ulp x := by
    rw [hdiv]; exact_mod_cast h2
  calc (rne (x / ulp x) : ℚ) * ulp x ≤ (k : ℚ) * pow2 j / ulp x * ulp x :=
        mul_le_mul_of_nonneg_right h3 (ulp_pos x).le
    _ = (k : ℚ) * pow2 j := div_mul_cancel₀ _ (ulp_pos _).ne'

/-- In the normal range a rounded value is at least the power of two below the argument. -/
theorem pow2_expo_le_roundPos (x : ℚ) (hx : 0 < x) (he : -1022 ≤ expo x) :
    pow2 (expo x) ≤ roundPos x := by
  unfold roundPos ulp
  rw [max_eq_left he]
  have h1 : ((2 ^ 52 : Nat) : ℚ) ≤ x / pow2 (expo x - 52) := by
    rw [le_div_iff₀ (pow2_pos _), ← pow2_natCast, ← pow2_add]
    have e : ((52 : Nat) : Int) + (expo x - 52) = expo x := by push_cast; ring
    rw [e]
    exact (expo_spec x hx).1
  have h2 : (((2 ^ 52 : Nat) : Int) : ℚ) ≤ x / pow2 (expo x - 52) := by
    push_cast; push_cast at h1; exact h1
  have h3 := int_le_rne _ _ h2
  have h4 : ((2 ^ 52 : Nat) : ℚ) ≤ (rne (x / pow2 (expo x - 52)) : ℚ) := by
    exact_mod_cast h3
  calc pow2 (expo x) = ((2 ^ 52 : Nat) : ℚ) * pow2 (expo x - 52) := by
        rw [← pow2_natCast, ← pow2_add]; congr 1; push_cast; ring
    _ ≤ _ := mul_le_mul_of_nonneg_right h4 (pow2_pos _).le

/-- Rounding does not cross a grid value below. -/
theorem le_roundPos_of_le (x : ℚ) (k : Nat) (j : Int) (hk : k < 2 ^ 53)
    (hj : -1074 ≤ j) (hpos : 0 < k) (h : (k : ℚ) * pow2 j ≤ x) :
    (k : ℚ) * pow2 j ≤ roundPos x := by
  have hy : (0 : ℚ) < (k : ℚ) * pow2 j := mul_pos (by exact_mod_cast hpos) (pow2_pos j)
  have hx : 0 < x := lt_of_lt_of_le hy h
  by_cases hc : max (expo x) (-1022) - 52 ≤ j
  · -- the grid value is a multiple of the spacing at `x`
    have ht : 0 ≤ j - (max (expo x) (-1022) - 52) := by omega
    have e1 : pow2 j =
        pow2 (j - (max (expo x) (-1022) - 52)) * pow2 (max (expo x) (-1022) - 52) := by
      rw [← pow2_add]; congr 1; ring
    have e2 : pow2 (j - (max (expo x) (-1022) - 52)) =
        ((2 ^ (j - (max (expo x) (-1022) - 52)).toNat : Nat) : ℚ) := by
      rw [← pow2_natCast, Int.toNat_of_nonneg ht]
    have hdiv : (k : ℚ) * pow2 j / ulp x =
        ((((k * 2 ^ (j - (max (expo x) (-1022) - 52)).toNat : Nat) : Int)) : ℚ) := by
      unfold ulp
      rw [e1, e2, ← mul_assoc, mul_div_assoc, div_self (pow2_pos _).ne', mul_one]
      push_cast
      ring
    have h1 : (k : ℚ) * pow2 j / ulp x ≤ x / ulp x :=
      div_le_div_of_nonneg_right h (ulp_pos x).le
    rw [hdiv] at h1
    have h2 := int_le_rne _ _ h1
    have h3 : (k : ℚ) * pow2 j / ulp x ≤ (rne (x / ulp x) : ℚ) := by
      rw [hdiv]; exact_mod_cast h2
    unfold roundPos
    calc (k : ℚ) * pow2 j = (k : ℚ) * pow2 j / ulp x * ulp x :=
          (div_mul_cancel₀ _ (ulp_pos _).ne').symm
      _ ≤ _ := mul_le_mul_of_nonneg_right h3 (ulp_pos x).le
  · -- the grid value lies below the binade of `x`
    have hj2 : j < max (expo x) (-1022) - 52 := not_le.mp hc
    have he : -1022 ≤ expo x := by
      by_contra hn
      have : max (expo x) (-1022) = -1022 := max_eq_right (by omega)
      omega
    have hm : max (expo x) (-1022) = expo x := max_eq_left he
    rw [hm] at hj2
    have h53 : pow2 53 = ((2 ^ 53 : Nat) : ℚ) := pow2_natCast 53
    have hlt : (k : ℚ) * pow2 j < pow2 (53 + j) := by
      rw [pow2_add, h53]
      exact mul_lt_mul_of_pos_right (by exact_mod_cast hk) (pow2_pos j)
    have h5 : pow2 (53 + j) ≤ pow2 (expo x) := pow2_le (by omega)
    exact le_trans (le_trans hlt.le h5) (pow2_expo_le_roundPos x hx he)

/-! ## The shape and the error of a rounded value -/

theorem div_ulp_lt (a : ℚ) (ha : 0 < a) : a / ulp a < ((2 ^ 53 : Nat) : ℚ) := by
  rw [div_lt_iff₀ (ulp_pos a), ← pow2_natCast]
  unfold ulp
  rw [← pow2_add]
  have e : ((53 : Nat) : Int) + (max (expo a) (-1022) - 52) = max (expo a) (-1022) + 1 := by
    push_cast; ring
  rw [e]
  exact lt_of_lt_of_le (expo_spec a ha).2 (pow2_le (by omega))

/-- A rounded value is `k * 2 ^ j` with `k < 2 ^ 53` and `j ≥ -1074`. -/
theorem roundPos_shape (a : ℚ) (ha : 0 < a) :
    ∃ (k : Nat) (j : Int), k < 2 ^ 53 ∧ -1074 ≤ j ∧ roundPos a = (k : ℚ) * pow2 j := by
  have h0 : 0 ≤ rne (a / ulp a) := rne_nonneg _ (div_nonneg ha.le (ulp_pos a).le)
  have h1 : rne (a / ulp a) ≤ ((2 ^ 53 : Nat) : Int) := by
    apply rne_le_int
    have := div_ulp_lt a ha
    push_cast
    push_cast at this
    exact this.le
  obtain ⟨n, hn⟩ := Int.eq_ofNat_of_zero_le h0
  have hn53 : n ≤ 2 ^ 53 := by
    rw [hn] at h1; exact_mod_cast h1
  have hr : roundPos a = (n : ℚ) * pow2 (max (expo a) (-1022) - 52) := by
    unfold roundPos
    rw [hn]
    rfl
  by_cases hlt : n < 2 ^ 53
  · exact ⟨n, max (expo a) (-1022) - 52, hlt, by omega, hr⟩
  · have hn2 : n = 2 ^ 53 := by omega
    refine ⟨2 ^ 52, max (expo a) (-1022) - 52 + 1, by norm_num, by omega, ?_⟩
    rw [hr, hn2, pow2_succ]
    push_cast
    ring

theorem roundPos_sub_le (a : ℚ) : roundPos a - a ≤ ulp a / 2 := by
  unfold roundPos
  have h := rne_sub_le (a / ulp a)
  have hu := ulp_pos a
  have e : a = a / ulp a * ulp a := (div_mul_cancel₀ _ hu.ne').symm
  have h2 : ((rne (a / ulp a) : ℚ) - a / ulp a) * ulp a ≤ 1 / 2 * ulp a :=
    mul_le_mul_of_nonneg_right h hu.le
  nlinarith

theorem sub_roundPos_le (a : ℚ) : a - roundPos a ≤ ulp a / 2 := by
  unfold roundPos
  have h := sub_rne_le (a / ulp a)
  have hu := ulp_pos a
  have e : a = a / ulp a * ulp a := (div_mul_cancel₀ _ hu.ne').symm
  have h2 : (a / ulp a - (rne (a / ulp a) : ℚ)) * ulp a ≤ 1 / 2 * ulp a :=
    mul_le_mul_of_nonneg_right h hu.le
  nlinarith

/-- In the normal range the spacing is at most `2 ^ -52` times the value. -/
theorem ulp_le_of_normal (a : ℚ) (h : pow2 (-1022) ≤ a) : ulp a ≤ pow2 (-52) * a := by
  have ha : 0 < a := lt_of_lt_of_le (pow2_pos _) h
  have he := le_expo_of_le a ha _ h
  unfold ulp
  rw [max_eq_left he]
  have e : expo a - 52 = -52 + expo a := by ring
  rw [e, pow2_add]
  exact mul_le_mul_of_nonneg_left (expo_spec a ha).1 (pow2_pos _).le

/-- Below the normal range the spacing is `2 ^ -1074`. -/
theorem ulp_of_subnormal (a : ℚ) (ha : 0 < a) (h : a < pow2 (-1022)) : ulp a = pow2 (-1074) := by
  have he := expo_lt_of_lt a ha _ h
  unfold ulp
  rw [max_eq_right (by omega)]
  rfl

theorem ulp_le (a : ℚ) (ha : 0 < a) : ulp a ≤ pow2 (-52) * a + pow2 (-1074) := by
  by_cases h : pow2 (-1022) ≤ a
  · have := ulp_le_of_normal a h
    have := pow2_pos (-1074)
    linarith
  · rw [ulp_of_subnormal a ha (not_le.mp h)]
    have : 0 ≤ pow2 (-52) * a := mul_nonneg (pow2_pos _).le ha.le
    linarith

/-! ## `roundQ` on the non-negative rationals -/

theorem roundQ_zero : roundQ 0 = 0 := by
  unfold roundQ
  rw [if_pos rfl]

theorem roundQ_of_pos (x : ℚ) (h : 0 < x) : roundQ x = roundPos x := by
  unfold roundQ
  rw [if_neg h.ne', if_pos h]

theorem roundQ_nonneg (x : ℚ) (h : 0 ≤ x) : 0 ≤ roundQ x := by
  rcases h.eq_or_lt with h0 | h0
  · rw [← h0, roundQ_zero]
  · rw [roundQ_of_pos x h0]
    exact roundPos_nonneg x h

/-- A non-negative binary64 value is `k * 2 ^ j` with `k < 2 ^ 53` and `j ≥ -1074`. -/
theorem IsF64.shape {q : ℚ} (h : IsF64 q) (h0 : 0 ≤ q) :
    ∃ (k : Nat) (j : Int), k < 2 ^ 53 ∧ -1074 ≤ j ∧ q = (k : ℚ) * pow2 j := by
  rcases h0.eq_or_lt with h1 | h1
  · exact ⟨0, 0, by norm_num, by norm_num, by rw [← h1]; simp⟩
  · unfold IsF64 at h
    rw [roundQ_of_pos q h1] at h
    obtain ⟨k, j, hk, hj, e⟩ := roundPos_shape q h1
    exact ⟨k, j, hk, hj, by rw [← h, e]⟩

theorem isF64_grid (k : Nat) (j : Int) (hk : k < 2 ^ 53) (hj : -1074 ≤ j) :
    IsF64 ((k : ℚ) * pow2 j) := by
  unfold IsF64
  rcases Nat.eq_zero_or_pos k with h0 | h0
  · rw [h0]; simp [roundQ_zero]
  · have hx : (0 : ℚ) < (k : ℚ) * pow2 j := mul_pos (by exact_mod_cast h0) (pow2_pos j)
    rw [roundQ_of_pos _ hx, roundPos_grid k j hk hj h0]

theorem isF64_zero : IsF64 0 := roundQ_zero

/-- Rounding gives a binary64 value. -/
theorem isF64_roundQ (x : ℚ) (h : 0 ≤ x) : IsF64 (roundQ x) := by
  rcases h.eq_or_lt with h0 | h0
  · rw [← h0, roundQ_zero]; exact isF64_zero
  · rw [roundQ_of_pos x h0]
    obtain ⟨k, j, hk, hj, e⟩ := roundPos_shape x h0
    rw [e]
    exact isF64_grid k j hk hj

/-- Rounding does not cross a binary64 value above. -/
theorem roundQ_le_of_le (x y : ℚ) (hx : 0 ≤ x) (hxy : x ≤ y) (hy : IsF64 y) : roundQ x ≤ y := by
  rcases hx.eq_or_lt with h0 | h0
  · rw [← h0, roundQ_zero]; rw [← h0] at hxy; exact hxy
  · obtain ⟨k, j, hk, hj, e⟩ := hy.shape (le_trans hx hxy)
    rw [roundQ_of_pos x h0, e]
    rw [e] at hxy
    exact roundPos_le_of_le x h0 k j hk hj hxy

/-- Rounding does not cross a binary64 value below. -/
theorem le_roundQ_of_le (x y : ℚ) (hy0 : 0 ≤ y) (hyx : y ≤ x) (hy : IsF64 y) : y ≤ roundQ x := by
  rcases hy0.eq_or_lt with h0 | h0
  · rw [← h0]; exact roundQ_nonneg x (le_trans hy0 hyx)
  · obtain ⟨k, j, hk, hj, e⟩ := hy.shape hy0
    have hx : 0 < x := lt_of_lt_of_le h0 hyx
    have hk0 : 0 < k := by
      rcases Nat.eq_zero_or_pos k with hz | hz
      · rw [e, hz] at h0; simp at h0
      · exact hz
    rw [roundQ_of_pos x hx, e]
    rw [e] at hyx
    exact le_roundPos_of_le x k j hk hj hk0 hyx

theorem roundQ_of_isF64 {q : ℚ} (h : IsF64 q) : roundQ q = q := h

/-- The error of rounding a non-negative rational. -/
theorem roundQ_sub_le (x : ℚ) (h : 0 ≤ x) :
    roundQ x - x ≤ pow2 (-53) * x + pow2 (-1075) := by
  rcases h.eq_or_lt with h0 | h0
  · rw [← h0, roundQ_zero]
    have := pow2_pos (-1075)
    simp
    exact this.le
  · rw [roundQ_of_pos x h0]
    have h1 := roundPos_sub_le x
    have h2 := ulp_le x h0
    have e1 : pow2 (-52) = 2 * pow2 (-53) := by
      have := pow2_succ (-53); norm_num at this; exact this
    have e2 : pow2 (-1074) = 2 * pow2 (-1075) := by
      have := pow2_succ (-1075); norm_num at this; exact this
    rw [e1, e2] at h2
    linarith

theorem sub_roundQ_le (x : ℚ) (h : 0 ≤ x) :
    x - roundQ x ≤ pow2 (-53) * x + pow2 (-1075) := by
  rcases h.eq_or_lt with h0 | h0
  · rw [← h0, roundQ_zero]
    have := pow2_pos (-1075)
    simp
    exact this.le
  · rw [roundQ_of_pos x h0]
    have h1 := sub_roundPos_le x
    have h2 := ulp_le x h0
    have e1 : pow2 (-52) = 2 * pow2 (-53) := by
      have := pow2_succ (-53); norm_num at this; exact this
    have e2 : pow2 (-1074) = 2 * pow2 (-1075) := by
      have := pow2_succ (-1075); norm_num at this; exact this
    rw [e1, e2] at h2
    linarith

/-- In the normal range the error of rounding is relative. -/
theorem sub_roundQ_le_of_normal (x : ℚ) (h : pow2 (-1022) ≤ x) :
    x - roundQ x ≤ pow2 (-53) * x := by
  have h0 : 0 < x := lt_of_lt_of_le (pow2_pos _) h
  rw [roundQ_of_pos x h0]
  have h1 := sub_roundPos_le x
  have h2 := ulp_le_of_normal x h
  have e1 : pow2 (-52) = 2 * pow2 (-53) := by
    have := pow2_succ (-53); norm_num at this; exact this
  rw [e1] at h2
  linarith

theorem roundQ_sub_le_of_normal (x : ℚ) (h : pow2 (-1022) ≤ x) :
    roundQ x - x ≤ pow2 (-53) * x := by
  have h0 : 0 < x := lt_of_lt_of_le (pow2_pos _) h
  rw [roundQ_of_pos x h0]
  have h1 := roundPos_sub_le x
  have h2 := ulp_le_of_normal x h
  have e1 : pow2 (-52) = 2 * pow2 (-53) := by
    have := pow2_succ (-53); norm_num at this; exact this
  rw [e1] at h2
  linarith

/-! ## Exact operations -/

theorem pow2_neg_succ (a : Int) : pow2 (a - 1) = pow2 a / 2 := by
  rw [pow2_sub, pow2_one]

theorem isF64_pow2 (e : Int) (h : -1074 ≤ e) : IsF64 (pow2 e) := by
  have := isF64_grid 1 e (by norm_num) h
  simpa using this

theorem isF64_natCast (n : Nat) (h : n < 2 ^ 53) : IsF64 (n : ℚ) := by
  have := isF64_grid n 0 h (by norm_num)
  rw [pow2_zero, mul_one] at this
  exact this

theorem isF64_one : IsF64 1 := by
  have := isF64_natCast 1 (by norm_num)
  simpa using this

theorem isF64_two : IsF64 2 := by
  have := isF64_natCast 2 (by norm_num)
  simpa using this

/-- A non-negative binary64 value is a whole number of units `2 ^ -1074`. -/
theorem IsF64.exists_nat {q : ℚ} (h : IsF64 q) (h0 : 0 ≤ q) :
    ∃ a : Nat, q = (a : ℚ) * pow2 (-1074) := by
  obtain ⟨k, j, _, hj, e⟩ := h.shape h0
  obtain ⟨n, hn⟩ := Int.eq_ofNat_of_zero_le (by omega : 0 ≤ j + 1074)
  refine ⟨k * 2 ^ n, ?_⟩
  have hj2 : j = (n : Int) + (-1074) := by omega
  rw [e, hj2, pow2_add, pow2_natCast]
  push_cast
  ring

/-- A binary64 value in `[0, 2 ^ -1074]` is `0` or `2 ^ -1074`. -/
theorem IsF64.eq_zero_or_unit {q : ℚ} (h : IsF64 q) (h0 : 0 ≤ q) (h1 : q ≤ pow2 (-1074)) :
    q = 0 ∨ q = pow2 (-1074) := by
  obtain ⟨a, e⟩ := h.exists_nat h0
  have hu := pow2_pos (-1074)
  rcases Nat.eq_zero_or_pos a with ha | ha
  · left; rw [e, ha]; simp
  · right
    have h2 : (1 : ℚ) ≤ (a : ℚ) := by exact_mod_cast ha
    have h3 : pow2 (-1074) ≤ q := by
      rw [e]
      calc pow2 (-1074) = 1 * pow2 (-1074) := (one_mul _).symm
        _ ≤ (a : ℚ) * pow2 (-1074) := mul_le_mul_of_nonneg_right h2 hu.le
    exact le_antisymm h1 h3

/-- Subtracting one from a binary64 value in `[1, 2 ^ 53)` is exact. -/
theorem isF64_sub_one {f : ℚ} (h : IsF64 f) (h1 : 1 ≤ f) (h2 : f < ((2 ^ 53 : Nat) : ℚ)) :
    IsF64 (f - 1) := by
  obtain ⟨k, j, hk, hj, e⟩ := h.shape (by linarith)
  by_cases hj0 : 0 ≤ j
  · obtain ⟨n, hn⟩ := Int.eq_ofNat_of_zero_le hj0
    have e2 : f = ((k * 2 ^ n : Nat) : ℚ) := by
      rw [e, hn, pow2_natCast]; push_cast; ring
    have hlt : k * 2 ^ n < 2 ^ 53 := by
      rw [e2] at h2; exact_mod_cast h2
    have hge : 1 ≤ k * 2 ^ n := by
      rw [e2] at h1; exact_mod_cast h1
    have e3 : f - 1 = ((k * 2 ^ n - 1 : Nat) : ℚ) := by
      rw [e2, Nat.cast_sub hge]; simp
    rw [e3]
    exact isF64_natCast _ (by omega)
  · obtain ⟨n, hn⟩ := Int.eq_ofNat_of_zero_le (by omega : 0 ≤ -j)
    have hp : pow2 j * ((2 ^ n : Nat) : ℚ) = 1 := by
      rw [← pow2_natCast, ← pow2_add, ← hn]
      have : j + -j = 0 := by ring
      rw [this, pow2_zero]
    have hge : 2 ^ n ≤ k := by
      have h3 : (1 : ℚ) ≤ (k : ℚ) * pow2 j := by rw [← e]; exact h1
      have h4 : ((2 ^ n : Nat) : ℚ) ≤ (k : ℚ) := by
        have h5 := mul_le_mul_of_nonneg_right h3
          (by positivity : (0 : ℚ) ≤ ((2 ^ n : Nat) : ℚ))
        rw [one_mul, mul_assoc, hp, mul_one] at h5
        exact h5
      exact_mod_cast h4
    have e3 : f - 1 = ((k - 2 ^ n : Nat) : ℚ) * pow2 j := by
      rw [Nat.cast_sub hge, sub_mul, ← e, mul_comm _ (pow2 j), hp]
    rw [e3]
    exact isF64_grid _ j (lt_of_le_of_lt (Nat.sub_le _ _) hk) hj

theorem roundQ_sub_one {f : ℚ} (h : IsF64 f) (h1 : 1 ≤ f) (h2 : f < ((2 ^ 53 : Nat) : ℚ)) :
    roundQ (f - 1) = f - 1 :=
  isF64_sub_one h h1 h2

/-- Halving a binary64 value of at least `2 ^ -1021` is exact. -/
theorem isF64_half {r : ℚ} (h : IsF64 r) (h1 : pow2 (-1021) ≤ r) : IsF64 (r / 2) := by
  have h0 : 0 < r := lt_of_lt_of_le (pow2_pos _) h1
  obtain ⟨k, j, hk, hj, e⟩ := h.shape h0.le
  have hj2 : -1074 < j := by
    by_contra hn
    have hj3 : j = -1074 := by omega
    have hk2 : (k : ℚ) < ((2 ^ 53 : Nat) : ℚ) := by exact_mod_cast hk
    have h3 : r < ((2 ^ 53 : Nat) : ℚ) * pow2 (-1074) := by
      rw [e, hj3]
      exact mul_lt_mul_of_pos_right hk2 (pow2_pos _)
    have h4 : ((2 ^ 53 : Nat) : ℚ) * pow2 (-1074) = pow2 (-1021) := by
      rw [← pow2_natCast, ← pow2_add]
      norm_num
    rw [h4] at h3
    exact absurd h1 (not_le.mpr h3)
  have e2 : r / 2 = (k : ℚ) * pow2 (j - 1) := by
    rw [pow2_neg_succ, e]; ring
  rw [e2]
  exact isF64_grid k (j - 1) hk (by omega)

theorem roundQ_half {r : ℚ} (h : IsF64 r) (h1 : pow2 (-1021) ≤ r) : roundQ (r / 2) = r / 2 :=
  isF64_half h h1

/-- The sum of two non-negative binary64 values below the normal range is exact. -/
theorem isF64_add_of_subnormal {p q : ℚ} (hp : IsF64 p) (hq : IsF64 q) (hp0 : 0 ≤ p)
    (hq0 : 0 ≤ q) (h : p + q < pow2 (-1022)) : IsF64 (p + q) := by
  obtain ⟨a, ea⟩ := hp.exists_nat hp0
  obtain ⟨b, eb⟩ := hq.exists_nat hq0
  have e : p + q = ((a + b : Nat) : ℚ) * pow2 (-1074) := by
    rw [ea, eb]; push_cast; ring
  have h4 : ((2 ^ 52 : Nat) : ℚ) * pow2 (-1074) = pow2 (-1022) := by
    rw [← pow2_natCast, ← pow2_add]
    norm_num
  have hab : a + b < 2 ^ 52 := by
    rw [e, ← h4] at h
    have := lt_of_mul_lt_mul_right h (pow2_pos _).le
    exact_mod_cast this
  rw [e]
  exact isF64_grid (a + b) (-1074) (by omega) (by norm_num)

/-- The error of a binary64 addition is relative: there is no underflow error. -/
theorem roundQ_add_sub_le {p q : ℚ} (hp : IsF64 p) (hq : IsF64 q) (hp0 : 0 ≤ p) (hq0 : 0 ≤ q) :
    roundQ (p + q) - (p + q) ≤ pow2 (-53) * (p + q) := by
  by_cases h : pow2 (-1022) ≤ p + q
  · exact roundQ_sub_le_of_normal _ h
  · have := isF64_add_of_subnormal hp hq hp0 hq0 (not_le.mp h)
    rw [roundQ_of_isF64 this, sub_self]
    exact mul_nonneg (pow2_pos _).le (add_nonneg hp0 hq0)

theorem sub_roundQ_add_le {p q : ℚ} (hp : IsF64 p) (hq : IsF64 q) (hp0 : 0 ≤ p) (hq0 : 0 ≤ q) :
    (p + q) - roundQ (p + q) ≤ pow2 (-53) * (p + q) := by
  by_cases h : pow2 (-1022) ≤ p + q
  · exact sub_roundQ_le_of_normal _ h
  · have := isF64_add_of_subnormal hp hq hp0 hq0 (not_le.mp h)
    rw [roundQ_of_isF64 this, sub_self]
    exact mul_nonneg (pow2_pos _).le (add_nonneg hp0 hq0)

/-- Half of the least positive binary64 value rounds to zero. -/
theorem roundQ_half_unit : roundQ (pow2 (-1074) / 2) = 0 := by
  have hx : 0 < pow2 (-1074) / 2 := by
    have := pow2_pos (-1074); linarith
  have hlt : pow2 (-1074) / 2 < pow2 (-1022) := by
    have h1 : pow2 (-1074) ≤ pow2 (-1022) := pow2_le (by norm_num)
    have := pow2_pos (-1074)
    linarith
  rw [roundQ_of_pos _ hx]
  unfold roundPos
  rw [ulp_of_subnormal _ hx hlt]
  have e : pow2 (-1074) / 2 / pow2 (-1074) = 1 / 2 := by
    field_simp [(pow2_pos (-1074)).ne']
    ring
  rw [e]
  have : rne (1 / 2) = 0 := by decide!
  rw [this]
  simp

/-! ## The operations on non-negative `float64` -/

theorem round64_of_nonneg (x : ℚ) (h : 0 ≤ x) :
    round64 x = if pow2 1024 ≤ roundQ x then F64.posInf else F64.fin (roundQ x) := by
  unfold round64
  by_cases h1 : pow2 1024 ≤ roundQ x
  · rw [if_pos h1, if_pos h1]
  · rw [if_neg h1, if_neg h1]
    have h2 : ¬ roundQ x ≤ -pow2 1024 := by
      have := roundQ_nonneg x h
      have := pow2_pos 1024
      intro h3
      linarith
    rw [if_neg h2]

theorem F64.NonNeg.cases {x : F64} (h : x.NonNeg) :
    x = F64.posInf ∨ ∃ q, x = F64.fin q ∧ 0 ≤ q ∧ IsF64 q ∧ q < pow2 1024 := by
  cases x with
  | nan => exact False.elim h
  | posInf => exact Or.inl rfl
  | negInf => exact False.elim h
  | fin q => exact Or.inr ⟨q, rfl, h⟩

theorem nonNeg_fin {q : ℚ} (h0 : 0 ≤ q) (h1 : IsF64 q) (h2 : q < pow2 1024) :
    (F64.fin q).NonNeg := ⟨h0, h1, h2⟩

theorem nonNeg_posInf : F64.posInf.NonNeg := trivial

theorem round64_nonNeg (x : ℚ) (h : 0 ≤ x) : (round64 x).NonNeg := by
  rw [round64_of_nonneg x h]
  by_cases h1 : pow2 1024 ≤ roundQ x
  · rw [if_pos h1]; exact nonNeg_posInf
  · rw [if_neg h1]
    exact nonNeg_fin (roundQ_nonneg x h) (isF64_roundQ x h) (not_le.mp h1)

/-- An exact result below a finite binary64 value rounds to a finite value. -/
theorem round64_eq_fin (x y : ℚ) (hx : 0 ≤ x) (hxy : x ≤ y) (hy : IsF64 y)
    (hy2 : y < pow2 1024) : round64 x = F64.fin (roundQ x) := by
  rw [round64_of_nonneg x hx]
  have h1 : roundQ x ≤ y := roundQ_le_of_le x y hx hxy hy
  rw [if_neg (not_le.mpr (lt_of_le_of_lt h1 hy2))]

theorem round64_of_isF64 {q : ℚ} (h0 : 0 ≤ q) (h : IsF64 q) (h2 : q < pow2 1024) :
    round64 q = F64.fin q := by
  rw [round64_eq_fin q q h0 le_rfl h h2, roundQ_of_isF64 h]

theorem add_nonNeg {x y : F64} (hx : x.NonNeg) (hy : y.NonNeg) : (F64.add x y).NonNeg := by
  rcases hx.cases with rfl | ⟨p, rfl, hp, _, _⟩
  · rcases hy.cases with rfl | ⟨q, rfl, _, _, _⟩
    · exact nonNeg_posInf
    · exact nonNeg_posInf
  · rcases hy.cases with rfl | ⟨q, rfl, hq, _, _⟩
    · exact nonNeg_posInf
    · exact round64_nonNeg _ (add_nonneg hp hq)

theorem min_nonNeg {x y : F64} (hx : x.NonNeg) (hy : y.NonNeg) : (F64.min x y).NonNeg := by
  rcases hx.cases with rfl | ⟨p, rfl, hp, hp1, hp2⟩
  · rcases hy.cases with rfl | ⟨q, rfl, hq, hq1, hq2⟩
    · exact nonNeg_posInf
    · exact nonNeg_fin hq hq1 hq2
  · rcases hy.cases with rfl | ⟨q, rfl, hq, hq1, hq2⟩
    · exact nonNeg_fin hp hp1 hp2
    · show (F64.fin (if p ≤ q then p else q)).NonNeg
      by_cases h : p ≤ q
      · rw [if_pos h]; exact nonNeg_fin hp hp1 hp2
      · rw [if_neg h]; exact nonNeg_fin hq hq1 hq2

theorem fmin_le_right {x y : F64} (hx : x.NonNeg) (hy : y.NonNeg) :
    F64.le (F64.min x y) y = true := by
  rcases hx.cases with rfl | ⟨p, rfl, hp, hp1, hp2⟩
  · rcases hy.cases with rfl | ⟨q, rfl, hq, hq1, hq2⟩
    · rfl
    · show decide (q ≤ q) = true
      exact decide_eq_true le_rfl
  · rcases hy.cases with rfl | ⟨q, rfl, hq, hq1, hq2⟩
    · rfl
    · show decide ((if p ≤ q then p else q) ≤ q) = true
      apply decide_eq_true
      by_cases h : p ≤ q
      · rw [if_pos h]; exact h
      · rw [if_neg h]

theorem mul_nonNeg_fin {x : F64} (hx : x.NonNeg) {c : ℚ} (hc : 0 < c) :
    (F64.mul x (F64.fin c)).NonNeg := by
  rcases hx.cases with rfl | ⟨p, rfl, hp, _, _⟩
  · show (if c = 0 then F64.nan else if 0 < c then F64.posInf else F64.negInf).NonNeg
    rw [if_neg hc.ne', if_pos hc]
    exact nonNeg_posInf
  · exact round64_nonNeg _ (mul_nonneg hp hc.le)

theorem div_fin_fin (p c : ℚ) (hc : c ≠ 0) :
    F64.div (F64.fin p) (F64.fin c) = round64 (p / c) := by
  show (if c = 0 then _ else round64 (p / c)) = _
  rw [if_neg hc]

theorem div_nonNeg_fin {x : F64} (hx : x.NonNeg) {c : ℚ} (hc : 0 < c) :
    (F64.div x (F64.fin c)).NonNeg := by
  rcases hx.cases with rfl | ⟨p, rfl, hp, _, _⟩
  · show (if 0 ≤ c then F64.posInf else F64.negInf).NonNeg
    rw [if_pos hc.le]
    exact nonNeg_posInf
  · rw [div_fin_fin p c hc.ne']
    exact round64_nonNeg _ (div_nonneg hp hc.le)

theorem le_refl_of_nonNeg {x : F64} (hx : x.NonNeg) : F64.le x x = true := by
  rcases hx.cases with rfl | ⟨p, rfl, _, _, _⟩
  · rfl
  · exact decide_eq_true le_rfl

theorem le_trans_of_nonNeg {x y z : F64} (hx : x.NonNeg) (hy : y.NonNeg) (hz : z.NonNeg)
    (h1 : F64.le x y = true) (h2 : F64.le y z = true) : F64.le x z = true := by
  rcases hz.cases with rfl | ⟨r, rfl, _, _, _⟩
  · rcases hx.cases with rfl | ⟨p, rfl, _, _, _⟩
    · rfl
    · rfl
  · rcases hy.cases with rfl | ⟨q, rfl, _, _, _⟩
    · exact absurd (show false = true from h2) Bool.false_ne_true
    · rcases hx.cases with rfl | ⟨p, rfl, _, _, _⟩
      · exact absurd (show false = true from h1) Bool.false_ne_true
      · have a1 : p ≤ q := of_decide_eq_true h1
        have a2 : q ≤ r := of_decide_eq_true h2
        exact decide_eq_true (le_trans a1 a2)

theorem zero_le_of_nonNeg {x : F64} (hx : x.NonNeg) : F64.le (F64.fin 0) x = true := by
  rcases hx.cases with rfl | ⟨p, rfl, hp, _, _⟩
  · rfl
  · exact decide_eq_true hp

/-- Halving does not raise a non-negative value. -/
theorem half_le {x : F64} (hx : x.NonNeg) : F64.le (F64.div x (F64.fin 2)) x = true := by
  rcases hx.cases with rfl | ⟨p, rfl, hp, hp1, hp2⟩
  · rfl
  · rw [div_fin_fin p 2 (by norm_num),
      round64_eq_fin (p / 2) p (by linarith) (by linarith) hp1 hp2]
    exact decide_eq_true (roundQ_le_of_le _ _ (by linarith) (by linarith) hp1)

theorem ofInt_d : F64.ofInt d = F64.fin 10000000 := by decide!

theorem ofInt_second : F64.ofInt second = F64.fin 1000000000 := by decide!

/-- The conversion of a positive `time.Duration` is a positive finite value, at most `2 ^ 63`. -/
theorem ofInt_pos (n : Int) (h0 : 0 < n) (h1 : n ≤ maxDuration) :
    ∃ c : ℚ, F64.ofInt n = F64.fin c ∧ 1 ≤ c ∧ c ≤ ((2 ^ 63 : Nat) : ℚ) ∧ IsF64 c := by
  have hx : (1 : ℚ) ≤ (n : ℚ) := by exact_mod_cast h0
  have hy : (n : ℚ) ≤ ((2 ^ 63 : Nat) : ℚ) := by
    have : n ≤ ((2 ^ 63 : Nat) : Int) := by
      unfold maxDuration at h1
      norm_num at h1 ⊢
      omega
    exact_mod_cast this
  have h63 : IsF64 ((2 ^ 63 : Nat) : ℚ) := by
    rw [← pow2_natCast]
    exact isF64_pow2 _ (by norm_num)
  have hlt : ((2 ^ 63 : Nat) : ℚ) < pow2 1024 := by
    rw [← pow2_natCast]
    exact pow2_lt (by norm_num)
  refine ⟨roundQ (n : ℚ), ?_, ?_, ?_, ?_⟩
  · exact round64_eq_fin _ _ (by linarith) hy h63 hlt
  · exact le_roundQ_of_le _ 1 (by norm_num) hx isF64_one
  · exact roundQ_le_of_le _ _ (by linarith) hy h63
  · exact isF64_roundQ _ (by linarith)

/-! ## The event loop -/

theorem run_nil (bound : Nat) (s : TokenBucket) : run bound s [] = some s := rfl

theorem run_cons (bound : Nat) (s : TokenBucket) (e : Event) (es : List Event) :
    run bound s (e :: es) = (step bound s e).bind fun s1 => run bound s1 es := rfl

theorem run_append (bound : Nat) (es fs : List Event) :
    ∀ s : TokenBucket,
      run bound s (es ++ fs) = (run bound s es).bind fun s1 => run bound s1 fs := by
  induction es with
  | nil => intro s; rfl
  | cons e es ih =>
    intro s
    rw [List.cons_append, run_cons, run_cons]
    cases step bound s e with
    | none => rfl
    | some s1 =>
      rw [Option.some_bind, Option.some_bind]
      exact ih s1

theorem run_append_some {bound : Nat} {es fs : List Event} {s s1 s2 : TokenBucket}
    (h1 : run bound s es = some s1) (h2 : run bound s1 fs = some s2) :
    run bound s (es ++ fs) = some s2 := by
  rw [run_append, h1, Option.some_bind, h2]

theorem run_append_inv {bound : Nat} {es fs : List Event} {s s2 : TokenBucket}
    (h : run bound s (es ++ fs) = some s2) :
    ∃ s1, run bound s es = some s1 ∧ run bound s1 fs = some s2 := by
  rw [run_append] at h
  cases h1 : run bound s es with
  | none => rw [h1] at h; exact absurd h (by simp)
  | some s1 =>
    rw [h1, Option.some_bind] at h
    exact ⟨s1, rfl, h⟩

theorem ticks_succ (n : Nat) : ticks (n + 1) = Event.tick :: ticks n := rfl

theorem backoffs_succ (n : Nat) : backoffs (n + 1) = Event.backoff :: backoffs n := rfl

theorem tick_eq (bound : Nat) (s : TokenBucket) :
    tick bound s = (mintLoop (tickValue s) bound (tickFill s) s.bucket s.sent).map
      fun r => { s with flowPerD := tickRate s, fill := r.1, bucket := r.2.1, sent := r.2.2 } :=
  rfl

theorem tick_some {bound : Nat} {s s1 : TokenBucket} (h : tick bound s = some s1) :
    ∃ r, mintLoop (tickValue s) bound (tickFill s) s.bucket s.sent = some r ∧
      s1 = { s with flowPerD := tickRate s, fill := r.1, bucket := r.2.1, sent := r.2.2 } := by
  rw [tick_eq] at h
  cases hm : mintLoop (tickValue s) bound (tickFill s) s.bucket s.sent with
  | none => rw [hm] at h; exact absurd h (by simp)
  | some r =>
    rw [hm, Option.map_some'] at h
    exact ⟨r, rfl, (Option.some.inj h).symm⟩

theorem tick_of_mintLoop {bound : Nat} {s : TokenBucket} {r : F64 × Channel × Nat}
    (h : mintLoop (tickValue s) bound (tickFill s) s.bucket s.sent = some r) :
    tick bound s =
      some { s with flowPerD := tickRate s, fill := r.1, bucket := r.2.1, sent := r.2.2 } := by
  rw [tick_eq, h, Option.map_some']

/-! ## The mint loop -/

theorem mintLoop_zero (v fill : F64) (b : Channel) (sent : Nat) :
    mintLoop v 0 fill b sent =
      if F64.le (F64.fin 1) fill then none else some (fill, b, sent) := rfl

theorem mintLoop_succ (v fill : F64) (k : Nat) (b : Channel) (sent : Nat) :
    mintLoop v (k + 1) fill b sent =
      if F64.le (F64.fin 1) fill then
        mintLoop v k (F64.sub fill (F64.fin 1)) (sendToken b v) (sent + 1)
      else some (fill, b, sent) := rfl

theorem mintLoop_of_not_le (v fill : F64) (k : Nat) (b : Channel) (sent : Nat)
    (h : ¬ F64.le (F64.fin 1) fill = true) : mintLoop v k fill b sent = some (fill, b, sent) := by
  cases k with
  | zero => rw [mintLoop_zero, if_neg h]
  | succ k => rw [mintLoop_succ, if_neg h]

theorem lt_one_of_not_le {x : F64} (hx : x.NonNeg) (h : ¬ F64.le (F64.fin 1) x = true) :
    F64.lt x (F64.fin 1) = true := by
  rcases hx.cases with rfl | ⟨f, rfl, _, _, _⟩
  · exact absurd rfl h
  · have h1 : ¬ (1 : ℚ) ≤ f := fun h1 => h (decide_eq_true h1)
    exact decide_eq_true (not_le.mp h1)

theorem sub_one_nonNeg {x : F64} (hx : x.NonNeg) (h : F64.le (F64.fin 1) x = true) :
    (F64.sub x (F64.fin 1)).NonNeg := by
  rcases hx.cases with rfl | ⟨f, rfl, _, _, _⟩
  · exact nonNeg_posInf
  · have h1 : (1 : ℚ) ≤ f := of_decide_eq_true h
    exact round64_nonNeg _ (by linarith)

/-- The loop leaves only with a fill below one, and keeps the fill non-negative. -/
theorem mintLoop_fill (v : F64) :
    ∀ (k : Nat) (fill : F64) (b : Channel) (sent : Nat) (r : F64 × Channel × Nat),
      fill.NonNeg → mintLoop v k fill b sent = some r →
        r.1.NonNeg ∧ F64.lt r.1 (F64.fin 1) = true := by
  intro k
  induction k with
  | zero =>
    intro fill b sent r hf h
    rw [mintLoop_zero] at h
    by_cases hg : F64.le (F64.fin 1) fill = true
    · rw [if_pos hg] at h; exact absurd h (by simp)
    · rw [if_neg hg] at h
      have e := Option.some.inj h
      rw [← e]
      exact ⟨hf, lt_one_of_not_le hf hg⟩
  | succ k ih =>
    intro fill b sent r hf h
    rw [mintLoop_succ] at h
    by_cases hg : F64.le (F64.fin 1) fill = true
    · rw [if_pos hg] at h
      exact ih _ _ _ _ (sub_one_nonNeg hf hg) h
    · rw [if_neg hg] at h
      have e := Option.some.inj h
      rw [← e]
      exact ⟨hf, lt_one_of_not_le hf hg⟩

theorem sendTokens_zero (v : F64) (b : Channel) : sendTokens v 0 b = b := rfl

theorem sendTokens_succ (v : F64) (n : Nat) (b : Channel) :
    sendTokens v (n + 1) b = sendTokens v n (sendToken b v) := rfl

/-- The loop makes its sends one after the other, all with the same value. -/
theorem mintLoop_sends (v : F64) :
    ∀ (k : Nat) (fill : F64) (b : Channel) (sent : Nat) (r : F64 × Channel × Nat),
      mintLoop v k fill b sent = some r →
        sent ≤ r.2.2 ∧ r.2.1 = sendTokens v (r.2.2 - sent) b := by
  intro k
  induction k with
  | zero =>
    intro fill b sent r h
    rw [mintLoop_zero] at h
    by_cases hg : F64.le (F64.fin 1) fill = true
    · rw [if_pos hg] at h; exact absurd h (by simp)
    · rw [if_neg hg] at h
      have e := Option.some.inj h
      rw [← e]
      exact ⟨le_rfl, by rw [Nat.sub_self]; rfl⟩
  | succ k ih =>
    intro fill b sent r h
    rw [mintLoop_succ] at h
    by_cases hg : F64.le (F64.fin 1) fill = true
    · rw [if_pos hg] at h
      obtain ⟨h1, h2⟩ := ih _ _ _ _ h
      refine ⟨by omega, ?_⟩
      have e : r.2.2 - sent = (r.2.2 - (sent + 1)) + 1 := by omega
      rw [e, sendTokens_succ]
      exact h2
    · rw [if_neg hg] at h
      have e := Option.some.inj h
      rw [← e]
      exact ⟨le_rfl, by rw [Nat.sub_self]; rfl⟩

theorem pow53_lt : (((2 : Nat) ^ 53 : Nat) : ℚ) < pow2 1024 := by
  rw [← pow2_natCast]
  exact pow2_lt (by norm_num)

/-- Below `2 ^ 53` the loop is exact: it makes `⌊f⌋` sends and leaves the fractional part. -/
theorem mintLoop_exact (v : F64) :
    ∀ (k : Nat) (f : ℚ) (b : Channel) (sent : Nat),
      IsF64 f → 0 ≤ f → f < ((2 ^ 53 : Nat) : ℚ) → ⌊f⌋₊ ≤ k →
        mintLoop v k (F64.fin f) b sent =
          some (F64.fin (f - (⌊f⌋₊ : ℚ)), sendTokens v ⌊f⌋₊ b, sent + ⌊f⌋₊) := by
  intro k
  induction k with
  | zero =>
    intro f b sent _ h0 _ hk
    have hz : ⌊f⌋₊ = 0 := by omega
    have hf1 : f < 1 := Nat.floor_eq_zero.mp hz
    have hg : ¬ F64.le (F64.fin 1) (F64.fin f) = true := by
      intro h; exact absurd (of_decide_eq_true h) (not_le.mpr hf1)
    rw [mintLoop_of_not_le _ _ _ _ _ hg, hz]
    simp [sendTokens_zero]
  | succ k ih =>
    intro f b sent hf h0 h53 hk
    by_cases hf1 : f < 1
    · have hz : ⌊f⌋₊ = 0 := Nat.floor_eq_zero.mpr hf1
      have hg : ¬ F64.le (F64.fin 1) (F64.fin f) = true := by
        intro h; exact absurd (of_decide_eq_true h) (not_le.mpr hf1)
      rw [mintLoop_of_not_le _ _ _ _ _ hg, hz]
      simp [sendTokens_zero]
    · have h1 : (1 : ℚ) ≤ f := not_lt.mp hf1
      have hg : F64.le (F64.fin 1) (F64.fin f) = true := decide_eq_true h1
      have hs : F64.sub (F64.fin f) (F64.fin 1) = F64.fin (f - 1) :=
        round64_of_isF64 (by linarith) (isF64_sub_one hf h1 h53)
          (lt_trans (show f - 1 < ((2 ^ 53 : Nat) : ℚ) by linarith) pow53_lt)
      have hfl : ⌊f - 1⌋₊ = ⌊f⌋₊ - 1 := Nat.floor_sub_one f
      have hpos : 1 ≤ ⌊f⌋₊ := Nat.one_le_floor_iff f |>.mpr h1
      rw [mintLoop_succ, if_pos hg, hs,
        ih (f - 1) (sendToken b v) (sent + 1) (isF64_sub_one hf h1 h53) (by linarith)
          (by linarith) (by omega)]
      have e1 : ⌊f⌋₊ = ⌊f - 1⌋₊ + 1 := by omega
      have e2 : ((⌊f⌋₊ : Nat) : ℚ) = ((⌊f - 1⌋₊ : Nat) : ℚ) + 1 := by
        rw [e1]; push_cast; rfl
      rw [e2]
      have e3 : sendTokens v ⌊f⌋₊ b = sendTokens v ⌊f - 1⌋₊ (sendToken b v) := by
        rw [e1, sendTokens_succ]
      rw [e3]
      have e4 : sent + 1 + ⌊f - 1⌋₊ = sent + ⌊f⌋₊ := by omega
      rw [e4]
      congr 3
      ring

/-! ## The channel -/

theorem sendToken_capacity (b : Channel) (v : F64) : (sendToken b v).capacity = b.capacity := by
  unfold sendToken
  split_ifs <;> rfl

theorem sendToken_length_le (b : Channel) (v : F64) (h : b.buffer.length ≤ b.capacity) :
    (sendToken b v).buffer.length ≤ b.capacity := by
  unfold sendToken
  split_ifs with h1 h2
  · exact h
  · show (b.buffer ++ [v]).length ≤ b.capacity
    rw [List.length_append, List.length_singleton]
    omega
  · exact h

theorem sendTokens_capacity (v : F64) :
    ∀ (n : Nat) (b : Channel), (sendTokens v n b).capacity = b.capacity := by
  intro n
  induction n with
  | zero => intro b; rfl
  | succ n ih => intro b; rw [sendTokens_succ, ih, sendToken_capacity]

theorem sendTokens_length_le (v : F64) :
    ∀ (n : Nat) (b : Channel), b.buffer.length ≤ b.capacity →
      (sendTokens v n b).buffer.length ≤ b.capacity := by
  intro n
  induction n with
  | zero => intro b h; exact h
  | succ n ih =>
    intro b h
    rw [sendTokens_succ]
    have := ih (sendToken b v) (by rw [sendToken_capacity]; exact sendToken_length_le b v h)
    rw [sendToken_capacity] at this
    exact this

theorem receive_capacity (b : Channel) : (receive b).capacity = b.capacity := by
  unfold receive
  split <;> rfl

theorem receive_length_le (b : Channel) (h : b.buffer.length ≤ b.capacity) :
    (receive b).buffer.length ≤ b.capacity := by
  unfold receive
  split
  · next h1 => show b.buffer.length ≤ b.capacity; exact h
  · next v rest h1 =>
    show rest.length ≤ b.capacity
    rw [h1, List.length_cons] at h
    omega

/-- With no receiver blocked, `n` sends fill the buffer up to the capacity. -/
theorem sendTokens_length (v : F64) :
    ∀ (n : Nat) (b : Channel), b.waiting = 0 → b.buffer.length ≤ b.capacity →
      (sendTokens v n b).buffer.length = min b.capacity (b.buffer.length + n) ∧
        (sendTokens v n b).waiting = 0 := by
  intro n
  induction n with
  | zero =>
    intro b hw h
    exact ⟨by rw [sendTokens_zero, Nat.add_zero, min_eq_right h], hw⟩
  | succ n ih =>
    intro b hw h
    rw [sendTokens_succ]
    have hs : sendToken b v =
        if b.buffer.length < b.capacity then { b with buffer := b.buffer ++ [v] } else b := by
      unfold sendToken
      rw [if_neg (by omega)]
    by_cases h1 : b.buffer.length < b.capacity
    · rw [if_pos h1] at hs
      rw [hs]
      obtain ⟨a1, a2⟩ := ih { b with buffer := b.buffer ++ [v] } hw
        (by show (b.buffer ++ [v]).length ≤ b.capacity
            rw [List.length_append, List.length_singleton]; omega)
      refine ⟨?_, a2⟩
      rw [a1]
      show min b.capacity ((b.buffer ++ [v]).length + n) = _
      rw [List.length_append, List.length_singleton]
      congr 1
      omega
    · rw [if_neg h1] at hs
      rw [hs]
      obtain ⟨a1, a2⟩ := ih b hw h
      refine ⟨?_, a2⟩
      rw [a1]
      have : b.buffer.length = b.capacity := by omega
      rw [min_eq_left (by omega), min_eq_left (by omega)]

/-! ## The invariant of the event loop -/

theorem tickRate_nonNeg {s : TokenBucket} (hI : Inv s) : (tickRate s).NonNeg :=
  min_nonNeg (add_nonNeg hI.2.2.1 hI.2.1) hI.1

theorem tickRate_le {s : TokenBucket} (hI : Inv s) :
    F64.le (tickRate s) s.maxFlowPerD = true :=
  fmin_le_right (add_nonNeg hI.2.2.1 hI.2.1) hI.1

theorem tickFill_nonNeg {s : TokenBucket} (hI : Inv s) : (tickFill s).NonNeg :=
  add_nonNeg hI.2.2.2.2.1 (tickRate_nonNeg hI)

theorem tick_inv {bound : Nat} {s s1 : TokenBucket} (h : tick bound s = some s1) (hI : Inv s) :
    Inv s1 := by
  obtain ⟨r, hr, rfl⟩ := tick_some h
  obtain ⟨h1, h2⟩ := mintLoop_fill _ _ _ _ _ _ (tickFill_nonNeg hI) hr
  exact ⟨hI.1, hI.2.1, tickRate_nonNeg hI, tickRate_le hI, h1, h2⟩

theorem backoff_inv {s : TokenBucket} (hI : Inv s) : Inv (backoff s) := by
  have h1 : (F64.div s.flowPerD (F64.fin 2)).NonNeg := div_nonNeg_fin hI.2.2.1 (by norm_num)
  exact ⟨hI.1, hI.2.1, h1,
    le_trans_of_nonNeg h1 hI.2.2.1 hI.1 (half_le hI.2.2.1) hI.2.2.2.1, hI.2.2.2.2.1,
    hI.2.2.2.2.2⟩

theorem consume_inv {s : TokenBucket} (hI : Inv s) : Inv (consume s) := hI

theorem step_inv {bound : Nat} {s s1 : TokenBucket} {e : Event}
    (h : step bound s e = some s1) (hI : Inv s) : Inv s1 := by
  cases e with
  | tick => exact tick_inv h hI
  | backoff =>
    have e := Option.some.inj h
    rw [← e]; exact backoff_inv hI
  | consume =>
    have e := Option.some.inj h
    rw [← e]; exact consume_inv hI

theorem run_inv {bound : Nat} (es : List Event) :
    ∀ {s s1 : TokenBucket}, run bound s es = some s1 → Inv s → Inv s1 := by
  induction es with
  | nil =>
    intro s s1 h hI
    have e := Option.some.inj h
    rw [← e]; exact hI
  | cons e es ih =>
    intro s s1 h hI
    rw [run_cons] at h
    cases h1 : step bound s e with
    | none => rw [h1] at h; exact absurd h (by simp)
    | some s2 =>
      rw [h1, Option.some_bind] at h
      exact ih h (step_inv h1 hI)

/-- A `float64` with `0 ≤ x` is the positive infinity or a non-negative finite value. -/
theorem cases_of_zero_le {x : F64} (h : F64.le (F64.fin 0) x = true) :
    x = F64.posInf ∨ ∃ q, x = F64.fin q ∧ 0 ≤ q := by
  cases x with
  | nan => exact absurd (show false = true from h) Bool.false_ne_true
  | posInf => exact Or.inl rfl
  | negInf => exact absurd (show false = true from h) Bool.false_ne_true
  | fin q => exact Or.inr ⟨q, rfl, of_decide_eq_true h⟩

theorem mul_nonNeg_of_zero_le {x : F64} (h : F64.le (F64.fin 0) x = true) {c : ℚ}
    (hc : 0 < c) : (F64.mul x (F64.fin c)).NonNeg := by
  rcases cases_of_zero_le h with rfl | ⟨q, rfl, hq⟩
  · exact mul_nonNeg_fin nonNeg_posInf hc
  · exact round64_nonNeg _ (mul_nonneg hq hc.le)

theorem nonNeg_zero : (F64.fin 0).NonNeg :=
  nonNeg_fin le_rfl isF64_zero (pow2_pos _)

theorem lt_zero_one : F64.lt (F64.fin 0) (F64.fin 1) = true := by decide!

theorem initial_maxFlowPerD_nonNeg (m : F64) (bucketSize : Nat) (recoveryDuration : Int)
    (hm : F64.le (F64.fin 0) m = true) :
    (initial m bucketSize recoveryDuration).maxFlowPerD.NonNeg := by
  show (F64.div (F64.mul m (F64.ofInt d)) (F64.ofInt second)).NonNeg
  rw [ofInt_d, ofInt_second]
  exact div_nonNeg_fin (mul_nonNeg_of_zero_le hm (by norm_num)) (by norm_num)

/-- The constructor establishes the invariant. -/
theorem initial_inv (m : F64) (bucketSize : Nat) (recoveryDuration : Int)
    (hm : F64.le (F64.fin 0) m = true) (hr : 0 < recoveryDuration)
    (hr2 : recoveryDuration ≤ maxDuration) : Inv (initial m bucketSize recoveryDuration) := by
  have h1 := initial_maxFlowPerD_nonNeg m bucketSize recoveryDuration hm
  obtain ⟨c, hc, hc1, _, _⟩ := ofInt_pos recoveryDuration hr hr2
  have h2 : (initial m bucketSize recoveryDuration).recoveryPerD.NonNeg := by
    show (F64.div (F64.mul (initial m bucketSize recoveryDuration).maxFlowPerD (F64.ofInt d))
      (F64.ofInt recoveryDuration)).NonNeg
    rw [ofInt_d, hc]
    exact div_nonNeg_fin (mul_nonNeg_fin h1 (by norm_num)) (by linarith)
  exact ⟨h1, h2, h1, le_refl_of_nonNeg h1, nonNeg_zero, lt_zero_one⟩

theorem new_eq_some (m : F64) (bucketSize recoveryDuration : Int) (s0 : TokenBucket)
    (h0 : NewAIMDTokenBucket m bucketSize recoveryDuration = some s0) :
    0 ≤ bucketSize ∧ s0 = initial m bucketSize.toNat recoveryDuration := by
  unfold NewAIMDTokenBucket at h0
  by_cases hb : bucketSize < 0
  · rw [if_pos hb] at h0; exact absurd h0 (by simp)
  · rw [if_neg hb] at h0
    exact ⟨not_lt.mp hb, (Option.some.inj h0).symm⟩

/-! ## What the events leave alone -/

theorem tick_frame {bound : Nat} {s s1 : TokenBucket} (h : tick bound s = some s1) :
    s1.maxFlowPerD = s.maxFlowPerD ∧ s1.recoveryPerD = s.recoveryPerD ∧
      s1.bucket.capacity = s.bucket.capacity ∧ s1.flowPerD = tickRate s := by
  obtain ⟨r, hr, rfl⟩ := tick_some h
  obtain ⟨_, h2⟩ := mintLoop_sends _ _ _ _ _ _ hr
  refine ⟨rfl, rfl, ?_, rfl⟩
  show r.2.1.capacity = s.bucket.capacity
  rw [h2, sendTokens_capacity]

theorem step_frame {bound : Nat} {s s1 : TokenBucket} {e : Event}
    (h : step bound s e = some s1) :
    s1.maxFlowPerD = s.maxFlowPerD ∧ s1.recoveryPerD = s.recoveryPerD ∧
      s1.bucket.capacity = s.bucket.capacity := by
  cases e with
  | tick =>
    obtain ⟨a, b, c, _⟩ := tick_frame h
    exact ⟨a, b, c⟩
  | backoff =>
    have e := Option.some.inj h
    rw [← e]; exact ⟨rfl, rfl, rfl⟩
  | consume =>
    have e := Option.some.inj h
    rw [← e]; exact ⟨rfl, rfl, receive_capacity _⟩

theorem run_frame {bound : Nat} (es : List Event) :
    ∀ {s s1 : TokenBucket}, run bound s es = some s1 →
      s1.maxFlowPerD = s.maxFlowPerD ∧ s1.recoveryPerD = s.recoveryPerD ∧
        s1.bucket.capacity = s.bucket.capacity := by
  induction es with
  | nil =>
    intro s s1 h
    have e := Option.some.inj h
    rw [← e]; exact ⟨rfl, rfl, rfl⟩
  | cons e es ih =>
    intro s s1 h
    rw [run_cons] at h
    cases h1 : step bound s e with
    | none => rw [h1] at h; exact absurd h (by simp)
    | some s2 =>
      rw [h1, Option.some_bind] at h
      obtain ⟨a1, a2, a3⟩ := step_frame h1
      obtain ⟨b1, b2, b3⟩ := ih h
      exact ⟨b1.trans a1, b2.trans a2, b3.trans a3⟩

/-! ## The bound on the queue -/

theorem step_buffer_le {bound : Nat} {s s1 : TokenBucket} {e : Event}
    (h : step bound s e = some s1) (hb : s.bucket.buffer.length ≤ s.bucket.capacity) :
    s1.bucket.buffer.length ≤ s1.bucket.capacity := by
  rw [(step_frame h).2.2]
  cases e with
  | tick =>
    obtain ⟨r, hr, rfl⟩ := tick_some h
    obtain ⟨_, h2⟩ := mintLoop_sends _ _ _ _ _ _ hr
    show r.2.1.buffer.length ≤ s.bucket.capacity
    rw [h2]
    exact sendTokens_length_le _ _ _ hb
  | backoff =>
    have e := Option.some.inj h
    rw [← e]; exact hb
  | consume =>
    have e := Option.some.inj h
    rw [← e]; exact receive_length_le _ hb

theorem run_buffer_le {bound : Nat} (es : List Event) :
    ∀ {s s1 : TokenBucket}, run bound s es = some s1 →
      s.bucket.buffer.length ≤ s.bucket.capacity →
        s1.bucket.buffer.length ≤ s1.bucket.capacity := by
  induction es with
  | nil =>
    intro s s1 h hb
    have e := Option.some.inj h
    rw [← e]; exact hb
  | cons e es ih =>
    intro s s1 h hb
    rw [run_cons] at h
    cases h1 : step bound s e with
    | none => rw [h1] at h; exact absurd h (by simp)
    | some s2 =>
      rw [h1, Option.some_bind] at h
      exact ih h (step_buffer_le h1 hb)

/-! ## Ticks that complete -/

theorem fin_of_le_fin {x : F64} (hx : x.NonNeg) {c : ℚ} (h : F64.le x (F64.fin c) = true) :
    ∃ q, x = F64.fin q ∧ 0 ≤ q ∧ q ≤ c ∧ IsF64 q := by
  rcases hx.cases with rfl | ⟨q, rfl, hq, hq1, _⟩
  · exact absurd (show false = true from h) Bool.false_ne_true
  · exact ⟨q, rfl, hq, of_decide_eq_true h, hq1⟩

theorem fin_of_lt_fin {x : F64} (hx : x.NonNeg) {c : ℚ} (h : F64.lt x (F64.fin c) = true) :
    ∃ q, x = F64.fin q ∧ 0 ≤ q ∧ q < c ∧ IsF64 q := by
  rcases hx.cases with rfl | ⟨q, rfl, hq, hq1, _⟩
  · exact absurd (show false = true from h) Bool.false_ne_true
  · exact ⟨q, rfl, hq, of_decide_eq_true h, hq1⟩

theorem le_fin_of_le {x y : F64} (hx : x.NonNeg) {M : ℚ} (hy : y = F64.fin M)
    (h : F64.le x y = true) : ∃ q, x = F64.fin q ∧ 0 ≤ q ∧ q ≤ M ∧ IsF64 q := by
  rw [hy] at h
  exact fin_of_le_fin hx h

/-- The finite values of a state that satisfies the invariant and has a cap of at most
`2 ^ 52`. -/
theorem Inv.fin {s : TokenBucket} (hI : Inv s)
    (hM : F64.le s.maxFlowPerD (F64.fin (2 ^ 52)) = true) :
    ∃ M r f t : ℚ, s.maxFlowPerD = F64.fin M ∧ s.flowPerD = F64.fin r ∧ s.fill = F64.fin f ∧
      tickRate s = F64.fin t ∧
      IsF64 M ∧ IsF64 r ∧ IsF64 f ∧ IsF64 t ∧ 0 ≤ r ∧ r ≤ M ∧ M ≤ 2 ^ 52 ∧ 0 ≤ f ∧ f < 1 ∧
      0 ≤ t ∧ t ≤ M := by
  obtain ⟨M, eM, hM0, hM1, hM2⟩ := fin_of_le_fin hI.1 hM
  obtain ⟨r, er, hr0, hr1, hr2⟩ := le_fin_of_le hI.2.2.1 eM hI.2.2.2.1
  obtain ⟨f, ef, hf0, hf1, hf2⟩ := fin_of_lt_fin hI.2.2.2.2.1 hI.2.2.2.2.2
  obtain ⟨t, et, ht0, ht1, ht2⟩ := le_fin_of_le (tickRate_nonNeg hI) eM (tickRate_le hI)
  exact ⟨M, r, f, t, eM, er, ef, et, hM2, hr2, hf2, ht2, hr0, hr1, hM1, hf0, hf1, ht0, ht1⟩

theorem isF64_pow52_succ : IsF64 ((2 : ℚ) ^ 52 + 1) := by
  have e : ((2 : ℚ) ^ 52 + 1) = ((2 ^ 52 + 1 : Nat) : ℚ) := by norm_num
  rw [e]
  exact isF64_natCast _ (by norm_num)

/-- The fill a tick starts its loop with, for a cap of at most `2 ^ 52`: finite and at most
`2 ^ 52 + 1`. -/
theorem tickFill_fin {s : TokenBucket} (hI : Inv s)
    (hM : F64.le s.maxFlowPerD (F64.fin (2 ^ 52)) = true) :
    ∃ f t : ℚ, s.fill = F64.fin f ∧ tickRate s = F64.fin t ∧ IsF64 f ∧ IsF64 t ∧ 0 ≤ f ∧
      f < 1 ∧ 0 ≤ t ∧ tickFill s = F64.fin (roundQ (f + t)) ∧ IsF64 (roundQ (f + t)) ∧
      0 ≤ roundQ (f + t) ∧ roundQ (f + t) ≤ 2 ^ 52 + 1 := by
  obtain ⟨M, r, f, t, eM, er, ef, et, hM2, hr2, hf2, ht2, hr0, hr1, hM1, hf0, hf1, ht0, ht1⟩ :=
    hI.fin hM
  have hle : f + t ≤ 2 ^ 52 + 1 := by linarith
  have hlt : (2 : ℚ) ^ 52 + 1 < pow2 1024 := by
    have := pow53_lt
    push_cast at this
    linarith
  refine ⟨f, t, ef, et, hf2, ht2, hf0, hf1, ht0, ?_, isF64_roundQ _ (by linarith),
    roundQ_nonneg _ (by linarith), roundQ_le_of_le _ _ (by linarith) hle isF64_pow52_succ⟩
  show F64.add s.fill (tickRate s) = _
  rw [ef, et]
  exact round64_eq_fin _ _ (by linarith) hle isF64_pow52_succ hlt

/-- A tick in a state with a cap of at most `2 ^ 52` completes within `2 ^ 53` iterations, makes
`⌊F⌋` sends and leaves the fill `F - ⌊F⌋`, where `F` is the fill its loop starts with. -/
theorem tick_exact {s : TokenBucket} (hI : Inv s)
    (hM : F64.le s.maxFlowPerD (F64.fin (2 ^ 52)) = true) (bound : Nat) (hb : 2 ^ 53 ≤ bound) :
    ∃ F : ℚ, tickFill s = F64.fin F ∧ IsF64 F ∧ 0 ≤ F ∧ F ≤ 2 ^ 52 + 1 ∧
      tick bound s = some { s with
        flowPerD := tickRate s
        fill := F64.fin (F - (⌊F⌋₊ : ℚ))
        bucket := sendTokens (tickValue s) ⌊F⌋₊ s.bucket
        sent := s.sent + ⌊F⌋₊ } := by
  obtain ⟨f, t, _, _, _, _, _, _, _, eF, hF1, hF0, hF2⟩ := tickFill_fin hI hM
  refine ⟨roundQ (f + t), eF, hF1, hF0, hF2, ?_⟩
  have h53 : roundQ (f + t) < ((2 ^ 53 : Nat) : ℚ) := by
    push_cast
    have : (2 : ℚ) ^ 52 + 1 < 2 ^ 53 := by norm_num
    linarith
  have hfl : ⌊roundQ (f + t)⌋₊ ≤ bound := by
    have h1 : ⌊roundQ (f + t)⌋₊ < 2 ^ 53 := by
      rw [Nat.floor_lt hF0]
      exact h53
    omega
  have hml := mintLoop_exact (tickValue s) bound (roundQ (f + t)) s.bucket s.sent hF1 hF0 h53 hfl
  rw [← eF] at hml
  rw [tick_of_mintLoop hml]

/-! ## The loop and the channel -/

/-- The loop leaves only when its guard `fill >= 1` is false. -/
theorem mintLoop_exit (v : F64) :
    ∀ (k : Nat) (fill : F64) (b : Channel) (sent : Nat) (r : F64 × Channel × Nat),
      mintLoop v k fill b sent = some r → F64.le (F64.fin 1) r.1 = false := by
  intro k
  induction k with
  | zero =>
    intro fill b sent r h
    rw [mintLoop_zero] at h
    by_cases hg : F64.le (F64.fin 1) fill = true
    · rw [if_pos hg] at h; exact absurd h (by simp)
    · rw [if_neg hg] at h
      have e := Option.some.inj h
      rw [← e]
      exact Bool.eq_false_iff.mpr hg
  | succ k ih =>
    intro fill b sent r h
    rw [mintLoop_succ] at h
    by_cases hg : F64.le (F64.fin 1) fill = true
    · rw [if_pos hg] at h
      exact ih _ _ _ _ h
    · rw [if_neg hg] at h
      have e := Option.some.inj h
      rw [← e]
      exact Bool.eq_false_iff.mpr hg

/-- The fill the loop leaves depends on neither the channel nor the value sent. -/
theorem mintLoop_fill_indep (v w : F64) :
    ∀ (k : Nat) (fill : F64) (b c : Channel) (sent sent1 : Nat),
      (mintLoop v k fill b sent).map (fun r => r.1) =
        (mintLoop w k fill c sent1).map (fun r => r.1) := by
  intro k
  induction k with
  | zero =>
    intro fill b c sent sent1
    rw [mintLoop_zero, mintLoop_zero]
    by_cases hg : F64.le (F64.fin 1) fill = true
    · rw [if_pos hg, if_pos hg]
    · rw [if_neg hg, if_neg hg]; rfl
  | succ k ih =>
    intro fill b c sent sent1
    rw [mintLoop_succ, mintLoop_succ]
    by_cases hg : F64.le (F64.fin 1) fill = true
    · rw [if_pos hg, if_pos hg]
      exact ih _ _ _ _ _
    · rw [if_neg hg, if_neg hg]; rfl

theorem tick_fill_indep (bound : Nat) (s : TokenBucket) (b : Channel) :
    (tick bound { s with bucket := b }).map (fun s1 => s1.fill) =
      (tick bound s).map (fun s1 => s1.fill) := by
  rw [tick_eq, tick_eq, Option.map_map, Option.map_map]
  exact mintLoop_fill_indep _ _ _ _ _ _ _ _

theorem tick_exit {bound : Nat} {s s1 : TokenBucket} (h : tick bound s = some s1) :
    F64.le (F64.fin 1) s1.fill = false := by
  obtain ⟨r, hr, rfl⟩ := tick_some h
  exact mintLoop_exit _ _ _ _ _ _ hr

theorem receive_buffer (b : Channel) : (receive b).buffer = b.buffer.drop 1 := by
  unfold receive
  split
  · next h => show b.buffer = _; rw [h]; rfl
  · next v rest h => show rest = _; rw [h]; rfl

theorem receive_received (b : Channel) :
    (receive b).received = b.received ++ b.buffer.take 1 := by
  unfold receive
  split
  · next h => show b.received = _; rw [h]; simp
  · next v rest h => show b.received ++ [v] = _; rw [h]; rfl

/-! ## After `Stop` -/

theorem runHandle_nil (bound : Nat) (tb : Handle) : runHandle bound tb [] = some tb := rfl

theorem runHandle_cons (bound : Nat) (tb : Handle) (e : Event) (es : List Event) :
    runHandle bound tb (e :: es) =
      (deliver bound tb e).bind fun tb1 => runHandle bound tb1 es := rfl

/-- A stopped bucket makes no send: its queue only loses the tokens that are received. -/
theorem runHandle_stopped (bound : Nat) (es : List Event) :
    ∀ tb : Handle, tb.stopped = true →
      ∃ tb1, runHandle bound tb es = some tb1 ∧ tb1.stopped = true ∧
        tb1.state.bucket.buffer = tb.state.bucket.buffer.drop (es.count Event.consume) ∧
        tb1.state.bucket.received =
          tb.state.bucket.received ++ tb.state.bucket.buffer.take (es.count Event.consume) ∧
        tb1.state.sent = tb.state.sent ∧ tb1.state.fill = tb.state.fill := by
  induction es with
  | nil =>
    intro tb h
    exact ⟨tb, rfl, h, by simp, by simp, rfl, rfl⟩
  | cons e es ih =>
    intro tb h
    rw [runHandle_cons]
    cases e with
    | tick =>
      have hd : deliver bound tb Event.tick = some tb := by
        show (if tb.stopped then some tb else _) = _
        rw [if_pos h]
      rw [hd, Option.some_bind]
      obtain ⟨tb1, a1, a2, a3, a4, a5, a6⟩ := ih tb h
      refine ⟨tb1, a1, a2, ?_, ?_, a5, a6⟩
      · rw [a3, List.count_cons_of_ne (by decide)]
      · rw [a4, List.count_cons_of_ne (by decide)]
    | backoff =>
      have hd : deliver bound tb Event.backoff = some (Backoff tb) := rfl
      rw [hd, Option.some_bind]
      obtain ⟨tb1, a1, a2, a3, a4, a5, a6⟩ := ih (Backoff tb) h
      refine ⟨tb1, a1, a2, ?_, ?_, a5, a6⟩
      · rw [a3, List.count_cons_of_ne (by decide)]; rfl
      · rw [a4, List.count_cons_of_ne (by decide)]; rfl
    | consume =>
      have hd : deliver bound tb Event.consume =
          some { tb with state := consume tb.state } := rfl
      rw [hd, Option.some_bind]
      obtain ⟨tb1, a1, a2, a3, a4, a5, a6⟩ := ih { tb with state := consume tb.state } h
      refine ⟨tb1, a1, a2, ?_, ?_, a5, a6⟩
      · rw [a3, List.count_cons_self]
        show (receive tb.state.bucket).buffer.drop _ = _
        rw [receive_buffer, List.drop_drop]
        congr 1
        omega
      · rw [a4, List.count_cons_self]
        show (receive tb.state.bucket).received ++ (receive tb.state.bucket).buffer.take _ = _
        rw [receive_received, receive_buffer, List.append_assoc]
        congr 1
        rw [Nat.add_comm, List.take_add]

/-- Without a tick the struct and the event loop go through the same states. -/
theorem runHandle_of_no_tick (bound : Nat) (es : List Event) :
    ∀ tb : Handle, (∀ e ∈ es, e ≠ Event.tick) →
      (runHandle bound tb es).map (fun tb1 => tb1.state) = run bound tb.state es := by
  induction es with
  | nil => intro tb _; rfl
  | cons e es ih =>
    intro tb h
    have h2 : ∀ e1 ∈ es, e1 ≠ Event.tick := fun e1 he => h e1 (List.mem_cons_of_mem _ he)
    rw [runHandle_cons, run_cons]
    cases e with
    | tick => exact absurd rfl (h Event.tick (List.mem_cons_self _ _))
    | backoff =>
      show (runHandle bound (Backoff tb) es).map _ = run bound (backoff tb.state) es
      exact ih (Backoff tb) h2
    | consume =>
      show (runHandle bound { tb with state := consume tb.state } es).map _ =
        run bound (consume tb.state) es
      exact ih { tb with state := consume tb.state } h2

/-! ## Runs that complete -/

theorem step_maxFlowPerD_le {bound : Nat} {s s1 : TokenBucket} {e : Event} {c : ℚ}
    (h : step bound s e = some s1) (hM : F64.le s.maxFlowPerD (F64.fin c) = true) :
    F64.le s1.maxFlowPerD (F64.fin c) = true := by
  rw [(step_frame h).1]; exact hM

/-- With a cap of at most `2 ^ 52` every tick completes within `2 ^ 53` iterations of its loop,
and so does every finite sequence of events. -/
theorem run_total (bound : Nat) (hb : 2 ^ 53 ≤ bound) (es : List Event) :
    ∀ s : TokenBucket, Inv s → F64.le s.maxFlowPerD (F64.fin (2 ^ 52)) = true →
      ∃ s1, run bound s es = some s1 := by
  induction es with
  | nil => intro s _ _; exact ⟨s, rfl⟩
  | cons e es ih =>
    intro s hI hM
    rw [run_cons]
    have hstep : ∃ s2, step bound s e = some s2 := by
      cases e with
      | tick =>
        obtain ⟨F, _, _, _, _, ht⟩ := tick_exact hI hM bound hb
        exact ⟨_, ht⟩
      | backoff => exact ⟨_, rfl⟩
      | consume => exact ⟨_, rfl⟩
    obtain ⟨s2, h2⟩ := hstep
    rw [h2, Option.some_bind]
    exact ih s2 (step_inv h2 hI) (step_maxFlowPerD_le h2 hM)

/-! ## What a tick adds -/

theorem pow2_neg53 : pow2 (-53) = 1 / 2 ^ 53 := by
  rw [pow2_eq]
  norm_num

/-- The rate a tick sets is not below the rate it finds. -/
theorem tickRate_ge {s : TokenBucket} (hI : Inv s) {r t : ℚ} (hr : s.flowPerD = F64.fin r)
    (ht : tickRate s = F64.fin t) : r ≤ t := by
  obtain ⟨hM, hrec, hfl, hle, _, _⟩ := hI
  rw [hr] at hfl hle
  have hr0 : 0 ≤ r := hfl.1
  have hr1 : IsF64 r := hfl.2.1
  unfold tickRate at ht
  rw [hr] at ht
  have key : ∀ x : F64, x.NonNeg → (x = F64.posInf ∨ ∃ a, x = F64.fin a ∧ r ≤ a) →
      F64.min x s.maxFlowPerD = F64.fin t → r ≤ t := by
    intro x _ hx hmin
    rcases hM.cases with e | ⟨M, e, _, _, _⟩
    · rw [e] at hmin
      rcases hx with rfl | ⟨a, rfl, ha⟩
      · exact absurd hmin (by simp [F64.min])
      · have : F64.fin a = F64.fin t := hmin
        rw [← F64.fin.inj this]; exact ha
    · rw [e] at hmin hle
      have hrM : r ≤ M := of_decide_eq_true hle
      rcases hx with rfl | ⟨a, rfl, ha⟩
      · have : F64.fin M = F64.fin t := hmin
        rw [← F64.fin.inj this]; exact hrM
      · have : F64.fin (if a ≤ M then a else M) = F64.fin t := hmin
        rw [← F64.fin.inj this]
        by_cases h : a ≤ M
        · rw [if_pos h]; exact ha
        · rw [if_neg h]; exact hrM
  apply key _ (add_nonNeg (nonNeg_fin hfl.1 hfl.2.1 hfl.2.2) hrec) _ ht
  rcases hrec.cases with e | ⟨c, e, hc, _, _⟩
  · left; rw [e]; rfl
  · rw [e]
    show round64 (r + c) = F64.posInf ∨ ∃ a, round64 (r + c) = F64.fin a ∧ r ≤ a
    rw [round64_of_nonneg _ (by linarith)]
    by_cases h : pow2 1024 ≤ roundQ (r + c)
    · left; rw [if_pos h]
    · right
      rw [if_neg h]
      exact ⟨_, rfl, le_roundQ_of_le _ _ hr0 (by linarith) hr1⟩

/-- A tick in a state with a cap `M ≤ 2 ^ 52`: it completes, the calls of `sendToken` and the
fill it leaves add up to the binary64 sum of the fill and the rate, and that sum is within
`(1 + M) / 2 ^ 53` of the exact one. -/
theorem tick_bounds {s : TokenBucket} (hI : Inv s) {M : ℚ} (hM : s.maxFlowPerD = F64.fin M)
    (hM2 : M ≤ 2 ^ 52) (bound : Nat) (hb : 2 ^ 53 ≤ bound) :
    ∃ (s1 : TokenBucket) (f f1 r t : ℚ), tick bound s = some s1 ∧ s.fill = F64.fin f ∧
      s1.fill = F64.fin f1 ∧ s.flowPerD = F64.fin r ∧ s1.flowPerD = F64.fin t ∧
      tickRate s = F64.fin t ∧ r ≤ t ∧ t ≤ M ∧ 0 ≤ f1 ∧ 0 ≤ f ∧
      (s1.sent : ℚ) + f1 = (s.sent : ℚ) + roundQ (f + t) ∧
      roundQ (f + t) ≤ f + t + (1 + M) / 2 ^ 53 ∧
      f + t - (1 + M) / 2 ^ 53 ≤ roundQ (f + t) ∧
      s.sent ≤ s1.sent ∧
      s1.bucket = sendTokens (tickValue s) (s1.sent - s.sent) s.bucket := by
  have hMle : F64.le s.maxFlowPerD (F64.fin (2 ^ 52)) = true := by
    rw [hM]; exact decide_eq_true hM2
  obtain ⟨M1, r, f0, t0, eM, er, ef0, et0, _, _, _, _, hr0, hrM, _, _, _, _, ht0M⟩ :=
    hI.fin hMle
  obtain ⟨f, t, ef, et, hf2, ht2, hf0, hf1, ht0, eF, hF1, hF0, hF2⟩ := tickFill_fin hI hMle
  have hMM : M1 = M := F64.fin.inj (eM.symm.trans hM)
  have htt : t0 = t := F64.fin.inj (et0.symm.trans et)
  have htM : t ≤ M := by rw [← htt, ← hMM]; exact ht0M
  have h53 : roundQ (f + t) < ((2 ^ 53 : Nat) : ℚ) := by
    push_cast
    have : (2 : ℚ) ^ 52 + 1 < 2 ^ 53 := by norm_num
    linarith
  have hfl : ⌊roundQ (f + t)⌋₊ ≤ bound := by
    have h1 : ⌊roundQ (f + t)⌋₊ < 2 ^ 53 := by
      rw [Nat.floor_lt hF0]
      exact h53
    omega
  have hml := mintLoop_exact (tickValue s) bound (roundQ (f + t)) s.bucket s.sent hF1 hF0 h53 hfl
  rw [← eF] at hml
  have htick := tick_of_mintLoop hml
  have e1 := roundQ_add_sub_le hf2 ht2 hf0 ht0
  have e2 := sub_roundQ_add_le hf2 ht2 hf0 ht0
  rw [pow2_neg53] at e1 e2
  have hu : (0 : ℚ) < 1 / 2 ^ 53 := by positivity
  have hsum : (1 / 2 ^ 53 : ℚ) * (f + t) ≤ (1 + M) / 2 ^ 53 := by
    rw [div_eq_mul_one_div (1 + M), mul_comm]
    exact mul_le_mul_of_nonneg_right (by linarith) hu.le
  refine ⟨_, f, roundQ (f + t) - (⌊roundQ (f + t)⌋₊ : ℚ), r, t, htick, ef, rfl, er, et, et,
    tickRate_ge hI er et, htM, ?_, hf0, ?_, by linarith, by linarith, Nat.le_add_right _ _, ?_⟩
  · have := Nat.floor_le hF0
    linarith
  · show ((s.sent + ⌊roundQ (f + t)⌋₊ : Nat) : ℚ) + _ = _
    push_cast
    ring
  · show sendTokens (tickValue s) ⌊roundQ (f + t)⌋₊ s.bucket = _
    rw [Nat.add_sub_cancel_left]

/-! ## What a run adds -/

/-- An upper bound on the sends of a run: every tick adds at most the cap and a rounding error
to the sum of the sends and the fill. -/
theorem run_sent_le (bound : Nat) (hb : 2 ^ 53 ≤ bound) (M : ℚ) (hM2 : M ≤ 2 ^ 52)
    (es : List Event) :
    ∀ s : TokenBucket, Inv s → s.maxFlowPerD = F64.fin M →
      ∃ (s1 : TokenBucket) (f f1 : ℚ), run bound s es = some s1 ∧ s.fill = F64.fin f ∧
        s1.fill = F64.fin f1 ∧ 0 ≤ f1 ∧
        (s1.sent : ℚ) + f1 ≤
          (s.sent : ℚ) + f + (es.count Event.tick : ℚ) * (M + (1 + M) / 2 ^ 53) := by
  induction es with
  | nil =>
    intro s hI hM
    have hMle : F64.le s.maxFlowPerD (F64.fin (2 ^ 52)) = true := by
      rw [hM]; exact decide_eq_true hM2
    obtain ⟨_, _, f, _, _, _, ef, _, _, _, _, _, _, _, _, hf0, _, _, _⟩ := hI.fin hMle
    exact ⟨s, f, f, rfl, ef, ef, hf0, by simp⟩
  | cons e es ih =>
    intro s hI hM
    rw [run_cons]
    cases e with
    | tick =>
      obtain ⟨s1, f, f1, r, t, ht, ef, ef1, _, _, _, _, htM, _, _, hsum, hup, _, _, _⟩ :=
        tick_bounds hI hM hM2 bound hb
      have hs : step bound s Event.tick = some s1 := ht
      rw [hs, Option.some_bind]
      obtain ⟨s2, g, g2, hrun, eg, eg2, hg2, hle⟩ :=
        ih s1 (tick_inv ht hI) ((tick_frame ht).1.trans hM)
      have hfg : g = f1 := F64.fin.inj (eg.symm.trans ef1)
      refine ⟨s2, f, g2, hrun, ef, eg2, hg2, ?_⟩
      rw [List.count_cons_self]
      push_cast
      rw [hfg] at hle
      nlinarith
    | backoff =>
      have hs : step bound s Event.backoff = some (backoff s) := rfl
      rw [hs, Option.some_bind]
      obtain ⟨s2, g, g2, hrun, eg, eg2, hg2, hle⟩ := ih (backoff s) (backoff_inv hI) hM
      refine ⟨s2, g, g2, hrun, eg, eg2, hg2, ?_⟩
      rw [List.count_cons_of_ne (by decide)]
      exact hle
    | consume =>
      have hs : step bound s Event.consume = some (consume s) := rfl
      rw [hs, Option.some_bind]
      obtain ⟨s2, g, g2, hrun, eg, eg2, hg2, hle⟩ := ih (consume s) (consume_inv hI) hM
      refine ⟨s2, g, g2, hrun, eg, eg2, hg2, ?_⟩
      rw [List.count_cons_of_ne (by decide)]
      exact hle

/-- A run of `n` ticks from a state with rate `r` and cap `M ≤ 2 ^ 52`: the rate does not fall,
the sends and the fill add up to between `n * r` and `n * M` beyond what they were, up to a
rounding error of `(1 + M) / 2 ^ 53` per tick, and with no receiver blocked the queue holds its
tokens and the new ones up to its capacity. -/
theorem run_ticks_bounds (bound : Nat) (hb : 2 ^ 53 ≤ bound) (M : ℚ) (hM2 : M ≤ 2 ^ 52)
    (n : Nat) :
    ∀ s : TokenBucket, Inv s → s.maxFlowPerD = F64.fin M →
      ∃ (s1 : TokenBucket) (f f1 r r1 : ℚ), run bound s (ticks n) = some s1 ∧ Inv s1 ∧
        s1.maxFlowPerD = F64.fin M ∧ s.fill = F64.fin f ∧ s1.fill = F64.fin f1 ∧
        s.flowPerD = F64.fin r ∧ s1.flowPerD = F64.fin r1 ∧ r ≤ r1 ∧ r1 ≤ M ∧ 0 ≤ f1 ∧
        f1 < 1 ∧
        (s1.sent : ℚ) + f1 ≤ (s.sent : ℚ) + f + (n : ℚ) * (M + (1 + M) / 2 ^ 53) ∧
        (s.sent : ℚ) + f + (n : ℚ) * (r - (1 + M) / 2 ^ 53) ≤ (s1.sent : ℚ) + f1 ∧
        s.sent ≤ s1.sent ∧
        (s.bucket.waiting = 0 → s.bucket.buffer.length ≤ s.bucket.capacity →
          s1.bucket.buffer.length =
              min s.bucket.capacity (s.bucket.buffer.length + (s1.sent - s.sent)) ∧
            s1.bucket.waiting = 0 ∧ s1.bucket.capacity = s.bucket.capacity) := by
  induction n with
  | zero =>
    intro s hI hM
    have hMle : F64.le s.maxFlowPerD (F64.fin (2 ^ 52)) = true := by
      rw [hM]; exact decide_eq_true hM2
    obtain ⟨M1, r, f, _, eM, er, ef, _, _, _, _, _, _, hrM, _, hf0, hf1, _, _⟩ := hI.fin hMle
    have hMM : M1 = M := F64.fin.inj (eM.symm.trans hM)
    refine ⟨s, f, f, r, r, rfl, hI, hM, ef, ef, er, er, le_rfl, by rw [← hMM]; exact hrM, hf0,
      hf1, by simp, by simp, le_rfl, ?_⟩
    intro _ hlen
    rw [Nat.sub_self, Nat.add_zero, min_eq_right hlen]
    exact ⟨rfl, ‹_›, rfl⟩
  | succ n ih =>
    intro s hI hM
    obtain ⟨s1, f, f1, r, t, ht, ef, ef1, er, et, _, hrt, htM, _, _, hsum, hup, hlo, hsent,
      hbk⟩ := tick_bounds hI hM hM2 bound hb
    have hs : step bound s Event.tick = some s1 := ht
    rw [ticks_succ, run_cons, hs, Option.some_bind]
    obtain ⟨s2, g, g2, q, q2, hrun, hI2, hM2', eg, eg2, eq, eq2, hq, hq2M, hg0, hg1, hle, hge,
      hsent2, hbk2⟩ := ih s1 (tick_inv ht hI) ((tick_frame ht).1.trans hM)
    have hfg : g = f1 := F64.fin.inj (eg.symm.trans ef1)
    have hqt : q = t := F64.fin.inj (eq.symm.trans et)
    rw [hfg] at hle hge
    rw [hqt] at hq hge
    have hn : (0 : ℚ) ≤ (n : ℚ) := Nat.cast_nonneg n
    refine ⟨s2, f, g2, r, q2, hrun, hI2, hM2', ef, eg2, er, eq2, le_trans hrt hq, hq2M, hg0,
      hg1, ?_, ?_, le_trans hsent hsent2, ?_⟩
    · push_cast
      nlinarith
    · push_cast
      have h1 : (n : ℚ) * (r - (1 + M) / 2 ^ 53) ≤ (n : ℚ) * (t - (1 + M) / 2 ^ 53) :=
        mul_le_mul_of_nonneg_left (by linarith) hn
      nlinarith
    · intro hw hlen
      have hcap : s1.bucket.capacity = s.bucket.capacity := (tick_frame ht).2.2.1
      obtain ⟨a1, a2⟩ := sendTokens_length (tickValue s) (s1.sent - s.sent) s.bucket hw hlen
      rw [← hbk] at a1 a2
      have hlen1 : s1.bucket.buffer.length ≤ s1.bucket.capacity := by
        rw [a1, hcap]; exact min_le_left _ _
      obtain ⟨b1, b2, b3⟩ := hbk2 a2 hlen1
      refine ⟨?_, b2, b3.trans hcap⟩
      rw [b1, a1, hcap]
      omega

/-! ## Backoffs in a row -/

theorem run_backoffs_succ (bound : Nat) (s : TokenBucket) (n : Nat) :
    run bound s (backoffs (n + 1)) = run bound (backoff s) (backoffs n) := rfl

theorem backoff_flowPerD (s : TokenBucket) (r : ℚ) (hr : s.flowPerD = F64.fin r) :
    (backoff s).flowPerD = round64 (r / 2) := by
  show F64.div s.flowPerD (F64.fin 2) = _
  rw [hr, div_fin_fin r 2 (by norm_num)]

/-- One backoff of a finite non-negative rate: the result is finite, a binary64 value, and not
above the rate. -/
theorem backoff_flowPerD_fin (s : TokenBucket) (r : ℚ) (hr : s.flowPerD = F64.fin r)
    (h0 : 0 ≤ r) (h1 : IsF64 r) (h2 : r < pow2 1024) :
    (backoff s).flowPerD = F64.fin (roundQ (r / 2)) ∧ 0 ≤ roundQ (r / 2) ∧
      IsF64 (roundQ (r / 2)) ∧ roundQ (r / 2) ≤ r := by
  rw [backoff_flowPerD s r hr]
  exact ⟨round64_eq_fin _ r (by linarith) (by linarith) h1 h2, roundQ_nonneg _ (by linarith),
    isF64_roundQ _ (by linarith), roundQ_le_of_le _ _ (by linarith) (by linarith) h1⟩

/-- Halving is exact as long as the result is in the normal range. -/
theorem run_backoffs_exact (bound : Nat) (N : Nat) :
    ∀ (s : TokenBucket) (r : ℚ), s.flowPerD = F64.fin r → IsF64 r → r < pow2 1024 →
      pow2 (-1022) ≤ r / 2 ^ N →
      ∃ s1, run bound s (backoffs N) = some s1 ∧ s1.flowPerD = F64.fin (r / 2 ^ N) := by
  induction N with
  | zero =>
    intro s r hr _ _ _
    exact ⟨s, rfl, by rw [hr]; simp⟩
  | succ N ih =>
    intro s r hr h1 h2 hN
    have hpos : (0 : ℚ) < 2 ^ N := by positivity
    have hge1 : (1 : ℚ) ≤ 2 ^ N := one_le_pow₀ (by norm_num)
    have e : r / 2 ^ (N + 1) = r / 2 / 2 ^ N := by
      rw [pow_succ, div_div, mul_comm]
    rw [e] at hN
    have hq : pow2 (-1022) ≤ r / 2 := by
      have h3 : r / 2 / 2 ^ N ≤ r / 2 := by
        apply div_le_self _ hge1
        have := pow2_pos (-1022)
        have h4 : 0 < r / 2 / 2 ^ N := lt_of_lt_of_le this hN
        have := (div_pos_iff_of_pos_right hpos).mp h4
        linarith
      linarith
    have hr21 : pow2 (-1021) ≤ r := by
      have := pow2_succ (-1022)
      norm_num at this
      rw [this]
      linarith
    have h0 : 0 ≤ r := le_trans (pow2_pos _).le hr21
    obtain ⟨a1, _, a3, a4⟩ := backoff_flowPerD_fin s r hr h0 h1 h2
    rw [roundQ_half h1 hr21] at a1 a3 a4
    obtain ⟨s1, b1, b2⟩ := ih (backoff s) (r / 2) a1 a3 (lt_of_le_of_lt a4 h2) hN
    exact ⟨s1, by rw [run_backoffs_succ]; exact b1, by rw [b2, e]⟩

/-- A rate of at most `2 ^ (n - 1074)` is zero after `n + 1` backoffs. -/
theorem run_backoffs_zero (bound : Nat) (n : Nat) :
    ∀ (s : TokenBucket) (r : ℚ), s.flowPerD = F64.fin r → 0 ≤ r → IsF64 r → r < pow2 1024 →
      r ≤ pow2 ((n : Int) - 1074) →
      ∃ s1, run bound s (backoffs (n + 1)) = some s1 ∧ s1.flowPerD = F64.fin 0 := by
  induction n with
  | zero =>
    intro s r hr h0 h1 h2 hle
    have hle2 : r ≤ pow2 (-1074) := by simpa using hle
    obtain ⟨a1, _, _, _⟩ := backoff_flowPerD_fin s r hr h0 h1 h2
    refine ⟨backoff s, rfl, ?_⟩
    rw [a1]
    rcases h1.eq_zero_or_unit h0 hle2 with e | e
    · rw [e]; simp [roundQ_zero]
    · rw [e, roundQ_half_unit]
  | succ n ih =>
    intro s r hr h0 h1 h2 hle
    obtain ⟨a1, a2, a3, a4⟩ := backoff_flowPerD_fin s r hr h0 h1 h2
    have hle2 : r / 2 ≤ pow2 ((n : Int) - 1074) := by
      have e : (((n + 1 : Nat) : Int) - 1074) = ((n : Int) - 1074) + 1 := by
        push_cast; ring
      rw [e, pow2_succ] at hle
      linarith
    have a5 : roundQ (r / 2) ≤ pow2 ((n : Int) - 1074) :=
      roundQ_le_of_le _ _ (by linarith) hle2 (isF64_pow2 _ (by omega))
    obtain ⟨s1, b1, b2⟩ := ih (backoff s) _ a1 a2 a3 (lt_of_le_of_lt a4 h2) a5
    exact ⟨s1, by rw [run_backoffs_succ]; exact b1, b2⟩

/-- Every finite rate is exactly zero after 2099 backoffs in a row. -/
theorem run_backoffs_2099 (bound : Nat) (s : TokenBucket) (r : ℚ)
    (hr : s.flowPerD = F64.fin r) (h0 : 0 ≤ r) (h1 : IsF64 r) (h2 : r < pow2 1024) :
    ∃ s1, run bound s (backoffs 2099) = some s1 ∧ s1.flowPerD = F64.fin 0 := by
  have e : pow2 (((2098 : Nat) : Int) - 1074) = pow2 1024 := by norm_num
  exact run_backoffs_zero bound 2098 s r hr h0 h1 h2 (by rw [e]; exact h2.le)

/-! ## The rate over ticks in a row -/

theorem nonNeg_of_eq_fin {x : F64} (hx : x.NonNeg) {q : ℚ} (h : x = F64.fin q) :
    0 ≤ q ∧ IsF64 q ∧ q < pow2 1024 := by
  rw [h] at hx
  exact hx

theorem pow2_101 : pow2 101 = 2 ^ 101 := by
  rw [pow2_eq]
  norm_num

/-- The rate a tick sets, for a finite cap `M ≤ 2 ^ 52` and a finite recovery step
`c ≤ 2 ^ 100`: the smaller of the binary64 sum of the rate and the step, and the cap. -/
theorem tickRate_eq {s : TokenBucket} (hI : Inv s) {M c r : ℚ}
    (hM : s.maxFlowPerD = F64.fin M) (hM2 : M ≤ 2 ^ 52) (hc : s.recoveryPerD = F64.fin c)
    (hc2 : c ≤ 2 ^ 100) (hr : s.flowPerD = F64.fin r) :
    tickRate s = F64.fin (min (roundQ (r + c)) M) ∧ 0 ≤ c ∧ 0 ≤ r ∧ r ≤ M ∧
      roundQ (r + c) - (r + c) ≤ (M + c) / 2 ^ 53 ∧
      (r + c) - roundQ (r + c) ≤ (M + c) / 2 ^ 53 := by
  obtain ⟨hc0, hc1, _⟩ := nonNeg_of_eq_fin hI.2.1 hc
  obtain ⟨hr0, hr1, _⟩ := nonNeg_of_eq_fin hI.2.2.1 hr
  have hrM : r ≤ M := by
    have := hI.2.2.2.1
    rw [hr, hM] at this
    exact of_decide_eq_true this
  have hle : r + c ≤ pow2 101 := by
    rw [pow2_101]
    have : (2 : ℚ) ^ 52 + 2 ^ 100 ≤ 2 ^ 101 := by norm_num
    linarith
  have hadd : F64.add (F64.fin r) (F64.fin c) = F64.fin (roundQ (r + c)) :=
    round64_eq_fin _ _ (by linarith) hle (isF64_pow2 _ (by norm_num)) (pow2_lt (by norm_num))
  have e1 := roundQ_add_sub_le hr1 hc1 hr0 hc0
  have e2 := sub_roundQ_add_le hr1 hc1 hr0 hc0
  rw [pow2_neg53] at e1 e2
  have hu : (0 : ℚ) < 1 / 2 ^ 53 := by positivity
  have hsum : (1 / 2 ^ 53 : ℚ) * (r + c) ≤ (M + c) / 2 ^ 53 := by
    rw [div_eq_mul_one_div (M + c), mul_comm]
    exact mul_le_mul_of_nonneg_right (by linarith) hu.le
  refine ⟨?_, hc0, hr0, hrM, by linarith, by linarith⟩
  unfold tickRate
  rw [hr, hc, hM, hadd]
  show F64.fin (if roundQ (r + c) ≤ M then roundQ (r + c) else M) = _
  rw [min_def]

theorem min_min_add (F M x : ℚ) (hx : 0 ≤ x) : min (min F M + x) M = min (F + x) M := by
  by_cases h : F ≤ M
  · rw [min_eq_left h]
  · have h1 : M < F := not_le.mp h
    rw [min_eq_right h1.le, min_eq_right (by linarith), min_eq_right (by linarith)]

/-- The rate after `k` ticks in a row is within `k * (M + c) / 2 ^ 53` of
`min (r + k * c) M`. -/
theorem run_ticks_rate (bound : Nat) (hb : 2 ^ 53 ≤ bound) (M c : ℚ) (hM2 : M ≤ 2 ^ 52)
    (hc2 : c ≤ 2 ^ 100) (k : Nat) :
    ∀ (s : TokenBucket) (r : ℚ), Inv s → s.maxFlowPerD = F64.fin M →
      s.recoveryPerD = F64.fin c → s.flowPerD = F64.fin r →
      ∃ (sk : TokenBucket) (rk : ℚ), run bound s (ticks k) = some sk ∧
        sk.flowPerD = F64.fin rk ∧ rk ≤ M ∧
        |rk - min (r + (k : ℚ) * c) M| ≤ (k : ℚ) * (M + c) / 2 ^ 53 := by
  induction k with
  | zero =>
    intro s r hI hM hc hr
    obtain ⟨_, _, _, hrM, _, _⟩ := tickRate_eq hI hM hM2 hc hc2 hr
    refine ⟨s, r, rfl, hr, hrM, ?_⟩
    simp [min_eq_left hrM]
  | succ k ih =>
    intro s r hI hM hc hr
    obtain ⟨et, hc0, hr0, hrM, e1, e2⟩ := tickRate_eq hI hM hM2 hc hc2 hr
    obtain ⟨s1, _, _, _, t, ht, _, _, _, et1, et2, _⟩ := tick_bounds hI hM hM2 bound hb
    have htt : t = min (roundQ (r + c)) M := F64.fin.inj (et2.symm.trans et)
    obtain ⟨sk, rk, hrun, erk, hrkM, hab⟩ := ih s1 t (tick_inv ht hI)
      ((tick_frame ht).1.trans hM) ((tick_frame ht).2.1.trans hc) et1
    have hs : step bound s Event.tick = some s1 := ht
    refine ⟨sk, rk, by rw [ticks_succ, run_cons, hs, Option.some_bind]; exact hrun, erk, hrkM,
      ?_⟩
    have hk : (0 : ℚ) ≤ (k : ℚ) * c := mul_nonneg (Nat.cast_nonneg k) hc0
    have h1 : min (t + (k : ℚ) * c) M = min (roundQ (r + c) + (k : ℚ) * c) M := by
      rw [htt, min_min_add _ _ _ hk]
    have h2 : |min (roundQ (r + c) + (k : ℚ) * c) M - min (r + c + (k : ℚ) * c) M| ≤
        (M + c) / 2 ^ 53 := by
      refine le_trans (abs_min_sub_min_le_max _ _ _ _) ?_
      rw [sub_self, abs_zero]
      have h3 : roundQ (r + c) + (k : ℚ) * c - (r + c + (k : ℚ) * c) =
          roundQ (r + c) - (r + c) := by ring
      rw [h3]
      apply max_le
      · rw [abs_le]
        constructor <;> linarith
      · have : (0 : ℚ) ≤ M + c := by linarith
        positivity
    have h4 : r + ((k + 1 : Nat) : ℚ) * c = r + c + (k : ℚ) * c := by
      push_cast; ring
    rw [h4]
    rw [h1] at hab
    have h5 : rk - min (r + c + (k : ℚ) * c) M =
        (rk - min (roundQ (r + c) + (k : ℚ) * c) M) +
          (min (roundQ (r + c) + (k : ℚ) * c) M - min (r + c + (k : ℚ) * c) M) := by ring
    rw [h5]
    refine le_trans (abs_add _ _) ?_
    have h6 : ((k + 1 : Nat) : ℚ) * (M + c) / 2 ^ 53 =
        (k : ℚ) * (M + c) / 2 ^ 53 + (M + c) / 2 ^ 53 := by
      push_cast; ring
    rw [h6]
    linarith

/-! ## Recovery -/

theorem pow2_76 : pow2 76 = 2 ^ 76 := by
  rw [pow2_eq]
  norm_num

theorem pow2_neg900_le : pow2 (-1022) * 2 ^ 100 ≤ pow2 (-900) := by
  have e : (2 : ℚ) ^ 100 = pow2 100 := by
    rw [pow2_eq]; norm_num
  rw [e, ← pow2_add]
  exact pow2_le (by norm_num)

/-- Three roundings with relative error `u` lose at most `3 * u`. -/
theorem recovery_arith (Md A R c rd u : ℚ) (hu0 : 0 ≤ u) (hMd : 0 ≤ Md)
    (hA : Md * (1 - u) ≤ A) (hR0 : 0 < R) (hR : R ≤ rd * (1 + u))
    (hc : A / R * (1 - u) ≤ c) (hc0 : 0 ≤ c) : Md * (1 - 3 * u) ≤ c * rd := by
  have h1u : 0 < 1 + u := by linarith
  have h1 : A * (1 - u) ≤ c * R := by
    have := mul_le_mul_of_nonneg_right hc hR0.le
    have e : A / R * (1 - u) * R = A * (1 - u) := by
      field_simp
    rw [e] at this
    exact this
  have h2 : c * R ≤ c * (rd * (1 + u)) := mul_le_mul_of_nonneg_left hR hc0
  have h3 : Md * (1 - 3 * u) * (1 + u) ≤ Md * (1 - u) * (1 - u) := by
    have e : Md * (1 - u) * (1 - u) - Md * (1 - 3 * u) * (1 + u) = Md * (4 * u ^ 2) := by ring
    have : 0 ≤ Md * (4 * u ^ 2) := by positivity
    linarith
  by_cases hu1 : u ≤ 1
  · have h4 : Md * (1 - u) * (1 - u) ≤ A * (1 - u) :=
      mul_le_mul_of_nonneg_right hA (by linarith)
    have h5 : Md * (1 - 3 * u) * (1 + u) ≤ c * rd * (1 + u) := by
      have e : c * (rd * (1 + u)) = c * rd * (1 + u) := by ring
      linarith
    exact le_of_mul_le_mul_right h5 h1u
  · have h6 : Md * (1 - 3 * u) ≤ 0 := by
      apply mul_nonpos_of_nonneg_of_nonpos hMd
      linarith
    have hrd : 0 ≤ rd := by
      by_contra hn
      have : rd * (1 + u) < 0 := mul_neg_of_neg_of_pos (not_le.mp hn) h1u
      linarith
    have := mul_nonneg hc0 hrd
    linarith

/-- The product `maxFlowPerD * float64(d)` for a cap `M` with `2 ^ -900 ≤ M ≤ 2 ^ 52`. -/
theorem mul_d_bounds (M : ℚ) (hM1 : pow2 (-900) ≤ M) (hM2 : M ≤ 2 ^ 52) :
    F64.mul (F64.fin M) (F64.fin 10000000) = F64.fin (roundQ (M * 10000000)) ∧
      M * 10000000 * (1 - 1 / 2 ^ 53) ≤ roundQ (M * 10000000) ∧
      roundQ (M * 10000000) ≤ pow2 76 ∧ pow2 (-900) ≤ roundQ (M * 10000000) := by
  have hM0 : 0 < M := lt_of_lt_of_le (pow2_pos _) hM1
  have hA0 : 0 ≤ M * 10000000 := by positivity
  have hAle : M * 10000000 ≤ pow2 76 := by
    rw [pow2_76]
    calc M * 10000000 ≤ 2 ^ 52 * 10000000 := mul_le_mul_of_nonneg_right hM2 (by norm_num)
      _ ≤ 2 ^ 76 := by norm_num
  have hMA : M ≤ M * 10000000 := le_mul_of_one_le_right hM0.le (by norm_num)
  have hAn : pow2 (-1022) ≤ M * 10000000 :=
    le_trans (le_trans (pow2_le (by norm_num)) hM1) hMA
  have e76 := isF64_pow2 76 (by norm_num)
  refine ⟨round64_eq_fin _ _ hA0 hAle e76 (pow2_lt (by norm_num)), ?_,
    roundQ_le_of_le _ _ hA0 hAle e76,
    le_roundQ_of_le _ _ (pow2_pos _).le (le_trans hM1 hMA) (isF64_pow2 _ (by norm_num))⟩
  have := sub_roundQ_le_of_normal _ hAn
  rw [pow2_neg53] at this
  have e : M * 10000000 * (1 - 1 / 2 ^ 53) = M * 10000000 - 1 / 2 ^ 53 * (M * 10000000) := by
    ring
  rw [e]
  linarith

/-- The conversion `float64(recoveryDuration)` of a positive `time.Duration`. -/
theorem ofInt_duration_bounds (recoveryDuration : Int) (hr : 0 < recoveryDuration)
    (hr2 : recoveryDuration ≤ maxDuration) :
    ∃ R : ℚ, F64.ofInt recoveryDuration = F64.fin R ∧ 1 ≤ R ∧ R ≤ 2 ^ 63 ∧
      R ≤ (recoveryDuration : ℚ) * (1 + 1 / 2 ^ 53) := by
  have hrd1 : (1 : ℚ) ≤ (recoveryDuration : ℚ) := by exact_mod_cast hr
  have h63 : IsF64 ((2 ^ 63 : Nat) : ℚ) := by
    rw [← pow2_natCast]
    exact isF64_pow2 _ (by norm_num)
  have hy : (recoveryDuration : ℚ) ≤ ((2 ^ 63 : Nat) : ℚ) := by
    have : recoveryDuration ≤ ((2 ^ 63 : Nat) : Int) := by
      unfold maxDuration at hr2
      norm_num at hr2 ⊢
      omega
    exact_mod_cast this
  have hlt : ((2 ^ 63 : Nat) : ℚ) < pow2 1024 := by
    rw [← pow2_natCast]
    exact pow2_lt (by norm_num)
  refine ⟨roundQ (recoveryDuration : ℚ), round64_eq_fin _ _ (by linarith) hy h63 hlt,
    le_roundQ_of_le _ 1 (by norm_num) hrd1 isF64_one, ?_, ?_⟩
  · have := roundQ_le_of_le _ _ (by linarith) hy h63
    push_cast at this
    exact this
  · have h2 : pow2 (-1022) ≤ (recoveryDuration : ℚ) :=
      le_trans (pow2_le (by norm_num : (-1022 : Int) ≤ 0)) (by rw [pow2_zero]; exact hrd1)
    have := roundQ_sub_le_of_normal _ h2
    rw [pow2_neg53] at this
    have e : (recoveryDuration : ℚ) * (1 + 1 / 2 ^ 53) =
        (recoveryDuration : ℚ) + 1 / 2 ^ 53 * (recoveryDuration : ℚ) := by ring
    rw [e]
    linarith

/-- The quotient of the product by the converted duration. -/
theorem div_duration_bounds (A R : ℚ) (hA1 : pow2 (-900) ≤ A) (hA2 : A ≤ pow2 76)
    (hR1 : 1 ≤ R) (hR2 : R ≤ 2 ^ 63) :
    F64.div (F64.fin A) (F64.fin R) = F64.fin (roundQ (A / R)) ∧
      A / R * (1 - 1 / 2 ^ 53) ≤ roundQ (A / R) ∧ 0 ≤ roundQ (A / R) ∧
      roundQ (A / R) ≤ 2 ^ 100 := by
  have hR0 : 0 < R := by linarith
  have hA0 : 0 < A := lt_of_lt_of_le (pow2_pos _) hA1
  have hQ0 : 0 ≤ A / R := div_nonneg hA0.le hR0.le
  have hQle : A / R ≤ pow2 76 := le_trans (div_le_self hA0.le hR1) hA2
  have e76 := isF64_pow2 76 (by norm_num)
  have hQn : pow2 (-1022) ≤ A / R := by
    rw [le_div_iff₀ hR0]
    have h1 : pow2 (-1022) * R ≤ pow2 (-1022) * 2 ^ 100 := by
      apply mul_le_mul_of_nonneg_left _ (pow2_pos _).le
      have : (2 : ℚ) ^ 63 ≤ 2 ^ 100 := by norm_num
      linarith
    exact le_trans h1 (le_trans pow2_neg900_le hA1)
  refine ⟨?_, ?_, roundQ_nonneg _ hQ0, ?_⟩
  · rw [div_fin_fin _ _ hR0.ne']
    exact round64_eq_fin _ _ hQ0 hQle e76 (pow2_lt (by norm_num))
  · have := sub_roundQ_le_of_normal _ hQn
    rw [pow2_neg53] at this
    have e : A / R * (1 - 1 / 2 ^ 53) = A / R - 1 / 2 ^ 53 * (A / R) := by ring
    rw [e]
    linarith
  · have h7 := roundQ_le_of_le _ _ hQ0 hQle e76
    rw [pow2_76] at h7
    have : (2 : ℚ) ^ 76 ≤ 2 ^ 100 := by norm_num
    linarith

/-- The recovery step the constructor computes, for a cap `M` with `2 ^ -900 ≤ M ≤ 2 ^ 52` and a
positive `recoveryDuration`: it is finite, at most `2 ^ 100`, and `recoveryDuration` times it is
at least `M * d * (1 - 3 / 2 ^ 53)`. -/
theorem initial_recoveryPerD_ge (m : F64) (bucketSize : Nat) (recoveryDuration : Int) (M : ℚ)
    (hM : (initial m bucketSize recoveryDuration).maxFlowPerD = F64.fin M)
    (hM1 : pow2 (-900) ≤ M) (hM2 : M ≤ 2 ^ 52) (hr : 0 < recoveryDuration)
    (hr2 : recoveryDuration ≤ maxDuration) :
    ∃ c : ℚ, (initial m bucketSize recoveryDuration).recoveryPerD = F64.fin c ∧ 0 ≤ c ∧
      c ≤ 2 ^ 100 ∧
      M * 10000000 * (1 - 3 * (1 / 2 ^ 53)) ≤ c * (recoveryDuration : ℚ) := by
  obtain ⟨R, eR, hR1, hR2, hR3⟩ := ofInt_duration_bounds recoveryDuration hr hr2
  obtain ⟨a1, a2, a3, a4⟩ := mul_d_bounds M hM1 hM2
  obtain ⟨b1, b2, b3, b4⟩ := div_duration_bounds _ R a4 a3 hR1 hR2
  have hM0 : 0 < M := lt_of_lt_of_le (pow2_pos _) hM1
  refine ⟨roundQ (roundQ (M * 10000000) / R), ?_, b3, b4, ?_⟩
  · show F64.div (F64.mul (initial m bucketSize recoveryDuration).maxFlowPerD (F64.ofInt d))
      (F64.ofInt recoveryDuration) = _
    rw [hM, ofInt_d, a1, eR, b1]
  · exact recovery_arith (M * 10000000) (roundQ (M * 10000000)) R _ _ (1 / 2 ^ 53)
      (by positivity) (by positivity) a2 (by linarith) hR3 b2 b3

/-! ## The rate climbs back -/

theorem climb_arith (c u : ℚ) (j : Nat) (hc : 0 ≤ c) (hu : 0 ≤ u) :
    ((j + 1 : Nat) : ℚ) * c * (1 - ((j + 1 : Nat) : ℚ) * u) ≤
      ((j : ℚ) * c * (1 - (j : ℚ) * u) + c) * (1 - u) := by
  have e : ((j : ℚ) * c * (1 - (j : ℚ) * u) + c) * (1 - u) -
      ((j + 1 : Nat) : ℚ) * c * (1 - ((j + 1 : Nat) : ℚ) * u) =
      c * ((j : ℚ) * u + (j : ℚ) ^ 2 * u ^ 2) := by
    push_cast
    ring
  have hj : (0 : ℚ) ≤ (j : ℚ) := Nat.cast_nonneg j
  have : 0 ≤ c * ((j : ℚ) * u + (j : ℚ) ^ 2 * u ^ 2) := by positivity
  linarith

/-- One tick keeps the rate above the line that climbs by the recovery step, less the
rounding. -/
theorem tick_rate_lower {s : TokenBucket} (hI : Inv s) {M c r : ℚ}
    (hM : s.maxFlowPerD = F64.fin M) (hc : s.recoveryPerD = F64.fin c)
    (hr : s.flowPerD = F64.fin r) (j : Nat)
    (h : min ((j : ℚ) * c * (1 - (j : ℚ) * (1 / 2 ^ 53))) M ≤ r) :
    min (((j + 1 : Nat) : ℚ) * c * (1 - ((j + 1 : Nat) : ℚ) * (1 / 2 ^ 53))) M ≤
      min (roundQ (r + c)) M := by
  obtain ⟨hc0, hc1, _⟩ := nonNeg_of_eq_fin hI.2.1 hc
  obtain ⟨hr0, hr1, _⟩ := nonNeg_of_eq_fin hI.2.2.1 hr
  have e2 := sub_roundQ_add_le hr1 hc1 hr0 hc0
  rw [pow2_neg53] at e2
  have hF : r ≤ roundQ (r + c) := le_roundQ_of_le _ _ hr0 (by linarith) hr1
  apply le_min _ (min_le_right _ _)
  by_cases hj : (j : ℚ) * c * (1 - (j : ℚ) * (1 / 2 ^ 53)) ≤ M
  · rw [min_eq_left hj] at h
    have h1 := climb_arith c (1 / 2 ^ 53) j hc0 (by positivity)
    have h2 : ((j : ℚ) * c * (1 - (j : ℚ) * (1 / 2 ^ 53)) + c) * (1 - 1 / 2 ^ 53) ≤
        (r + c) * (1 - 1 / 2 ^ 53) :=
      mul_le_mul_of_nonneg_right (by linarith) (by norm_num)
    have h3 : (r + c) * (1 - 1 / 2 ^ 53) ≤ roundQ (r + c) := by
      have e : (r + c) * (1 - 1 / 2 ^ 53) = (r + c) - 1 / 2 ^ 53 * (r + c) := by ring
      rw [e]
      linarith
    exact le_trans (min_le_left _ _) (le_trans h1 (le_trans h2 h3))
  · rw [min_eq_right (not_le.mp hj).le] at h
    exact le_trans (min_le_right _ _) (le_trans h hF)

/-- One tick keeps the rate above the line, which stops climbing after `2 ^ 40` ticks. -/
theorem tick_rate_lower_cap {s : TokenBucket} (hI : Inv s) {M c r : ℚ}
    (hM : s.maxFlowPerD = F64.fin M) (hc : s.recoveryPerD = F64.fin c)
    (hr : s.flowPerD = F64.fin r) (j : Nat)
    (h : min (((min j (2 ^ 40) : Nat) : ℚ) * c *
      (1 - ((min j (2 ^ 40) : Nat) : ℚ) * (1 / 2 ^ 53))) M ≤ r) :
    min (((min (j + 1) (2 ^ 40) : Nat) : ℚ) * c *
      (1 - ((min (j + 1) (2 ^ 40) : Nat) : ℚ) * (1 / 2 ^ 53))) M ≤ min (roundQ (r + c)) M := by
  by_cases hj : j < 2 ^ 40
  · rw [Nat.min_eq_left hj.le] at h
    rw [Nat.min_eq_left hj]
    exact tick_rate_lower hI hM hc hr j h
  · have hj1 : 2 ^ 40 ≤ j := not_lt.mp hj
    rw [Nat.min_eq_right hj1] at h
    rw [Nat.min_eq_right (Nat.le_succ_of_le hj1)]
    obtain ⟨hc0, hc1, _⟩ := nonNeg_of_eq_fin hI.2.1 hc
    obtain ⟨hr0, hr1, _⟩ := nonNeg_of_eq_fin hI.2.2.1 hr
    have hF : r ≤ roundQ (r + c) := le_roundQ_of_le _ _ hr0 (by linarith) hr1
    exact le_min (le_trans h hF) (min_le_right _ _)

theorem count_tick_cons_tick (es : List Event) :
    (Event.tick :: es).count Event.tick = es.count Event.tick + 1 := by
  simp

theorem count_tick_cons_consume (es : List Event) :
    (Event.consume :: es).count Event.tick = es.count Event.tick := by
  simp

/-- Over events with no backoff among them the rate stays above the line that climbs by the
recovery step at each tick, less the rounding, or at the cap. -/
theorem run_rate_lower (bound : Nat) (hb : 2 ^ 53 ≤ bound) (M c : ℚ) (hM2 : M ≤ 2 ^ 52)
    (hc2 : c ≤ 2 ^ 100) (es : List Event) :
    ∀ (j : Nat) (s : TokenBucket) (r : ℚ), Event.backoff ∉ es → Inv s →
      s.maxFlowPerD = F64.fin M → s.recoveryPerD = F64.fin c → s.flowPerD = F64.fin r →
      min (((min j (2 ^ 40) : Nat) : ℚ) * c *
        (1 - ((min j (2 ^ 40) : Nat) : ℚ) * (1 / 2 ^ 53))) M ≤ r →
      ∃ (si : TokenBucket) (ri : ℚ), run bound s es = some si ∧ Inv si ∧
        si.maxFlowPerD = F64.fin M ∧ si.flowPerD = F64.fin ri ∧ ri ≤ M ∧
        min (((min (j + es.count Event.tick) (2 ^ 40) : Nat) : ℚ) * c *
          (1 - ((min (j + es.count Event.tick) (2 ^ 40) : Nat) : ℚ) * (1 / 2 ^ 53))) M ≤ ri := by
  induction es with
  | nil =>
    intro j s r _ hI hM hc hr h
    obtain ⟨_, _, _, hrM, _, _⟩ := tickRate_eq hI hM hM2 hc hc2 hr
    exact ⟨s, r, rfl, hI, hM, hr, hrM, h⟩
  | cons e es ih =>
    intro j s r hes hI hM hc hr h
    have hes1 : Event.backoff ∉ es := fun hmem => hes (List.mem_cons_of_mem _ hmem)
    cases e with
    | tick =>
      obtain ⟨et, _, _, _, _, _⟩ := tickRate_eq hI hM hM2 hc hc2 hr
      obtain ⟨s1, _, _, _, t, ht, _, _, _, et1, et2, _⟩ := tick_bounds hI hM hM2 bound hb
      have htt : t = min (roundQ (r + c)) M := F64.fin.inj (et2.symm.trans et)
      have hlow := tick_rate_lower_cap hI hM hc hr j h
      rw [← htt] at hlow
      obtain ⟨si, ri, hrun, hIi, hMi, eri, hriM, hge⟩ := ih (j + 1) s1 t hes1 (tick_inv ht hI)
        ((tick_frame ht).1.trans hM) ((tick_frame ht).2.1.trans hc) et1 hlow
      have hs : step bound s Event.tick = some s1 := ht
      refine ⟨si, ri, by rw [run_cons, hs, Option.some_bind]; exact hrun, hIi, hMi, eri, hriM,
        ?_⟩
      have e : j + (Event.tick :: es).count Event.tick = j + 1 + es.count Event.tick := by
        rw [count_tick_cons_tick]; omega
      rw [e]
      exact hge
    | backoff => exact absurd (List.mem_cons_self _ _) hes
    | consume =>
      obtain ⟨si, ri, hrun, hIi, hMi, eri, hriM, hge⟩ := ih j (consume s) r hes1 (consume_inv hI)
        hM hc hr h
      have hs : step bound s Event.consume = some (consume s) := rfl
      refine ⟨si, ri, by rw [run_cons, hs, Option.some_bind]; exact hrun, hIi, hMi, eri, hriM,
        ?_⟩
      rw [count_tick_cons_consume]
      exact hge

/-- When `k` ticks last at least `recoveryDuration` and `k ≤ 2 ^ 40`, the line has climbed to
the cap, less `k + 3` roundings. -/
theorem recovered_arith (M c rd : ℚ) (k : Nat) (hM : 0 ≤ M) (hc : 0 ≤ c) (hrd : 0 < rd)
    (hk : rd ≤ (k : ℚ) * 10000000) (hk2 : (k : ℚ) ≤ 2 ^ 40)
    (hcrd : M * 10000000 * (1 - 3 * (1 / 2 ^ 53)) ≤ c * rd) :
    M * (1 - ((k : ℚ) + 3) / 2 ^ 53) ≤ min ((k : ℚ) * c * (1 - (k : ℚ) * (1 / 2 ^ 53))) M := by
  have hk0 : (0 : ℚ) ≤ (k : ℚ) := Nat.cast_nonneg k
  have h1 : M * (1 - 3 * (1 / 2 ^ 53)) ≤ (k : ℚ) * c := by
    have h2 : c * rd ≤ c * ((k : ℚ) * 10000000) := mul_le_mul_of_nonneg_left hk hc
    have h3 : M * (1 - 3 * (1 / 2 ^ 53)) * 10000000 ≤ (k : ℚ) * c * 10000000 := by
      have e1 : M * (1 - 3 * (1 / 2 ^ 53)) * 10000000 =
          M * 10000000 * (1 - 3 * (1 / 2 ^ 53)) := by ring
      have e2 : (k : ℚ) * c * 10000000 = c * ((k : ℚ) * 10000000) := by ring
      rw [e1, e2]
      linarith
    exact le_of_mul_le_mul_right h3 (by norm_num)
  have h4 : (0 : ℚ) ≤ 1 - (k : ℚ) * (1 / 2 ^ 53) := by
    have : (k : ℚ) * (1 / 2 ^ 53) ≤ 2 ^ 40 * (1 / 2 ^ 53) :=
      mul_le_mul_of_nonneg_right hk2 (by positivity)
    have : (2 : ℚ) ^ 40 * (1 / 2 ^ 53) ≤ 1 := by norm_num
    linarith
  have h5 : M * (1 - 3 * (1 / 2 ^ 53)) * (1 - (k : ℚ) * (1 / 2 ^ 53)) ≤
      (k : ℚ) * c * (1 - (k : ℚ) * (1 / 2 ^ 53)) :=
    mul_le_mul_of_nonneg_right h1 h4
  have h6 : M * (1 - ((k : ℚ) + 3) / 2 ^ 53) ≤
      M * (1 - 3 * (1 / 2 ^ 53)) * (1 - (k : ℚ) * (1 / 2 ^ 53)) := by
    have e : M * (1 - 3 * (1 / 2 ^ 53)) * (1 - (k : ℚ) * (1 / 2 ^ 53)) -
        M * (1 - ((k : ℚ) + 3) / 2 ^ 53) = M * (3 * (k : ℚ) * (1 / 2 ^ 53) ^ 2) := by ring
    have : 0 ≤ M * (3 * (k : ℚ) * (1 / 2 ^ 53) ^ 2) := by positivity
    linarith
  apply le_min (le_trans h6 h5)
  have h7 : (0 : ℚ) ≤ ((k : ℚ) + 3) / 2 ^ 53 := by positivity
  have : M * (1 - ((k : ℚ) + 3) / 2 ^ 53) = M - M * (((k : ℚ) + 3) / 2 ^ 53) := by ring
  have := mul_nonneg hM h7
  linarith

theorem recovered_99 (M : ℚ) (k : Nat) (hM : 0 ≤ M) (hk2 : (k : ℚ) ≤ 2 ^ 40) :
    99 / 100 * M ≤ M * (1 - ((k : ℚ) + 3) / 2 ^ 53) := by
  have h1 : ((k : ℚ) + 3) / 2 ^ 53 ≤ (2 ^ 40 + 3) / 2 ^ 53 :=
    div_le_div_of_nonneg_right (by linarith) (by positivity)
  have h2 : ((2 : ℚ) ^ 40 + 3) / 2 ^ 53 ≤ 1 / 100 := by norm_num
  have h3 : M * (((k : ℚ) + 3) / 2 ^ 53) ≤ M * (1 / 100) :=
    mul_le_mul_of_nonneg_left (le_trans h1 h2) hM
  have e : M * (1 - ((k : ℚ) + 3) / 2 ^ 53) = M - M * (((k : ℚ) + 3) / 2 ^ 53) := by ring
  rw [e]
  linarith

/-- Recovery: in a state with the cap `M` and the recovery step `c` of the constructor, after
events with no backoff among them whose `n` ticks last at least `recoveryDuration`, the rate is
below the cap by at most `min n (2 ^ 40) + 3` roundings, so between 99% of the cap and the
cap. -/
theorem run_recovered (bound : Nat) (hb : 2 ^ 53 ≤ bound) (M c : ℚ)
    (recoveryDuration : Int) (hM0 : 0 ≤ M) (hM2 : M ≤ 2 ^ 52) (hc2 : c ≤ 2 ^ 100)
    (hr : 0 < recoveryDuration) (hr2 : recoveryDuration ≤ maxDuration)
    (hcrd : M * 10000000 * (1 - 3 * (1 / 2 ^ 53)) ≤ c * (recoveryDuration : ℚ))
    (es : List Event) (hes : Event.backoff ∉ es)
    (hn : recoveryDuration ≤ (es.count Event.tick : Int) * d)
    (s : TokenBucket) (hI : Inv s) (hM : s.maxFlowPerD = F64.fin M)
    (hc : s.recoveryPerD = F64.fin c) :
    ∃ (sn : TokenBucket) (rn : ℚ), run bound s es = some sn ∧ Inv sn ∧
      sn.maxFlowPerD = F64.fin M ∧ sn.flowPerD = F64.fin rn ∧
      M * (1 - (((min (es.count Event.tick) (2 ^ 40) : Nat) : ℚ) + 3) / 2 ^ 53) ≤ rn ∧
      99 / 100 * M ≤ rn ∧ rn ≤ M := by
  obtain ⟨hc0, _, _⟩ := nonNeg_of_eq_fin hI.2.1 hc
  have hMle : F64.le s.maxFlowPerD (F64.fin (2 ^ 52)) = true := by
    rw [hM]; exact decide_eq_true hM2
  obtain ⟨_, r, _, _, _, er, _, _, _, _, _, _, hr0, _, _, _, _, _, _⟩ := hI.fin hMle
  have hrd : (0 : ℚ) < (recoveryDuration : ℚ) := by exact_mod_cast hr
  have hk2 : ((min (es.count Event.tick) (2 ^ 40) : Nat) : ℚ) ≤ 2 ^ 40 := by
    have : min (es.count Event.tick) (2 ^ 40) ≤ 2 ^ 40 := Nat.min_le_right _ _
    exact_mod_cast this
  have hk3 : (recoveryDuration : ℚ) ≤
      ((min (es.count Event.tick) (2 ^ 40) : Nat) : ℚ) * 10000000 := by
    have h1 : recoveryDuration ≤
        ((min (es.count Event.tick) (2 ^ 40) : Nat) : Int) * 10000000 := by
      unfold maxDuration at hr2
      unfold d at hn
      rcases Nat.le_total (es.count Event.tick) (2 ^ 40) with h | h
      · rw [Nat.min_eq_left h]; omega
      · rw [Nat.min_eq_right h]
        norm_num at hr2 ⊢
        omega
    exact_mod_cast h1
  have h0 : min (((min 0 (2 ^ 40) : Nat) : ℚ) * c *
      (1 - ((min 0 (2 ^ 40) : Nat) : ℚ) * (1 / 2 ^ 53))) M ≤ r := by
    rw [Nat.zero_min]
    simp only [Nat.cast_zero, zero_mul]
    exact le_trans (min_le_left _ _) hr0
  obtain ⟨sn, rn, hrun, hIn, hMn, ern, hrnM, hge⟩ :=
    run_rate_lower bound hb M c hM2 hc2 es 0 s r hes hI hM hc er h0
  rw [Nat.zero_add] at hge
  have h1 := recovered_arith M c _ (min (es.count Event.tick) (2 ^ 40)) hM0 hc0 hrd hk3 hk2 hcrd
  have h2 := recovered_99 M (min (es.count Event.tick) (2 ^ 40)) hM0 hk2
  exact ⟨sn, rn, hrun, hIn, hMn, ern, le_trans h1 hge, le_trans h2 (le_trans h1 hge), hrnM⟩

/-! ## Draining the channel -/

theorem consumeN_succ (n : Nat) (s : TokenBucket) :
    consumeN (n + 1) s = consumeN n (consume s) := rfl

theorem consumeN_frame (n : Nat) :
    ∀ s : TokenBucket, (consumeN n s).maxFlowPerD = s.maxFlowPerD ∧
      (consumeN n s).recoveryPerD = s.recoveryPerD ∧ (consumeN n s).flowPerD = s.flowPerD ∧
      (consumeN n s).fill = s.fill ∧ (consumeN n s).sent = s.sent ∧
      (consumeN n s).bucket.capacity = s.bucket.capacity ∧
      (consumeN n s).bucket.buffer = s.bucket.buffer.drop n := by
  induction n with
  | zero => intro s; exact ⟨rfl, rfl, rfl, rfl, rfl, rfl, by simp [consumeN]⟩
  | succ n ih =>
    intro s
    obtain ⟨a1, a2, a3, a4, a5, a6, a7⟩ := ih (consume s)
    rw [consumeN_succ]
    refine ⟨a1, a2, a3, a4, a5, a6.trans (receive_capacity _), ?_⟩
    rw [a7]
    show List.drop n (receive s.bucket).buffer = _
    rw [receive_buffer, List.drop_drop]
    congr 1
    omega

theorem consumeN_waiting (n : Nat) :
    ∀ s : TokenBucket, n ≤ s.bucket.buffer.length →
      (consumeN n s).bucket.waiting = s.bucket.waiting := by
  induction n with
  | zero => intro s _; rfl
  | succ n ih =>
    intro s h
    rw [consumeN_succ]
    have hb : (consume s).bucket.buffer = s.bucket.buffer.drop 1 := receive_buffer _
    have h1 : n ≤ (consume s).bucket.buffer.length := by
      rw [hb, List.length_drop]; omega
    rw [ih (consume s) h1]
    show (receive s.bucket).waiting = _
    unfold receive
    split
    · next h2 => rw [h2] at h; exact absurd h (by simp)
    · rfl

theorem consumeN_inv (n : Nat) : ∀ s : TokenBucket, Inv s → Inv (consumeN n s) := by
  induction n with
  | zero => intro s h; exact h
  | succ n ih => intro s h; exact ih (consume s) (consume_inv h)

/-- The drain empties the buffer and leaves the rates, the fill, the count of tokens minted, the
capacity and the blocked receivers alone. -/
theorem drain_frame (s : TokenBucket) :
    (drain s).maxFlowPerD = s.maxFlowPerD ∧ (drain s).recoveryPerD = s.recoveryPerD ∧
      (drain s).flowPerD = s.flowPerD ∧ (drain s).fill = s.fill ∧ (drain s).sent = s.sent ∧
      (drain s).bucket.capacity = s.bucket.capacity ∧ (drain s).bucket.buffer = [] ∧
      (drain s).bucket.waiting = s.bucket.waiting := by
  obtain ⟨a1, a2, a3, a4, a5, a6, a7⟩ := consumeN_frame s.bucket.buffer.length s
  refine ⟨a1, a2, a3, a4, a5, a6, ?_, consumeN_waiting _ s le_rfl⟩
  show (consumeN s.bucket.buffer.length s).bucket.buffer = []
  rw [a7]
  simp

theorem drain_inv {s : TokenBucket} (hI : Inv s) : Inv (drain s) := consumeN_inv _ s hI

/-! ## The state after recovery -/

/-- From the constructor, whatever events came first, events with no backoff among them whose
ticks last at least `recoveryDuration` complete and leave the rate below the cap by at most
`min n (2 ^ 40) + 3` roundings. -/
theorem recovered_state (maxFlowPerSecond : F64) (bucketSize recoveryDuration : Int)
    (s0 : TokenBucket) (es es2 : List Event) (bound : Nat) (M : ℚ)
    (hm : F64.le (F64.fin 0) maxFlowPerSecond = true) (hr : 0 < recoveryDuration)
    (hr2 : recoveryDuration ≤ maxDuration)
    (h0 : NewAIMDTokenBucket maxFlowPerSecond bucketSize recoveryDuration = some s0)
    (hM : s0.maxFlowPerD = F64.fin M) (hM1 : M = 0 ∨ pow2 (-900) ≤ M) (hM2 : M ≤ 2 ^ 52)
    (hb : 2 ^ 53 ≤ bound) (hes : Event.backoff ∉ es2)
    (hn : recoveryDuration ≤ (es2.count Event.tick : Int) * d) :
    ∃ (s sn : TokenBucket) (rn : ℚ), run bound s0 es = some s ∧ run bound s es2 = some sn ∧
      Inv sn ∧ sn.maxFlowPerD = F64.fin M ∧ sn.flowPerD = F64.fin rn ∧
      M * (1 - (((min (es2.count Event.tick) (2 ^ 40) : Nat) : ℚ) + 3) / 2 ^ 53) ≤ rn ∧
      99 / 100 * M ≤ rn ∧ rn ≤ M ∧ sn.bucket.capacity = bucketSize.toNat ∧ 0 ≤ bucketSize := by
  obtain ⟨hbs, rfl⟩ := new_eq_some _ _ _ _ h0
  have hI0 := initial_inv maxFlowPerSecond bucketSize.toNat recoveryDuration hm hr hr2
  have hMle0 : F64.le (initial maxFlowPerSecond bucketSize.toNat recoveryDuration).maxFlowPerD
      (F64.fin (2 ^ 52)) = true := by
    rw [hM]; exact decide_eq_true hM2
  obtain ⟨s, hs⟩ := run_total bound hb es _ hI0 hMle0
  have hIs := run_inv es hs hI0
  obtain ⟨fM, fc, fcap⟩ := run_frame es hs
  have hMs : s.maxFlowPerD = F64.fin M := fM.trans hM
  have hMles : F64.le s.maxFlowPerD (F64.fin (2 ^ 52)) = true := by
    rw [hMs]; exact decide_eq_true hM2
  rcases hM1 with h | h
  · obtain ⟨sn, hsn⟩ := run_total bound hb es2 s hIs hMles
    have hIn := run_inv es2 hsn hIs
    obtain ⟨gM, _, gcap⟩ := run_frame es2 hsn
    have hMn : sn.maxFlowPerD = F64.fin M := gM.trans hMs
    have hMlen : F64.le sn.maxFlowPerD (F64.fin (2 ^ 52)) = true := by
      rw [hMn]; exact decide_eq_true hM2
    obtain ⟨M1, r, _, _, eM, er, _, _, _, _, _, _, hr0, hrM, _, _, _, _, _⟩ := hIn.fin hMlen
    have hMM : M1 = M := F64.fin.inj (eM.symm.trans hMn)
    rw [hMM, h] at hrM
    refine ⟨s, sn, r, hs, hsn, hIn, hMn, er, ?_, ?_, ?_, (gcap.trans fcap), hbs⟩
    · rw [h, zero_mul]; exact hr0
    · rw [h, mul_zero]; exact hr0
    · rw [h]; exact hrM
  · obtain ⟨c, hc, _, hc2, hcrd⟩ := initial_recoveryPerD_ge maxFlowPerSecond bucketSize.toNat
      recoveryDuration M hM h hM2 hr hr2
    have hM0 : 0 ≤ M := le_trans (pow2_pos _).le h
    obtain ⟨sn, rn, hsn, hIn, hMn, ern, b1, b2, b3⟩ := run_recovered bound hb M c
      recoveryDuration hM0 hM2 hc2 hr hr2 hcrd es2 hes hn s hIs hMs (fc.trans hc)
    obtain ⟨_, _, gcap⟩ := run_frame es2 hsn
    exact ⟨s, sn, rn, hs, hsn, hIn, hMn, ern, b1, b2, b3, (gcap.trans fcap), hbs⟩

/-- After a drain with no receiver blocked, `m` ticks complete and the channel holds the tokens
they mint, up to the capacity; the fill and the tokens minted grow by the rate, less the
rounding. -/
theorem drain_ticks_bounds (bound : Nat) (hb : 2 ^ 53 ≤ bound) (M : ℚ) (hM2 : M ≤ 2 ^ 52)
    (m : Nat) (sn : TokenBucket) (hI : Inv sn) (hM : sn.maxFlowPerD = F64.fin M) (r : ℚ)
    (hr : sn.flowPerD = F64.fin r) :
    ∃ (sm : TokenBucket) (f fm : ℚ), run bound (drain sn) (ticks m) = some sm ∧
      sn.fill = F64.fin f ∧ sm.fill = F64.fin fm ∧ 0 ≤ fm ∧ fm < 1 ∧ sn.sent ≤ sm.sent ∧
      (sn.bucket.waiting = 0 →
        sm.bucket.buffer.length = min sn.bucket.capacity (sm.sent - sn.sent)) ∧
      (sm.sent : ℚ) + fm ≤ (sn.sent : ℚ) + f + (m : ℚ) * (M + (1 + M) / 2 ^ 53) ∧
      (sn.sent : ℚ) + f + (m : ℚ) * (r - (1 + M) / 2 ^ 53) ≤ (sm.sent : ℚ) + fm := by
  obtain ⟨d1, _, d3, d4, d5, d6, d7, d8⟩ := drain_frame sn
  obtain ⟨sm, f, fm, q, _, hrun, _, _, ef, efm, eq, _, _, _, hf0, hf1, hle, hge, hsent, hbk⟩ :=
    run_ticks_bounds bound hb M hM2 m (drain sn) (drain_inv hI) (d1.trans hM)
  have hq : q = r := F64.fin.inj (eq.symm.trans (d3.trans hr))
  rw [d5] at hle hge hsent
  rw [hq] at hge
  refine ⟨sm, f, fm, hrun, d4.symm.trans ef, efm, hf0, hf1, hsent, ?_, hle, hge⟩
  intro hw
  obtain ⟨b1, _, _⟩ := hbk (d8.trans hw) (by rw [d7]; exact Nat.zero_le _)
  rw [b1, d6, d7, d5]
  simp

/-! ## The claims about the queue, the constructor, `Backoff` and `Stop` -/

/-- C3: queue bound invariant.  For every `bucketSize ≥ 0` (the sizes for which the constructor
returns), in every state reached by a finite sequence of tick, backoff and receive events the
channel `Bucket` holds at most `bucketSize` tokens.  The bound holds for every
`maxFlowPerSecond` and `recoveryDuration`, NaN and the infinities included.  For
`maxFlowPerSecond ≥ 0` with a cap of at most `2 ^ 52` tokens per tick and `recoveryDuration > 0`
every such sequence does reach a state, within `2 ^ 53` iterations of the loop of each tick. -/
theorem queue_bound_invariant (maxFlowPerSecond : F64) (bucketSize recoveryDuration : Int)
    (s0 : TokenBucket) (es : List Event) (bound : Nat)
    (h0 : NewAIMDTokenBucket maxFlowPerSecond bucketSize recoveryDuration = some s0) :
    (∀ s, run bound s0 es = some s → (s.bucket.buffer.length : Int) ≤ bucketSize) ∧
    (F64.le (F64.fin 0) maxFlowPerSecond = true → 0 < recoveryDuration →
      recoveryDuration ≤ maxDuration → F64.le s0.maxFlowPerD (F64.fin (2 ^ 52)) = true →
      2 ^ 53 ≤ bound → ∃ s, run bound s0 es = some s) := by
  obtain ⟨hb, rfl⟩ := new_eq_some _ _ _ _ h0
  refine ⟨?_, fun hm hr hr2 hM hbd => run_total bound hbd es _
    (initial_inv maxFlowPerSecond bucketSize.toNat recoveryDuration hm hr hr2) hM⟩
  intro s hrun
  have h := run_buffer_le es hrun (Nat.zero_le _)
  rw [(run_frame es hrun).2.2] at h
  have h2 : (initial maxFlowPerSecond bucketSize.toNat recoveryDuration).bucket.capacity =
      bucketSize.toNat := rfl
  rw [h2] at h
  omega

/-- C3, at `NewAIMDTokenBucket(150, 2, 3s)` after four ticks, a receive and two more ticks, which
mint nine tokens for a channel of capacity two. -/
theorem queue_bound_invariant_witness :
    ∃ s, run 2 (initial (F64.fin 150) 2 3000000000)
        [Event.tick, Event.tick, Event.tick, Event.tick, Event.consume, Event.tick,
          Event.tick] = some s ∧ s.sent = 9 ∧ (s.bucket.buffer.length : Int) ≤ 2 := by
  have h : (run 2 (initial (F64.fin 150) 2 3000000000)
      [Event.tick, Event.tick, Event.tick, Event.tick, Event.consume, Event.tick,
        Event.tick]).map (fun s => s.sent) = some 9 := by decide!
  obtain ⟨s, hs, h9⟩ := Option.map_eq_some'.mp h
  exact ⟨s, hs, h9,
    (queue_bound_invariant (F64.fin 150) 2 3000000000 (initial (F64.fin 150) 2 3000000000) _ 2
      rfl).1 s hs⟩

/-- C4: immediately after construction the token queue is empty.  For every `maxFlowPerSecond`,
`bucketSize` and `recoveryDuration` the constructor returns a state when `bucketSize ≥ 0`, and
the state it returns has no token in `Bucket`, fill `0` and current rate `maxFlowPerD`, the
binary64 value of `maxFlowPerSecond * float64(d) / float64(time.Second)`. -/
theorem initial_queue_empty (maxFlowPerSecond : F64) (bucketSize recoveryDuration : Int) :
    (0 ≤ bucketSize →
      ∃ s0, NewAIMDTokenBucket maxFlowPerSecond bucketSize recoveryDuration = some s0) ∧
    ∀ s0, NewAIMDTokenBucket maxFlowPerSecond bucketSize recoveryDuration = some s0 →
      s0.bucket.buffer.length = 0 ∧ s0.fill = F64.fin 0 ∧ s0.flowPerD = s0.maxFlowPerD ∧
        s0.maxFlowPerD =
          F64.div (F64.mul maxFlowPerSecond (F64.ofInt d)) (F64.ofInt second) := by
  constructor
  · intro hb
    refine ⟨initial maxFlowPerSecond bucketSize.toNat recoveryDuration, ?_⟩
    unfold NewAIMDTokenBucket
    rw [if_neg (not_lt.mpr hb)]
  · intro s0 h0
    obtain ⟨_, rfl⟩ := new_eq_some _ _ _ _ h0
    exact ⟨rfl, rfl, rfl, rfl⟩

/-- C4, at `NewAIMDTokenBucket(1.5, 4, 3s)`, the constructor call of `TestIntial`. -/
theorem initial_queue_empty_witness :
    (initial (F64.fin (3 / 2)) 4 3000000000).bucket.buffer.length = 0 ∧
      (initial (F64.fin (3 / 2)) 4 3000000000).fill = F64.fin 0 ∧
      (initial (F64.fin (3 / 2)) 4 3000000000).flowPerD =
        (initial (F64.fin (3 / 2)) 4 3000000000).maxFlowPerD ∧
      (initial (F64.fin (3 / 2)) 4 3000000000).maxFlowPerD =
        F64.div (F64.mul (F64.fin (3 / 2)) (F64.ofInt d)) (F64.ofInt second) :=
  (initial_queue_empty (F64.fin (3 / 2)) 4 3000000000).2
    (initial (F64.fin (3 / 2)) 4 3000000000) rfl

/-- C5 fails as stated: `NewAIMDTokenBucket(1.5, 4, 3s)` returns a channel of capacity four that
holds no token. -/
theorem initial_bucket_not_full :
    NewAIMDTokenBucket (F64.fin (3 / 2)) 4 3000000000 =
        some (initial (F64.fin (3 / 2)) 4 3000000000) ∧
      (initial (F64.fin (3 / 2)) 4 3000000000).bucket.capacity = 4 ∧
      (initial (F64.fin (3 / 2)) 4 3000000000).bucket.buffer.length = 0 ∧
      ((initial (F64.fin (3 / 2)) 4 3000000000).bucket.buffer.length : Int) ≠ 4 := by
  refine ⟨rfl, rfl, rfl, ?_⟩
  decide

/-- C5, amended: the bucket is empty initially.  For every `maxFlowPerSecond`, `bucketSize` and
`recoveryDuration`, the state the constructor returns has a channel of capacity `bucketSize`
that holds no token, so that it holds `bucketSize` tokens only when `bucketSize = 0`. -/
theorem initial_bucket_empty (maxFlowPerSecond : F64) (bucketSize recoveryDuration : Int)
    (s0 : TokenBucket)
    (h0 : NewAIMDTokenBucket maxFlowPerSecond bucketSize recoveryDuration = some s0) :
    s0.bucket.buffer = [] ∧ (s0.bucket.capacity : Int) = bucketSize ∧
      ((s0.bucket.buffer.length : Int) = bucketSize ↔ bucketSize = 0) := by
  obtain ⟨hb, rfl⟩ := new_eq_some _ _ _ _ h0
  refine ⟨rfl, Int.toNat_of_nonneg hb, ?_⟩
  show (((([] : List F64).length : Nat) : Int) = bucketSize ↔ bucketSize = 0)
  simp only [List.length_nil, Nat.cast_zero]
  exact eq_comm

/-- C5 amended, at `NewAIMDTokenBucket(17, 34, 3s)`, the constructor call of `TestNewStop`. -/
theorem initial_bucket_empty_witness :
    (initial (F64.fin 17) 34 3000000000).bucket.buffer = [] ∧
      ((initial (F64.fin 17) 34 3000000000).bucket.capacity : Int) = 34 ∧
      (((initial (F64.fin 17) 34 3000000000).bucket.buffer.length : Int) = 34 ↔
        (34 : Int) = 0) :=
  initial_bucket_empty (F64.fin 17) 34 3000000000 (initial (F64.fin 17) 34 3000000000) rfl

/-- C11: fractional fill invariant.  For every `maxFlowPerSecond ≥ 0` (the positive infinity
included) and `recoveryDuration > 0`, the fill satisfies `0 ≤ fill < 1` in the initial state, in
every state reached from it by a finite sequence of events (ticks and backoffs, and receives as
well), and after every tick that completes from such a state.  When the cap is at most
`2 ^ 52` tokens per tick, every such sequence does complete, within `2 ^ 53` iterations of the
loop of each tick. -/
theorem fill_invariant (maxFlowPerSecond : F64) (bucketSize recoveryDuration : Int)
    (s0 : TokenBucket) (es : List Event) (bound : Nat)
    (hm : F64.le (F64.fin 0) maxFlowPerSecond = true) (hr : 0 < recoveryDuration)
    (hr2 : recoveryDuration ≤ maxDuration)
    (h0 : NewAIMDTokenBucket maxFlowPerSecond bucketSize recoveryDuration = some s0) :
    (F64.le (F64.fin 0) s0.fill = true ∧ F64.lt s0.fill (F64.fin 1) = true) ∧
    (∀ s, run bound s0 es = some s →
      F64.le (F64.fin 0) s.fill = true ∧ F64.lt s.fill (F64.fin 1) = true) ∧
    (∀ s s1, run bound s0 es = some s → tick bound s = some s1 →
      F64.le (F64.fin 0) s1.fill = true ∧ F64.lt s1.fill (F64.fin 1) = true) ∧
    (F64.le s0.maxFlowPerD (F64.fin (2 ^ 52)) = true → 2 ^ 53 ≤ bound →
      ∃ s, run bound s0 es = some s) := by
  obtain ⟨_, rfl⟩ := new_eq_some _ _ _ _ h0
  have hI0 := initial_inv maxFlowPerSecond bucketSize.toNat recoveryDuration hm hr hr2
  refine ⟨⟨zero_le_of_nonNeg hI0.2.2.2.2.1, hI0.2.2.2.2.2⟩, ?_, ?_, ?_⟩
  · intro s hs
    have hI := run_inv es hs hI0
    exact ⟨zero_le_of_nonNeg hI.2.2.2.2.1, hI.2.2.2.2.2⟩
  · intro s s1 hs ht
    have hI := tick_inv ht (run_inv es hs hI0)
    exact ⟨zero_le_of_nonNeg hI.2.2.2.2.1, hI.2.2.2.2.2⟩
  · intro hM hb
    exact run_total bound hb es _ hI0 hM

/-- C11, at `NewAIMDTokenBucket(150, 2, 3s)` after two ticks, a backoff and a tick. -/
theorem fill_invariant_witness :
    ∃ s, run 2 (initial (F64.fin 150) 2 3000000000)
        [Event.tick, Event.tick, Event.backoff, Event.tick] = some s ∧
      F64.le (F64.fin 0) s.fill = true ∧ F64.lt s.fill (F64.fin 1) = true := by
  have h : (run 2 (initial (F64.fin 150) 2 3000000000)
      [Event.tick, Event.tick, Event.backoff, Event.tick]).isSome = true := by decide!
  obtain ⟨s, hs⟩ := Option.isSome_iff_exists.mp h
  exact ⟨s, hs,
    (fill_invariant (F64.fin 150) 2 3000000000 (initial (F64.fin 150) 2 3000000000)
      [Event.tick, Event.tick, Event.backoff, Event.tick] 2 (by decide!) (by norm_num)
      (by decide) rfl).2.1 s hs⟩

/-- C14: backoff frame.  A backoff signal changes the current rate and nothing else: the fill,
the queue (the number, the values and the order of its tokens, and the receivers blocked on it),
the capacity of the queue, `maxFlowPerD` and `recoveryPerD` are as they were. -/
theorem backoff_frame (bound : Nat) (s : TokenBucket) :
    step bound s Event.backoff = some (backoff s) ∧
      (backoff s).fill = s.fill ∧ (backoff s).bucket = s.bucket ∧
      (backoff s).bucket.capacity = s.bucket.capacity ∧
      (backoff s).maxFlowPerD = s.maxFlowPerD ∧
      (backoff s).recoveryPerD = s.recoveryPerD ∧
      (backoff s).sent = s.sent ∧
      backoff s = { s with flowPerD := F64.div s.flowPerD (F64.fin 2) } :=
  ⟨rfl, rfl, rfl, rfl, rfl, rfl, rfl, rfl⟩

/-- C15: `Stop` halts production without destroying tokens.  `Stop` leaves the goroutine's state,
and so the queue, as it is.  Every finite sequence of events after `Stop` reaches a state, and in
it no send has been made: the queue is what it was at `Stop` less the tokens received since, it
never grows, the token a receive finds next is the one that was queued in that place before
`Stop`, and the receivers have got the tokens queued at `Stop` in their order.  For backoff and
receive events the states are those the event loop reaches without a tick. -/
theorem stop_keeps_tokens (bound : Nat) (tb : Handle) (es : List Event) :
    (Stop tb).state = tb.state ∧
    ∃ tb1, runHandle bound (Stop tb) es = some tb1 ∧
      tb1.state.bucket.buffer = tb.state.bucket.buffer.drop (es.count Event.consume) ∧
      tb1.state.sent = tb.state.sent ∧
      tb1.state.bucket.buffer.length ≤ tb.state.bucket.buffer.length ∧
      tb1.state.bucket.buffer.head? = tb.state.bucket.buffer[es.count Event.consume]? ∧
      tb1.state.bucket.received =
        tb.state.bucket.received ++ tb.state.bucket.buffer.take (es.count Event.consume) ∧
      ((∀ e ∈ es, e = Event.backoff ∨ e = Event.consume) →
        run bound tb.state es = some tb1.state) := by
  obtain ⟨tb1, h1, _, h2, h3, h4, _⟩ := runHandle_stopped bound es (Stop tb) rfl
  have h2b : tb1.state.bucket.buffer = tb.state.bucket.buffer.drop (es.count Event.consume) :=
    h2
  refine ⟨rfl, tb1, h1, h2b, h4, ?_, ?_, h3, ?_⟩
  · rw [h2b, List.length_drop]
    omega
  · rw [h2b, List.head?_drop]
  · intro hes
    have hne : ∀ e ∈ es, e ≠ Event.tick := by
      intro e he
      rcases hes e he with h | h <;> rw [h] <;> decide
    have h5 := runHandle_of_no_tick bound es (Stop tb) hne
    rw [h1, Option.map_some'] at h5
    exact h5.symm

/-- C15, at `NewAIMDTokenBucket(150, 4, 3s)` stopped after three ticks, which queue four tokens,
followed by a receive, a backoff and a receive: two tokens are left. -/
theorem stop_keeps_tokens_witness :
    ∃ s tb1, run 2 (initial (F64.fin 150) 4 3000000000) (ticks 3) = some s ∧
      s.bucket.buffer.length = 4 ∧
      runHandle 2 (Stop ⟨s, false⟩) [Event.consume, Event.backoff, Event.consume] = some tb1 ∧
      tb1.state.bucket.buffer = s.bucket.buffer.drop 2 ∧
      run 2 s [Event.consume, Event.backoff, Event.consume] = some tb1.state := by
  have h : (run 2 (initial (F64.fin 150) 4 3000000000) (ticks 3)).map
      (fun s => s.bucket.buffer.length) = some 4 := by decide!
  obtain ⟨s, hs, h4⟩ := Option.map_eq_some'.mp h
  obtain ⟨_, tb1, a1, a2, _, _, _, _, a7⟩ :=
    stop_keeps_tokens 2 ⟨s, false⟩ [Event.consume, Event.backoff, Event.consume]
  exact ⟨s, tb1, hs, h4, a1, a2, a7 (by decide)⟩

/-! ## The claims about the rate bound, the send and the values of the tests -/

/-- C1 fails as stated: the per-second rate can exceed `maxFlowPerSecond`.  At
`NewAIMDTokenBucket(107, 4, 3s)` the rate the constructor sets is
`maxFlowPerD = 1.0700000000000000621...`: a hundred times that is more than `107`, and the
conversion `flowPerD * float64(time.Second) / float64(d)` gives `107.00000000000001`. -/
theorem rate_per_second_exceeds_max :
    NewAIMDTokenBucket (F64.fin 107) 4 3000000000 = some (initial (F64.fin 107) 4 3000000000) ∧
      (initial (F64.fin 107) 4 3000000000).flowPerD =
        F64.fin (4818851601286431 / 4503599627370496) ∧
      (107 : ℚ) < 4818851601286431 / 4503599627370496 * 100 ∧
      perSecond (initial (F64.fin 107) 4 3000000000).flowPerD =
        F64.fin (7529455627010049 / 70368744177664) ∧
      F64.le (perSecond (initial (F64.fin 107) 4 3000000000).flowPerD) (F64.fin 107) =
        false := by
  refine ⟨rfl, by decide!, by norm_num, by decide!, by decide!⟩

/-- C1, amended: rate bound invariant per tick.  For every `maxFlowPerSecond ≥ 0` and
`recoveryDuration > 0`, in every state reached from the initial state by a finite sequence of
events the current rate satisfies `0 ≤ flowPerD ≤ maxFlowPerD`, `maxFlowPerD` is the value the
constructor computed, and the per-second rate is not negative.  When the cap is at most
`2 ^ 52` tokens per tick every such sequence reaches a state. -/
theorem rate_bound_invariant (maxFlowPerSecond : F64) (bucketSize recoveryDuration : Int)
    (s0 : TokenBucket) (es : List Event) (bound : Nat)
    (hm : F64.le (F64.fin 0) maxFlowPerSecond = true) (hr : 0 < recoveryDuration)
    (hr2 : recoveryDuration ≤ maxDuration)
    (h0 : NewAIMDTokenBucket maxFlowPerSecond bucketSize recoveryDuration = some s0) :
    (∀ s, run bound s0 es = some s →
      F64.le (F64.fin 0) s.flowPerD = true ∧ F64.le s.flowPerD s.maxFlowPerD = true ∧
        s.maxFlowPerD = s0.maxFlowPerD ∧ F64.le (F64.fin 0) (perSecond s.flowPerD) = true) ∧
    (F64.le s0.maxFlowPerD (F64.fin (2 ^ 52)) = true → 2 ^ 53 ≤ bound →
      ∃ s, run bound s0 es = some s) := by
  obtain ⟨_, rfl⟩ := new_eq_some _ _ _ _ h0
  have hI0 := initial_inv maxFlowPerSecond bucketSize.toNat recoveryDuration hm hr hr2
  refine ⟨?_, fun hM hb => run_total bound hb es _ hI0 hM⟩
  intro s hs
  have hI := run_inv es hs hI0
  refine ⟨zero_le_of_nonNeg hI.2.2.1, hI.2.2.2.1, (run_frame es hs).1, ?_⟩
  apply zero_le_of_nonNeg
  show (F64.div (F64.mul s.flowPerD (F64.ofInt second)) (F64.ofInt d)).NonNeg
  rw [ofInt_d, ofInt_second]
  exact div_nonNeg_fin (mul_nonNeg_fin hI.2.2.1 (by norm_num)) (by norm_num)

/-- C1 amended, at `NewAIMDTokenBucket(107, 4, 3s)` after a tick, two backoffs and a tick. -/
theorem rate_bound_invariant_witness :
    ∃ s, run 2 (initial (F64.fin 107) 4 3000000000)
        [Event.tick, Event.backoff, Event.backoff, Event.tick] = some s ∧
      F64.le (F64.fin 0) s.flowPerD = true ∧ F64.le s.flowPerD s.maxFlowPerD = true := by
  have h : (run 2 (initial (F64.fin 107) 4 3000000000)
      [Event.tick, Event.backoff, Event.backoff, Event.tick]).isSome = true := by decide!
  obtain ⟨s, hs⟩ := Option.isSome_iff_exists.mp h
  have h2 := (rate_bound_invariant (F64.fin 107) 4 3000000000
    (initial (F64.fin 107) 4 3000000000)
    [Event.tick, Event.backoff, Event.backoff, Event.tick] 2 (by decide!) (by norm_num)
    (by decide) rfl).1 s hs
  exact ⟨s, hs, h2.1, h2.2.1⟩

/-- C12 fails as stated: a token sent to a queue that already holds `bucketSize` tokens need not
be discarded.  On the channel of `NewAIMDTokenBucket(150, 0, 3s)`, which holds its `0` tokens,
a receive followed by a tick hands the token of value `150` to the blocked receiver, where the
tick alone drops it. -/
theorem sendToken_hands_over :
    (⟨[], 0, 1, []⟩ : Channel).buffer.length = (⟨[], 0, 1, []⟩ : Channel).capacity ∧
      sendToken ⟨[], 0, 1, []⟩ (F64.fin 150) = ⟨[], 0, 0, [F64.fin 150]⟩ ∧
      (run 2 (initial (F64.fin 150) 0 3000000000) [Event.consume, Event.tick]).map
        (fun s => s.bucket) = some ⟨[], 0, 0, [F64.fin 150]⟩ ∧
      (run 2 (initial (F64.fin 150) 0 3000000000) [Event.tick]).map
        (fun s => s.bucket) = some ⟨[], 0, 0, []⟩ := by
  refine ⟨rfl, by decide!, by decide!, by decide!⟩

/-- C12, amended: the non-blocking send.  For every channel and token value `v`, `sendToken`
hands `v` to a receiver that is blocked on the channel and leaves the queue as it is; with no
receiver blocked, it leaves a queue that holds as many tokens as the capacity as it is (the
token is dropped), and appends `v` at the tail of a queue that holds fewer, leaving the earlier
tokens as they are.  In every case the iteration of the mint loop that made the send takes one
off the fill, so that the fill a tick leaves is below one and is the same whatever the channel
holds: no backlog builds up. -/
theorem sendToken_sheds (b : Channel) (v : F64) :
    (0 < b.waiting →
      sendToken b v =
        { b with waiting := b.waiting - 1, received := b.received ++ [v] }) ∧
    (b.waiting = 0 → b.buffer.length = b.capacity → sendToken b v = b) ∧
    (b.waiting = 0 → b.buffer.length < b.capacity →
      sendToken b v = { b with buffer := b.buffer ++ [v] }) ∧
    (∀ (k : Nat) (fill : F64) (sent : Nat), F64.le (F64.fin 1) fill = true →
      mintLoop v (k + 1) fill b sent =
        mintLoop v k (F64.sub fill (F64.fin 1)) (sendToken b v) (sent + 1)) ∧
    (∀ (bound : Nat) (s : TokenBucket),
      (tick bound { s with bucket := b }).map (fun s1 => s1.fill) =
          (tick bound s).map (fun s1 => s1.fill) ∧
        ∀ s1, tick bound { s with bucket := b } = some s1 →
          F64.le (F64.fin 1) s1.fill = false) := by
  refine ⟨?_, ?_, ?_, ?_, ?_⟩
  · intro h
    unfold sendToken
    rw [if_pos h]
  · intro hw h
    unfold sendToken
    rw [if_neg (by omega), if_neg (by omega)]
  · intro hw h
    unfold sendToken
    rw [if_neg (by omega), if_pos h]
  · intro k fill sent h
    rw [mintLoop_succ, if_pos h]
  · intro bound s
    exact ⟨tick_fill_indep bound s b, fun s1 h => tick_exit h⟩

/-- C12 amended, with capacity two: a send with a receiver blocked, a send to the full queue
`[1, 2]`, a send to the queue `[1]`, and the loop iteration that sends to the full queue at
fill `5 / 2`. -/
theorem sendToken_sheds_witness :
    sendToken ⟨[], 2, 1, []⟩ (F64.fin 3) = ⟨[], 2, 0, [F64.fin 3]⟩ ∧
      sendToken ⟨[F64.fin 1, F64.fin 2], 2, 0, []⟩ (F64.fin 3) =
        ⟨[F64.fin 1, F64.fin 2], 2, 0, []⟩ ∧
      sendToken ⟨[F64.fin 1], 2, 0, []⟩ (F64.fin 3) = ⟨[F64.fin 1, F64.fin 3], 2, 0, []⟩ ∧
      mintLoop (F64.fin 3) (1 + 1) (F64.fin (5 / 2)) ⟨[F64.fin 1, F64.fin 2], 2, 0, []⟩ 0 =
        mintLoop (F64.fin 3) 1 (F64.sub (F64.fin (5 / 2)) (F64.fin 1))
          (sendToken ⟨[F64.fin 1, F64.fin 2], 2, 0, []⟩ (F64.fin 3)) (0 + 1) :=
  ⟨(sendToken_sheds ⟨[], 2, 1, []⟩ (F64.fin 3)).1 (by decide),
    (sendToken_sheds ⟨[F64.fin 1, F64.fin 2], 2, 0, []⟩ (F64.fin 3)).2.1 rfl rfl,
    (sendToken_sheds ⟨[F64.fin 1], 2, 0, []⟩ (F64.fin 3)).2.2.1 rfl (by decide),
    (sendToken_sheds ⟨[F64.fin 1, F64.fin 2], 2, 0, []⟩ (F64.fin 3)).2.2.2.1 1
      (F64.fin (5 / 2)) 0 (by decide!)⟩

/-- C9: the code at the input of `TestBackoff`.  For `NewAIMDTokenBucket(1.5, 4, 24h)`, after one
backoff signal before the first tick and then 330 ticks with no receive, the channel holds two
tokens, where the test asserts three. -/
theorem fill_after_backoff :
    NewAIMDTokenBucket (F64.fin (3 / 2)) 4 86400000000000 =
        some (initial (F64.fin (3 / 2)) 4 86400000000000) ∧
      (run 1 (initial (F64.fin (3 / 2)) 4 86400000000000) (Event.backoff :: ticks 330)).map
        (fun s => s.bucket.buffer.length) = some 2 := by
  refine ⟨rfl, by decide!⟩

/-- C13: the code at `NewAIMDTokenBucket(107, 4, 3s)`.  The first tick runs at the cap and
buffers one token, whose value is `107.00000000000001`, more than `maxFlowPerSecond = 107`. -/
theorem token_value_exceeds_max :
    NewAIMDTokenBucket (F64.fin 107) 4 3000000000 = some (initial (F64.fin 107) 4 3000000000) ∧
      (run 1 (initial (F64.fin 107) 4 3000000000) [Event.tick]).map
        (fun s => s.bucket.buffer) = some [F64.fin (7529455627010049 / 70368744177664)] ∧
      (run 1 (initial (F64.fin 107) 4 3000000000) [Event.tick]).map
        (fun s => decide (s.flowPerD = s.maxFlowPerD)) = some true ∧
      (107 : ℚ) < 7529455627010049 / 70368744177664 ∧
      F64.lt (F64.fin 107) (F64.fin (7529455627010049 / 70368744177664)) = true := by
  refine ⟨rfl, by decide!, by decide!, by norm_num, by decide!⟩

/-! ## The claims about the tokens a tick and a run mint -/

/-- C19 fails as stated: the number of sends of a tick is not the integer part of the exact sum
of the fill and the rate.  After two ticks of `NewAIMDTokenBucket(33.33333333333333, 4, 3s)` the
fill is `0.6666666666666666` and the rate after the recovery step is `0.3333333333333333`; their
sum is below one, its integer part is `0`, and the third tick makes one send. -/
theorem tick_mints_not_exact_floor :
    F64.lit (3333333333333333 / 100000000000000) =
        F64.fin (2345624805922133 / 70368744177664) ∧
      (run 1 (initial (F64.lit (3333333333333333 / 100000000000000)) 4 3000000000)
        (ticks 2)).map (fun s => (s.fill, tickRate s, s.sent)) =
        some (F64.fin (6004799503160661 / 9007199254740992),
          F64.fin (6004799503160661 / 18014398509481984), 0) ∧
      ⌊(6004799503160661 / 9007199254740992 + 6004799503160661 / 18014398509481984 : ℚ)⌋₊ =
        0 ∧
      ((run 1 (initial (F64.lit (3333333333333333 / 100000000000000)) 4 3000000000)
        (ticks 2)).bind fun s => (tick 1 s).map fun s1 => (s1.sent - s.sent, s1.fill)) =
        some (1, F64.fin 0) := by
  refine ⟨by decide!, by decide!, ?_, by decide!⟩
  rw [Nat.floor_eq_zero]
  norm_num

/-- C19, amended: one tick mints the integer part of the fill its loop starts with.  For every
state with fill `f ≥ 0` in which the rate after the recovery step is `t ≥ 0` and the binary64 sum
`F` of `f` and `t` is below `2 ^ 53`, the loop of the tick ends after `⌊F⌋` iterations: the tick
makes exactly `⌊F⌋` calls of `sendToken`, one after the other and all with the same value
`flowPerSecond`, sets the rate to `t` and leaves the fill `F - ⌊F⌋`. -/
theorem tick_mints_floor (s : TokenBucket) (bound : Nat) (f t : ℚ)
    (hf : s.fill = F64.fin f) (hf0 : 0 ≤ f) (ht : tickRate s = F64.fin t) (ht0 : 0 ≤ t)
    (h53 : roundQ (f + t) < 2 ^ 53) (hb : ⌊roundQ (f + t)⌋₊ ≤ bound) :
    tickFill s = F64.fin (roundQ (f + t)) ∧
    tick bound s = some { s with
      flowPerD := F64.fin t
      fill := F64.fin (roundQ (f + t) - (⌊roundQ (f + t)⌋₊ : ℚ))
      bucket := sendTokens (perSecond (F64.fin t)) ⌊roundQ (f + t)⌋₊ s.bucket
      sent := s.sent + ⌊roundQ (f + t)⌋₊ } := by
  have hx : 0 ≤ f + t := add_nonneg hf0 ht0
  have h53n : roundQ (f + t) < ((2 ^ 53 : Nat) : ℚ) := by
    push_cast; exact h53
  have hF : tickFill s = F64.fin (roundQ (f + t)) := by
    show F64.add s.fill (tickRate s) = _
    rw [hf, ht]
    show round64 (f + t) = _
    rw [round64_of_nonneg _ hx, if_neg (not_le.mpr (lt_trans h53n pow53_lt))]
  have hml := mintLoop_exact (tickValue s) bound (roundQ (f + t)) s.bucket s.sent
    (isF64_roundQ _ hx) (roundQ_nonneg _ hx) h53n hb
  rw [← hF] at hml
  refine ⟨hF, ?_⟩
  rw [tick_of_mintLoop hml]
  have hv : tickValue s = perSecond (F64.fin t) := by
    show perSecond (tickRate s) = _
    rw [ht]
  rw [hv, ht]

/-- C19 amended, at the first tick of `NewAIMDTokenBucket(150, 4, 3s)`: fill `0`, rate `1.5`,
one send of value `150`, fill `0.5` left. -/
theorem tick_mints_floor_witness :
    tick 1 (initial (F64.fin 150) 4 3000000000) = some { initial (F64.fin 150) 4 3000000000 with
      flowPerD := F64.fin (3 / 2)
      fill := F64.fin (roundQ (0 + 3 / 2) - (⌊roundQ (0 + 3 / 2)⌋₊ : ℚ))
      bucket := sendTokens (perSecond (F64.fin (3 / 2))) ⌊roundQ (0 + 3 / 2)⌋₊
        (initial (F64.fin 150) 4 3000000000).bucket
      sent := (initial (F64.fin 150) 4 3000000000).sent + ⌊roundQ (0 + 3 / 2)⌋₊ } ∧
    roundQ (0 + 3 / 2) = 3 / 2 ∧ ⌊(3 / 2 : ℚ)⌋₊ = 1 := by
  have e : roundQ (0 + 3 / 2) = 3 / 2 := by decide!
  have e1 : ⌊(3 / 2 : ℚ)⌋₊ = 1 := by
    rw [Nat.floor_eq_iff (by norm_num)]
    norm_num
  refine ⟨(tick_mints_floor (initial (F64.fin 150) 4 3000000000) 1 0 (3 / 2) rfl le_rfl
    (by decide!) (by norm_num) (by rw [e]; norm_num) (by rw [e, e1])).2, e, e1⟩

/-- C2 fails as stated: the tokens minted can exceed `n * maxFlowPerD`.  At
`NewAIMDTokenBucket(33.33333333333333, 4, 3s)` the cap is `0.3333333333333333`, three binary64
additions of it reach `1.0`, and the third tick mints a token although three times the cap is
less than one. -/
theorem minted_exceeds_max_rate :
    (initial (F64.lit (3333333333333333 / 100000000000000)) 4 3000000000).maxFlowPerD =
        F64.fin (6004799503160661 / 18014398509481984) ∧
      (run 1 (initial (F64.lit (3333333333333333 / 100000000000000)) 4 3000000000)
        (ticks 3)).map (fun s => s.sent) = some 1 ∧
      (3 : ℚ) * (6004799503160661 / 18014398509481984) < 1 := by
  refine ⟨by decide!, by decide!, by norm_num⟩

/-- C2, amended: the refill rate exceeds the cap by no more than the rounding of the fill.  For
every `maxFlowPerSecond ≥ 0` whose cap `maxFlowPerD` is at most `2 ^ 52` tokens per tick and
every `recoveryDuration > 0`, every finite sequence of tick, backoff and receive events from the
initial state reaches a state, and the number of tokens minted in it (the calls of `sendToken`,
whether the token was handed over, queued or dropped) is at most
`n * (maxFlowPerD + (1 + maxFlowPerD) / 2 ^ 53)`, where `n` is the number of ticks. -/
theorem minted_le_max_rate (maxFlowPerSecond : F64) (bucketSize recoveryDuration : Int)
    (s0 : TokenBucket) (es : List Event) (bound : Nat) (M : ℚ)
    (hm : F64.le (F64.fin 0) maxFlowPerSecond = true) (hr : 0 < recoveryDuration)
    (hr2 : recoveryDuration ≤ maxDuration)
    (h0 : NewAIMDTokenBucket maxFlowPerSecond bucketSize recoveryDuration = some s0)
    (hM : s0.maxFlowPerD = F64.fin M) (hM2 : M ≤ 2 ^ 52) (hb : 2 ^ 53 ≤ bound) :
    ∃ s, run bound s0 es = some s ∧
      (s.sent : ℚ) ≤ (es.count Event.tick : ℚ) * (M + (1 + M) / 2 ^ 53) := by
  obtain ⟨_, rfl⟩ := new_eq_some _ _ _ _ h0
  have hI0 := initial_inv maxFlowPerSecond bucketSize.toNat recoveryDuration hm hr hr2
  obtain ⟨s, f, f1, hrun, ef, _, hf1, hle⟩ := run_sent_le bound hb M hM2 es _ hI0 hM
  have hf : f = 0 := (F64.fin.inj (ef.symm.trans rfl))
  refine ⟨s, hrun, ?_⟩
  have h1 : ((initial maxFlowPerSecond bucketSize.toNat recoveryDuration).sent : ℚ) = 0 := by
    show ((0 : Nat) : ℚ) = 0
    simp
  rw [h1, hf] at hle
  linarith

/-- C2 amended, at `NewAIMDTokenBucket(33.33333333333333, 4, 3s)` and three ticks. -/
theorem minted_le_max_rate_witness :
    ∃ s, run (2 ^ 53) (initial (F64.lit (3333333333333333 / 100000000000000)) 4 3000000000)
        (ticks 3) = some s ∧
      (s.sent : ℚ) ≤ ((ticks 3).count Event.tick : ℚ) *
        (6004799503160661 / 18014398509481984 +
          (1 + 6004799503160661 / 18014398509481984) / 2 ^ 53) :=
  minted_le_max_rate (F64.lit (3333333333333333 / 100000000000000)) 4 3000000000
    (initial (F64.lit (3333333333333333 / 100000000000000)) 4 3000000000) (ticks 3) (2 ^ 53)
    (6004799503160661 / 18014398509481984) (by decide!) (by norm_num) (by decide) rfl
    (by decide!) (by norm_num) le_rfl

/-- C8 fails as stated: after `n` ticks the channel need not hold
`min(bucketSize, ⌊n * maxFlowPerD⌋)` tokens.  At `NewAIMDTokenBucket(10, 4, 3s)` the cap is the
binary64 value of `0.1`, ten times which is more than one, and after ten ticks the fill is
`0.9999999999999999` and the channel holds no token. -/
theorem steady_state_fill_not_floor :
    (initial (F64.fin 10) 4 3000000000).maxFlowPerD =
        F64.fin (3602879701896397 / 36028797018963968) ∧
      min 4 ⌊(10 : ℚ) * (3602879701896397 / 36028797018963968)⌋₊ = 1 ∧
      (run 1 (initial (F64.fin 10) 4 3000000000) (ticks 10)).map
        (fun s => (s.bucket.buffer.length, s.fill)) =
        some (0, F64.fin (9007199254740991 / 9007199254740992)) := by
  refine ⟨by decide!, ?_, by decide!⟩
  have e : ⌊(10 : ℚ) * (3602879701896397 / 36028797018963968)⌋₊ = 1 := by
    rw [Nat.floor_eq_iff (by norm_num)]
    norm_num
  rw [e]
  rfl

/-- C8, amended: steady-state fill with no backoff.  For every `maxFlowPerSecond ≥ 0` whose cap
`maxFlowPerD` is at most `2 ^ 52` tokens per tick, `bucketSize ≥ 0`, `recoveryDuration > 0` and
`n ≥ 0`, the `n` ticks after construction complete, and with no backoff and no receive the
channel then holds exactly `min(bucketSize, k)` tokens, where `k` is the number of tokens minted:
with the fill `0 ≤ f < 1` that is left, `k + f` is within `n * (1 + maxFlowPerD) / 2 ^ 53` of
`n * maxFlowPerD`. -/
theorem steady_state_fill (maxFlowPerSecond : F64) (bucketSize recoveryDuration : Int)
    (s0 : TokenBucket) (n bound : Nat) (M : ℚ)
    (hm : F64.le (F64.fin 0) maxFlowPerSecond = true) (hr : 0 < recoveryDuration)
    (hr2 : recoveryDuration ≤ maxDuration)
    (h0 : NewAIMDTokenBucket maxFlowPerSecond bucketSize recoveryDuration = some s0)
    (hM : s0.maxFlowPerD = F64.fin M) (hM2 : M ≤ 2 ^ 52) (hb : 2 ^ 53 ≤ bound) :
    ∃ (s : TokenBucket) (f : ℚ), run bound s0 (ticks n) = some s ∧ s.fill = F64.fin f ∧
      0 ≤ f ∧ f < 1 ∧
      (s.bucket.buffer.length : Int) = min bucketSize (s.sent : Int) ∧
      (s.sent : ℚ) + f ≤ (n : ℚ) * M + (n : ℚ) * (1 + M) / 2 ^ 53 ∧
      (n : ℚ) * M - (n : ℚ) * (1 + M) / 2 ^ 53 ≤ (s.sent : ℚ) + f := by
  obtain ⟨hbs, rfl⟩ := new_eq_some _ _ _ _ h0
  have hI0 := initial_inv maxFlowPerSecond bucketSize.toNat recoveryDuration hm hr hr2
  obtain ⟨s, f, f1, r, r1, hrun, _, _, ef, ef1, er, _, _, _, hf0, hf1, hle, hge, _, hbk⟩ :=
    run_ticks_bounds bound hb M hM2 n _ hI0 hM
  have hf : f = 0 := F64.fin.inj (ef.symm.trans rfl)
  have hrM : r = M := F64.fin.inj (er.symm.trans hM)
  have h1 : ((initial maxFlowPerSecond bucketSize.toNat recoveryDuration).sent : ℚ) = 0 := by
    show ((0 : Nat) : ℚ) = 0
    simp
  rw [h1, hf] at hle hge
  rw [hrM] at hge
  obtain ⟨b1, _, _⟩ := hbk rfl (Nat.zero_le _)
  refine ⟨s, f1, hrun, ef1, hf0, hf1, ?_, ?_, ?_⟩
  · rw [b1]
    show ((min bucketSize.toNat (0 + (s.sent - 0)) : Nat) : Int) = _
    rw [Nat.zero_add, Nat.sub_zero]
    omega
  · have : (n : ℚ) * (M + (1 + M) / 2 ^ 53) = (n : ℚ) * M + (n : ℚ) * (1 + M) / 2 ^ 53 := by
      ring
    linarith
  · have : (n : ℚ) * (M - (1 + M) / 2 ^ 53) = (n : ℚ) * M - (n : ℚ) * (1 + M) / 2 ^ 53 := by
      ring
    linarith

/-- C8 amended, at `NewAIMDTokenBucket(1.5, 4, 3s)` after 200 ticks, the scenario of `TestRate`:
the channel holds three tokens. -/
theorem steady_state_fill_witness :
    (∃ (s : TokenBucket) (f : ℚ),
      run (2 ^ 53) (initial (F64.fin (3 / 2)) 4 3000000000) (ticks 200) = some s ∧
      s.fill = F64.fin f ∧ 0 ≤ f ∧ f < 1 ∧
      (s.bucket.buffer.length : Int) = min 4 (s.sent : Int) ∧
      (s.sent : ℚ) + f ≤ ((200 : Nat) : ℚ) * (1080863910568919 / 72057594037927936) +
        ((200 : Nat) : ℚ) * (1 + 1080863910568919 / 72057594037927936) / 2 ^ 53 ∧
      ((200 : Nat) : ℚ) * (1080863910568919 / 72057594037927936) -
        ((200 : Nat) : ℚ) * (1 + 1080863910568919 / 72057594037927936) / 2 ^ 53 ≤
          (s.sent : ℚ) + f) ∧
    (run 1 (initial (F64.fin (3 / 2)) 4 3000000000) (ticks 200)).map
      (fun s => s.bucket.buffer.length) = some 3 :=
  ⟨steady_state_fill (F64.fin (3 / 2)) 4 3000000000 (initial (F64.fin (3 / 2)) 4 3000000000)
    200 (2 ^ 53) (1080863910568919 / 72057594037927936) (by decide!) (by norm_num) (by decide)
    rfl (by decide!) (by norm_num) le_rfl, by decide!⟩

/-! ## The claims about the decrease and the increase of the rate -/

theorem run_snoc_backoff (bound : Nat) (s : TokenBucket) (es : List Event) :
    run bound s (es ++ [Event.backoff]) = (run bound s es).map backoff := by
  rw [run_append]
  cases run bound s es with
  | none => rfl
  | some s1 => rfl

/-- C6 fails as stated: a backoff need not leave exactly half the rate.  At
`NewAIMDTokenBucket(1e-320, 4, 3s)` the rate is `20 * 2 ^ -1074`; two backoffs leave
`5 * 2 ^ -1074`, and the third leaves `2 * 2 ^ -1074`, not `2.5 * 2 ^ -1074`. -/
theorem backoff_not_exact_half :
    F64.lit (1 / 10 ^ 320) = F64.fin (2024 * pow2 (-1074)) ∧
      (initial (F64.lit (1 / 10 ^ 320)) 4 3000000000).flowPerD =
        F64.fin (20 * pow2 (-1074)) ∧
      (run 1 (initial (F64.lit (1 / 10 ^ 320)) 4 3000000000) (backoffs 2)).map
        (fun s => s.flowPerD) = some (F64.fin (5 * pow2 (-1074))) ∧
      (run 1 (initial (F64.lit (1 / 10 ^ 320)) 4 3000000000) (backoffs 3)).map
        (fun s => s.flowPerD) = some (F64.fin (2 * pow2 (-1074))) ∧
      (2 * pow2 (-1074) : ℚ) ≠ 5 * pow2 (-1074) / 2 := by
  refine ⟨by decide!, by decide!, by decide!, by decide!, by decide!⟩

/-- C6, amended: multiplicative decrease in binary64.  One backoff signal in a state whose
current rate is the binary64 value `r` leaves the binary64 quotient of `r` by `2`, which is
exactly `r / 2` when `r ≥ 2 ^ -1021`; `N` backoff signals with no tick in between leave exactly
`r / 2 ^ N` as long as `r / 2 ^ N ≥ 2 ^ -1022`, the least normal number.  Every signal is one
halving: a sequence of signals followed by one more is the sequence followed by one backoff. -/
theorem backoff_halves (bound : Nat) (s : TokenBucket) (r : ℚ)
    (hr : s.flowPerD = F64.fin r) (h1 : IsF64 r) (h2 : r < pow2 1024) :
    (step bound s Event.backoff = some (backoff s) ∧
      (backoff s).flowPerD = F64.div (F64.fin r) (F64.fin 2)) ∧
    (pow2 (-1021) ≤ r → (backoff s).flowPerD = F64.fin (r / 2)) ∧
    (∀ N : Nat, pow2 (-1022) ≤ r / 2 ^ N →
      ∃ s1, run bound s (backoffs N) = some s1 ∧ s1.flowPerD = F64.fin (r / 2 ^ N)) ∧
    (∀ N : Nat, run bound s (backoffs N ++ [Event.backoff]) =
      (run bound s (backoffs N)).map backoff) := by
  refine ⟨⟨rfl, ?_⟩, ?_, ?_, ?_⟩
  · show F64.div s.flowPerD (F64.fin 2) = _
    rw [hr]
  · intro h21
    have h0 : 0 ≤ r := le_trans (pow2_pos _).le h21
    rw [(backoff_flowPerD_fin s r hr h0 h1 h2).1, roundQ_half h1 h21]
  · intro N hN
    exact run_backoffs_exact bound N s r hr h1 h2 hN
  · intro N
    exact run_snoc_backoff bound s _

/-- C6 amended, at `NewAIMDTokenBucket(1.5, 4, 3s)` and three backoffs: the rate `0.015` becomes
an eighth of it. -/
theorem backoff_halves_witness :
    ∃ s1, run 1 (initial (F64.fin (3 / 2)) 4 3000000000) (backoffs 3) = some s1 ∧
      s1.flowPerD = F64.fin (1080863910568919 / 72057594037927936 / 2 ^ 3) :=
  (backoff_halves 1 (initial (F64.fin (3 / 2)) 4 3000000000)
    (1080863910568919 / 72057594037927936) (by decide!) (by decide!) (by decide!)).2.2.1 3
    (by decide!)

/-- C17 fails as stated: the rate reaches zero.  At `NewAIMDTokenBucket(1e-320, 4, 3s)`, where
`maxFlowPerSecond > 0`, five backoffs leave the rate `0`, and as the recovery step is `0` the
ticks that follow leave it there. -/
theorem rate_zero_after_backoffs :
    F64.lt (F64.fin 0) (F64.lit (1 / 10 ^ 320)) = true ∧
      (run 1 (initial (F64.lit (1 / 10 ^ 320)) 4 3000000000) (backoffs 5)).map
        (fun s => (s.flowPerD, s.recoveryPerD)) = some (F64.fin 0, F64.fin 0) ∧
      (run 1 (initial (F64.lit (1 / 10 ^ 320)) 4 3000000000) (backoffs 5 ++ ticks 3)).map
        (fun s => s.flowPerD) = some (F64.fin 0) := by
  refine ⟨by decide!, by decide!, by decide!⟩

/-- C17, amended: the rate is never negative, and backoffs bring it to zero.  For every
`maxFlowPerSecond ≥ 0` and `recoveryDuration > 0`, in every state reached by a finite sequence of
events the current rate is `≥ 0`, and finite and at most the cap when the cap is finite.  From
every such state with a finite rate, 2099 backoffs in a row leave the rate exactly `0`, so that
for every `ε > 0` some finite number of backoffs in a row makes it smaller than `ε`.  When the
cap is at most `2 ^ 52` tokens per tick every such sequence reaches a state. -/
theorem rate_nonneg_reaches_zero (maxFlowPerSecond : F64)
    (bucketSize recoveryDuration : Int) (s0 : TokenBucket) (es : List Event) (bound : Nat)
    (hm : F64.le (F64.fin 0) maxFlowPerSecond = true) (hr : 0 < recoveryDuration)
    (hr2 : recoveryDuration ≤ maxDuration)
    (h0 : NewAIMDTokenBucket maxFlowPerSecond bucketSize recoveryDuration = some s0) :
    (∀ s, run bound s0 es = some s →
      F64.le (F64.fin 0) s.flowPerD = true ∧
      (∀ M : ℚ, s0.maxFlowPerD = F64.fin M → ∃ r, s.flowPerD = F64.fin r ∧ 0 ≤ r ∧ r ≤ M) ∧
      (∀ r : ℚ, s.flowPerD = F64.fin r →
        (∃ s1, run bound s (backoffs 2099) = some s1 ∧ s1.flowPerD = F64.fin 0) ∧
        ∀ ε : ℚ, 0 < ε →
          ∃ (N : Nat) (s1 : TokenBucket) (r1 : ℚ),
            run bound s (backoffs N) = some s1 ∧ s1.flowPerD = F64.fin r1 ∧ r1 < ε)) ∧
    (F64.le s0.maxFlowPerD (F64.fin (2 ^ 52)) = true → 2 ^ 53 ≤ bound →
      ∃ s, run bound s0 es = some s) := by
  obtain ⟨_, rfl⟩ := new_eq_some _ _ _ _ h0
  have hI0 := initial_inv maxFlowPerSecond bucketSize.toNat recoveryDuration hm hr hr2
  refine ⟨?_, fun hM hbd => run_total bound hbd es _ hI0 hM⟩
  intro s hrun
  have hI := run_inv es hrun hI0
  refine ⟨zero_le_of_nonNeg hI.2.2.1, ?_, ?_⟩
  · intro M hM
    have hM1 : s.maxFlowPerD = F64.fin M := (run_frame es hrun).1.trans hM
    obtain ⟨r, er, hr0, hrM, _⟩ := le_fin_of_le hI.2.2.1 hM1 hI.2.2.2.1
    exact ⟨r, er, hr0, hrM⟩
  · intro r er
    obtain ⟨hr0, hr1, hr2⟩ := nonNeg_of_eq_fin hI.2.2.1 er
    have hz := run_backoffs_2099 bound s r er hr0 hr1 hr2
    refine ⟨hz, ?_⟩
    intro ε hε
    obtain ⟨s1, a1, a2⟩ := hz
    exact ⟨2099, s1, 0, a1, a2, hε⟩

/-- C17 amended, at `NewAIMDTokenBucket(1.5, 4, 3s)` after a tick and a backoff. -/
theorem rate_nonneg_reaches_zero_witness :
    ∃ s, run 1 (initial (F64.fin (3 / 2)) 4 3000000000) [Event.tick, Event.backoff] = some s ∧
      F64.le (F64.fin 0) s.flowPerD = true ∧
      ∃ r, s.flowPerD = F64.fin r ∧ 0 ≤ r ∧ r ≤ 1080863910568919 / 72057594037927936 := by
  have h : (run 1 (initial (F64.fin (3 / 2)) 4 3000000000)
      [Event.tick, Event.backoff]).isSome = true := by decide!
  obtain ⟨s, hs⟩ := Option.isSome_iff_exists.mp h
  have h2 := (rate_nonneg_reaches_zero (F64.fin (3 / 2)) 4 3000000000
    (initial (F64.fin (3 / 2)) 4 3000000000) [Event.tick, Event.backoff] 1 (by decide!)
    (by norm_num) (by decide) rfl).1 s hs
  exact ⟨s, hs, h2.1, h2.2.1 _ (by decide!)⟩

/-- C18 fails as stated: the rate after `k` ticks is not `min(r + k * recoveryPerD,
maxFlowPerD)`.  At `NewAIMDTokenBucket(1.5, 4, 1s)`, one backoff leaves the rate `0.0075`, and
after 20 ticks the rate is `0.010500000000000015`, which is neither the exact value of
`0.0075 + 20 * recoveryPerD` nor the binary64 value nearest to it. -/
theorem additive_increase_not_exact :
    (backoff (initial (F64.fin (3 / 2)) 4 1000000000)).flowPerD =
        F64.fin (1080863910568919 / 144115188075855872) ∧
      (initial (F64.fin (3 / 2)) 4 1000000000).recoveryPerD =
        F64.fin (5534023222112865 / 36893488147419103232) ∧
      (initial (F64.fin (3 / 2)) 4 1000000000).maxFlowPerD =
        F64.fin (1080863910568919 / 72057594037927936) ∧
      (run 1 (initial (F64.fin (3 / 2)) 4 1000000000) (Event.backoff :: ticks 20)).map
        (fun s => s.flowPerD) = some (F64.fin (6052837899185955 / 576460752303423488)) ∧
      (6052837899185955 / 576460752303423488 : ℚ) ≠
        min (1080863910568919 / 144115188075855872 +
          20 * (5534023222112865 / 36893488147419103232))
          (1080863910568919 / 72057594037927936) ∧
      (6052837899185955 / 576460752303423488 : ℚ) ≠
        roundQ (min (1080863910568919 / 144115188075855872 +
          20 * (5534023222112865 / 36893488147419103232))
          (1080863910568919 / 72057594037927936)) := by
  refine ⟨by decide!, by decide!, by decide!, by decide!, by decide!, by decide!⟩

/-- C18, amended: additive increase is linear and capped up to rounding.  For every state that
satisfies the invariant of the event loop, with current rate `r`, a cap `M ≤ 2 ^ 52` and a
recovery step `c ≤ 2 ^ 100`, a single tick sets the rate to the smaller of the binary64 sum of
`r` and `c`, and `M`, so never above the cap; and for every `k ≥ 0` the `k` ticks in a row
complete and leave a rate that is at most `M` and within `k * (M + c) / 2 ^ 53` of
`min(r + k * c, M)`.  The recovery step of the constructor is the binary64 value of
`maxFlowPerD * float64(d) / float64(recoveryDuration)`. -/
theorem additive_increase (s : TokenBucket) (bound k : Nat) (M c r : ℚ) (hI : Inv s)
    (hM : s.maxFlowPerD = F64.fin M) (hM2 : M ≤ 2 ^ 52) (hc : s.recoveryPerD = F64.fin c)
    (hc2 : c ≤ 2 ^ 100) (hr : s.flowPerD = F64.fin r) (hb : 2 ^ 53 ≤ bound) :
    (tickRate s = F64.min (F64.add (F64.fin r) (F64.fin c)) (F64.fin M) ∧
      tickRate s = F64.fin (min (roundQ (r + c)) M) ∧ min (roundQ (r + c)) M ≤ M) ∧
    (∃ s1, tick bound s = some s1 ∧ s1.flowPerD = F64.fin (min (roundQ (r + c)) M)) ∧
    (∃ (sk : TokenBucket) (rk : ℚ), run bound s (ticks k) = some sk ∧
      sk.flowPerD = F64.fin rk ∧ rk ≤ M ∧
      |rk - min (r + (k : ℚ) * c) M| ≤ (k : ℚ) * (M + c) / 2 ^ 53) ∧
    (∀ (m : F64) (bucketSize : Nat) (recoveryDuration : Int),
      (initial m bucketSize recoveryDuration).recoveryPerD =
        F64.div (F64.mul (initial m bucketSize recoveryDuration).maxFlowPerD (F64.ofInt d))
          (F64.ofInt recoveryDuration)) := by
  obtain ⟨et, _, _, _, _, _⟩ := tickRate_eq hI hM hM2 hc hc2 hr
  refine ⟨⟨?_, et, min_le_right _ _⟩, ?_, run_ticks_rate bound hb M c hM2 hc2 k s r hI hM hc hr,
    fun _ _ _ => rfl⟩
  · unfold tickRate
    rw [hr, hc, hM]
  · obtain ⟨s1, _, _, _, t, ht, _, _, _, et1, et2, _⟩ := tick_bounds hI hM hM2 bound hb
    have htt : t = min (roundQ (r + c)) M := F64.fin.inj (et2.symm.trans et)
    exact ⟨s1, ht, by rw [et1, htt]⟩

/-- C18 amended, at `NewAIMDTokenBucket(1.5, 4, 1s)` after one backoff and for 20 ticks. -/
theorem additive_increase_witness :
    ∃ (sk : TokenBucket) (rk : ℚ),
      run (2 ^ 53) (backoff (initial (F64.fin (3 / 2)) 4 1000000000)) (ticks 20) = some sk ∧
      sk.flowPerD = F64.fin rk ∧ rk ≤ 1080863910568919 / 72057594037927936 ∧
      |rk - min (1080863910568919 / 144115188075855872 +
          ((20 : Nat) : ℚ) * (5534023222112865 / 36893488147419103232))
          (1080863910568919 / 72057594037927936)| ≤
        ((20 : Nat) : ℚ) * (1080863910568919 / 72057594037927936 +
          5534023222112865 / 36893488147419103232) / 2 ^ 53 :=
  (additive_increase (backoff (initial (F64.fin (3 / 2)) 4 1000000000)) (2 ^ 53) 20
    (1080863910568919 / 72057594037927936) (5534023222112865 / 36893488147419103232)
    (1080863910568919 / 144115188075855872) (by decide!) (by decide!) (by norm_num)
    (by decide!) (by norm_num) (by decide!) le_rfl).2.2.1

/-! ## The claims about recovery -/

/-- C7 fails as stated: after ticks that last `recoveryDuration` the rate need not equal
`maxFlowPerD`.  At `NewAIMDTokenBucket(50, 4, 100ms)` the cap is `0.5` tokens per tick; after 60
backoffs and then 10 ticks, which last `100ms`, the rate is `0.49999999999999994`, the binary64
value next below the cap. -/
theorem recovery_not_exact :
    (100000000 : Int) ≤ (((ticks 10).count Event.tick : Nat) : Int) * d ∧
      (run 1 (initial (F64.fin 50) 4 100000000) (backoffs 60 ++ ticks 10)).map
        (fun s => (s.flowPerD, s.maxFlowPerD)) =
        some (F64.fin (9007199254740991 / 18014398509481984), F64.fin (1 / 2)) ∧
      (9007199254740991 / 18014398509481984 : ℚ) < 1 / 2 := by
  refine ⟨by decide!, by decide!, by norm_num⟩

/-- C7, amended: recovery within `recoveryDuration` up to the rounding.  For every
`maxFlowPerSecond ≥ 0` whose cap `maxFlowPerD` is zero or between `2 ^ -900` and `2 ^ 52` tokens
per tick, every `recoveryDuration > 0` and every state reached from the constructor by tick,
backoff and receive events (whatever number of backoffs among them), later events with no
backoff among them whose `n` ticks last at least `recoveryDuration` complete, and the rate is
then at most `maxFlowPerD` and at least `maxFlowPerD * (1 - (min n (2 ^ 40) + 3) / 2 ^ 53)`, so
at least 99% of `maxFlowPerD`. -/
theorem full_recovery (maxFlowPerSecond : F64) (bucketSize recoveryDuration : Int)
    (s0 : TokenBucket) (es es2 : List Event) (bound : Nat) (M : ℚ)
    (hm : F64.le (F64.fin 0) maxFlowPerSecond = true) (hr : 0 < recoveryDuration)
    (hr2 : recoveryDuration ≤ maxDuration)
    (h0 : NewAIMDTokenBucket maxFlowPerSecond bucketSize recoveryDuration = some s0)
    (hM : s0.maxFlowPerD = F64.fin M) (hM1 : M = 0 ∨ pow2 (-900) ≤ M) (hM2 : M ≤ 2 ^ 52)
    (hb : 2 ^ 53 ≤ bound) (hes : Event.backoff ∉ es2)
    (hn : recoveryDuration ≤ ((es2.count Event.tick : Nat) : Int) * d) :
    ∃ (s sn : TokenBucket) (rn : ℚ), run bound s0 es = some s ∧ run bound s es2 = some sn ∧
      sn.maxFlowPerD = F64.fin M ∧ sn.flowPerD = F64.fin rn ∧ rn ≤ M ∧
      M * (1 - (((min (es2.count Event.tick) (2 ^ 40) : Nat) : ℚ) + 3) / 2 ^ 53) ≤ rn ∧
      99 / 100 * M ≤ rn := by
  obtain ⟨s, sn, rn, hs, hsn, _, hMn, ern, b1, b2, b3, _, _⟩ :=
    recovered_state maxFlowPerSecond bucketSize recoveryDuration s0 es es2 bound M hm hr hr2 h0
      hM hM1 hM2 hb hes hn
  exact ⟨s, sn, rn, hs, hsn, hMn, ern, b3, b1, b2⟩

/-- C7 amended, at `NewAIMDTokenBucket(1.5, 4, 1s)` after one backoff and then 100 ticks. -/
theorem full_recovery_witness :
    ∃ (s sn : TokenBucket) (rn : ℚ),
      run (2 ^ 53) (initial (F64.fin (3 / 2)) 4 1000000000) [Event.backoff] = some s ∧
      run (2 ^ 53) s (ticks 100) = some sn ∧
      sn.maxFlowPerD = F64.fin (1080863910568919 / 72057594037927936) ∧
      sn.flowPerD = F64.fin rn ∧ rn ≤ 1080863910568919 / 72057594037927936 ∧
      1080863910568919 / 72057594037927936 *
        (1 - (((min ((ticks 100).count Event.tick) (2 ^ 40) : Nat) : ℚ) + 3) / 2 ^ 53) ≤ rn ∧
      99 / 100 * (1080863910568919 / 72057594037927936) ≤ rn :=
  full_recovery (F64.fin (3 / 2)) 4 1000000000 (initial (F64.fin (3 / 2)) 4 1000000000)
    [Event.backoff] (ticks 100) (2 ^ 53) (1080863910568919 / 72057594037927936) (by decide!)
    (by norm_num) (by decide) rfl (by decide!) (Or.inr (by decide!)) (by norm_num) le_rfl
    (by decide) (by decide!)

/-- C10 fails as stated: after recovery and a drain with fill `f` left, `m` further ticks need
not leave `min(bucketSize, ⌊f + m * maxFlowPerD⌋)` tokens.  At
`NewAIMDTokenBucket(10, 4, 10ms)` with no backoff, one tick lasts `recoveryDuration`; the drain
then leaves the fill `f = maxFlowPerD`, the binary64 value of `0.1`, so that
`⌊f + 9 * maxFlowPerD⌋ = 1`, and 9 further ticks leave no token in the channel. -/
theorem emission_not_exact_floor :
    (10000000 : Int) ≤ (((ticks 1).count Event.tick : Nat) : Int) * d ∧
      (run 1 (initial (F64.fin 10) 4 10000000) (ticks 1)).map
        (fun s => (s.maxFlowPerD, s.flowPerD, (drain s).fill, (drain s).bucket.buffer.length)) =
        some (F64.fin (3602879701896397 / 36028797018963968),
          F64.fin (3602879701896397 / 36028797018963968),
          F64.fin (3602879701896397 / 36028797018963968), 0) ∧
      min 4 ⌊(3602879701896397 / 36028797018963968 +
        9 * (3602879701896397 / 36028797018963968) : ℚ)⌋₊ = 1 ∧
      ((run 1 (initial (F64.fin 10) 4 10000000) (ticks 1)).bind fun s =>
        run 1 (drain s) (ticks 9)).map (fun s => s.bucket.buffer.length) = some 0 := by
  refine ⟨by decide!, by decide!, ?_, by decide!⟩
  have e : ⌊(3602879701896397 / 36028797018963968 +
      9 * (3602879701896397 / 36028797018963968) : ℚ)⌋₊ = 1 := by
    rw [Nat.floor_eq_iff (by norm_num)]
    norm_num
  rw [e]
  rfl

/-- C10, amended: emission after recovery.  For every `maxFlowPerSecond ≥ 0` whose cap
`maxFlowPerD` is zero or between `2 ^ -900` and `2 ^ 52` tokens per tick, `bucketSize ≥ 0` and
`recoveryDuration > 0`: after whatever events, then events with no backoff among them whose `n`
ticks last at least `recoveryDuration`, then a drain that leaves the fill `f`, `m` further ticks
complete, and with no receiver blocked on the channel they leave exactly `min(bucketSize, k)`
tokens in it, where `k` is the number of tokens they mint: with the fill `0 ≤ f' < 1` left,
`k + f'` is at most `f + m * maxFlowPerD + m * (1 + maxFlowPerD) / 2 ^ 53` and at least
`f + m * maxFlowPerD * (1 - (min n (2 ^ 40) + 3) / 2 ^ 53) - m * (1 + maxFlowPerD) / 2 ^ 53`. -/
theorem emission_after_recovery (maxFlowPerSecond : F64) (bucketSize recoveryDuration : Int)
    (s0 : TokenBucket) (es es2 : List Event) (m bound : Nat) (M : ℚ)
    (hm : F64.le (F64.fin 0) maxFlowPerSecond = true) (hr : 0 < recoveryDuration)
    (hr2 : recoveryDuration ≤ maxDuration)
    (h0 : NewAIMDTokenBucket maxFlowPerSecond bucketSize recoveryDuration = some s0)
    (hM : s0.maxFlowPerD = F64.fin M) (hM1 : M = 0 ∨ pow2 (-900) ≤ M) (hM2 : M ≤ 2 ^ 52)
    (hb : 2 ^ 53 ≤ bound) (hes : Event.backoff ∉ es2)
    (hn : recoveryDuration ≤ ((es2.count Event.tick : Nat) : Int) * d) :
    ∃ (s sn sm : TokenBucket) (f fm : ℚ), run bound s0 es = some s ∧
      run bound s es2 = some sn ∧ run bound (drain sn) (ticks m) = some sm ∧
      (drain sn).fill = F64.fin f ∧ sm.fill = F64.fin fm ∧ 0 ≤ fm ∧ fm < 1 ∧
      sn.sent ≤ sm.sent ∧
      (sn.bucket.waiting = 0 →
        (sm.bucket.buffer.length : Int) = min bucketSize ((sm.sent - sn.sent : Nat) : Int)) ∧
      ((sm.sent - sn.sent : Nat) : ℚ) + fm ≤ f + (m : ℚ) * M + (m : ℚ) * (1 + M) / 2 ^ 53 ∧
      f + (m : ℚ) * (M *
          (1 - (((min (es2.count Event.tick) (2 ^ 40) : Nat) : ℚ) + 3) / 2 ^ 53)) -
        (m : ℚ) * (1 + M) / 2 ^ 53 ≤ ((sm.sent - sn.sent : Nat) : ℚ) + fm := by
  obtain ⟨s, sn, rn, hs, hsn, hIn, hMn, ern, b1, _, _, hcap, hbs⟩ :=
    recovered_state maxFlowPerSecond bucketSize recoveryDuration s0 es es2 bound M hm hr hr2 h0
      hM hM1 hM2 hb hes hn
  obtain ⟨sm, f, fm, hrun, ef, efm, hf0, hf1, hsent, hbuf, hle, hge⟩ :=
    drain_ticks_bounds bound hb M hM2 m sn hIn hMn rn ern
  have hcast : ((sm.sent - sn.sent : Nat) : ℚ) = (sm.sent : ℚ) - (sn.sent : ℚ) :=
    Nat.cast_sub hsent
  have hmr : (m : ℚ) * (M *
      (1 - (((min (es2.count Event.tick) (2 ^ 40) : Nat) : ℚ) + 3) / 2 ^ 53)) ≤ (m : ℚ) * rn :=
    mul_le_mul_of_nonneg_left b1 (Nat.cast_nonneg m)
  refine ⟨s, sn, sm, f, fm, hs, hsn, hrun, (drain_frame sn).2.2.2.1.trans ef, efm, hf0, hf1,
    hsent, ?_, ?_, ?_⟩
  · intro hw
    rw [hbuf hw, hcap]
    omega
  · rw [hcast]
    have e : (m : ℚ) * (M + (1 + M) / 2 ^ 53) = (m : ℚ) * M + (m : ℚ) * (1 + M) / 2 ^ 53 := by
      ring
    linarith
  · rw [hcast]
    have e : (m : ℚ) * (rn - (1 + M) / 2 ^ 53) = (m : ℚ) * rn - (m : ℚ) * (1 + M) / 2 ^ 53 := by
      ring
    linarith

/-- C10 amended, at the scenario of `TestRecover`: `NewAIMDTokenBucket(1.5, 4, 1s)`, one backoff,
100 ticks, the drain and 200 further ticks, which leave three tokens in the channel. -/
theorem emission_after_recovery_witness :
    (∃ (s sn sm : TokenBucket) (f fm : ℚ),
      run (2 ^ 53) (initial (F64.fin (3 / 2)) 4 1000000000) [Event.backoff] = some s ∧
      run (2 ^ 53) s (ticks 100) = some sn ∧
      run (2 ^ 53) (drain sn) (ticks 200) = some sm ∧
      (drain sn).fill = F64.fin f ∧ sm.fill = F64.fin fm ∧ 0 ≤ fm ∧ fm < 1 ∧
      sn.sent ≤ sm.sent ∧
      (sn.bucket.waiting = 0 →
        (sm.bucket.buffer.length : Int) = min 4 ((sm.sent - sn.sent : Nat) : Int)) ∧
      ((sm.sent - sn.sent : Nat) : ℚ) + fm ≤
        f + ((200 : Nat) : ℚ) * (1080863910568919 / 72057594037927936) +
          ((200 : Nat) : ℚ) * (1 + 1080863910568919 / 72057594037927936) / 2 ^ 53 ∧
      f + ((200 : Nat) : ℚ) * (1080863910568919 / 72057594037927936 *
          (1 - (((min ((ticks 100).count Event.tick) (2 ^ 40) : Nat) : ℚ) + 3) / 2 ^ 53)) -
        ((200 : Nat) : ℚ) * (1 + 1080863910568919 / 72057594037927936) / 2 ^ 53 ≤
          ((sm.sent - sn.sent : Nat) : ℚ) + fm) ∧
    ((run 1 (initial (F64.fin (3 / 2)) 4 1000000000) (Event.backoff :: ticks 100)).bind
      fun s => run 1 (drain s) (ticks 200)).map
        (fun s => (s.bucket.waiting, s.bucket.buffer.length)) = some (0, 3) :=
  ⟨emission_after_recovery (F64.fin (3 / 2)) 4 1000000000
    (initial (F64.fin (3 / 2)) 4 1000000000) [Event.backoff] (ticks 100) 200 (2 ^ 53)
    (1080863910568919 / 72057594037927936) (by decide!) (by norm_num) (by decide) rfl
    (by decide!) (Or.inr (by decide!)) (by norm_num) le_rfl (by decide) (by decide!),
    by decide!⟩

end AIMDTokenBucket
